import Mathlib

/-!
Verification of the TAiFA finite-automaton engine.

Shallow embedding of the Python sources:
  * `Lab5`   — regex → ε-NFA (Thompson) → DFA (subset construction) →
               merged-final-state table (src/lab5.py);
  * `Lab4`   — NFA → DFA subset construction over string-named states
               (src/lab4pc.py);
  * `Lab2`   — Moore/Mealy minimisation by signature refinement (src/lab2.py);
  * `CheckMoore` — Moore-automata equivalence check (src/checkmoore.py);
  * `Lab1`   — Mealy ↔ Moore conversion with unreachable pruning (src/lab1.py).

Conventions of the embedding:
  * Python dicts are association lists in insertion order; `dict[k] = v`
    replaces in place, `setdefault`-style access appends at the end.
  * Python sets are duplicate-free lists built by insert-if-absent;
    `frozenset` keys are compared by the set-equality test `setEqB`.
  * Generated state names `S{n}` / `q{n}` / `s{n}` are embedded as the
    numeric counter value `n` itself (the numbering is bijective and the
    source uses the names only up to equality).
  * Unbounded `while` loops take an explicit fuel argument and return
    `Option`-values; `none` means the fuel ran out before the loop finished,
    so a `some` result is exactly the value the Python loop computes.
-/

namespace Util

/-- First-match lookup in an association list (Python `dict[k]`). -/
def lookupA {κ ν : Type} [DecidableEq κ] : List (κ × ν) → κ → Option ν
  | [], _ => none
  | e :: rest, k => if e.1 = k then some e.2 else lookupA rest k

/-- First-match lookup with an explicit key-comparison function
(Python `dict` keyed by `frozenset`). -/
def lookupBy {κ ν : Type} (eq : κ → κ → Bool) : List (κ × ν) → κ → Option ν
  | [], _ => none
  | e :: rest, k => if eq e.1 k then some e.2 else lookupBy eq rest k

/-- `dict.get(k, [])` for list-valued association lists. -/
def lookupD {κ ν : Type} [DecidableEq κ] (m : List (κ × List ν)) (k : κ) : List ν :=
  (lookupA m k).getD []

/-- Add an element to a list representing a Python set (`s.add(x)`). -/
def addNew {α : Type} [DecidableEq α] (l : List α) (x : α) : List α :=
  if x ∈ l then l else l ++ [x]

/-- Set-union of two lists representing Python sets (`s |= t`). -/
def unionL {α : Type} [DecidableEq α] (l t : List α) : List α :=
  t.foldl addNew l

/-- Set equality of two lists (Python `frozenset` equality). -/
def setEqB {α : Type} [DecidableEq α] (l t : List α) : Bool :=
  l.all (fun x => decide (x ∈ t)) && t.all (fun x => decide (x ∈ l))

/-- `bs.setdefault(key, []).append(s)` on an insertion-ordered dict. -/
def bucketsAdd {σ α : Type} [DecidableEq σ] (bs : List (σ × List α)) (key : σ) (s : α) :
    List (σ × List α) :=
  if (lookupA bs key).isSome then
    bs.map (fun b => if b.1 = key then (b.1, b.2 ++ [s]) else b)
  else bs ++ [(key, [s])]

/-- Group a list by a signature function, preserving first-occurrence
order of signatures and member order within a group (a Python dict of
lists built with `setdefault`). -/
def buckets {σ α : Type} [DecidableEq σ] (sig : α → σ) (l : List α) : List (σ × List α) :=
  l.foldl (fun bs s => bucketsAdd bs (sig s) s) []

end Util

open Util

/-! ## Lab5 — regex compiler (src/lab5.py)

States created by `new_state()` are embedded as the counter value `n`
standing for the name `S{n}`.  The NFA transition table
`transitions : defaultdict(list)` is the association list `Trans`. -/

namespace Lab5

/-- NFA transition table: state ↦ list of (symbol, target) pairs. -/
abbrev Trans : Type := List (Nat × List (Char × Nat))

/-- `tokenize` of src/lab5.py: spaces dropped, `()` becomes the single
token `ε`, every other character is a token (`'('` is not a space, so
matching the `()` pair first is equivalent to the source's order). -/
def tokenize : List Char → List Char
  | [] => []
  | '(' :: ')' :: rest2 => 'ε' :: tokenize rest2
  | c :: rest => if c = ' ' then tokenize rest else c :: tokenize rest

/-- `insert_concat` of src/lab5.py: a `.` is inserted between adjacent
tokens unless the left one is `|`/`(` or the right one is `|`/`)`/`*`/`+`. -/
def insert_concat : List Char → List Char
  | [] => []
  | [t] => [t]
  | t1 :: t2 :: rest =>
    if (t1 ≠ '|' ∧ t1 ≠ '(') ∧ (t2 ≠ '|' ∧ t2 ≠ ')' ∧ t2 ≠ '*' ∧ t2 ≠ '+') then
      t1 :: '.' :: insert_concat (t2 :: rest)
    else
      t1 :: insert_concat (t2 :: rest)

/-- Operator precedences of `to_postfix` (`prec.get(c, 0)` elsewhere). -/
def prec : Char → Nat
  | '*' => 3
  | '+' => 3
  | '.' => 2
  | '|' => 1
  | _ => 0

/-- Pop operators of precedence ≥ `p` off the stack, stopping at `(`
(the inner `while` of the `.`/`|` cases of `to_postfix`). -/
def popGE (p : Nat) : List Char → List Char × List Char
  | [] => ([], [])
  | s :: rest =>
    if s ≠ '(' ∧ prec s ≥ p then
      let r := popGE p rest
      (s :: r.1, r.2)
    else ([], s :: rest)

/-- Pop operators until a `(` (which is discarded) — the `)` case of
`to_postfix`; if no `(` is present the whole stack is drained. -/
def popToParen : List Char → List Char × List Char
  | [] => ([], [])
  | s :: rest =>
    if s ≠ '(' then
      let r := popToParen rest
      (s :: r.1, r.2)
    else ([], rest)

/-- The shunting-yard loop of `to_postfix`; the stack's head is Python's
`stack[-1]`. -/
def toPostfixLoop : List Char → List Char → List Char → List Char
  | [], out, stack => out ++ stack
  | t :: ts, out, stack =>
    if t = '*' ∨ t = '+' then toPostfixLoop ts (out ++ [t]) stack
    else if t = '.' ∨ t = '|' then
      let r := popGE (prec t) stack
      toPostfixLoop ts (out ++ r.1) (t :: r.2)
    else if t = '(' then toPostfixLoop ts out ('(' :: stack)
    else if t = ')' then
      let r := popToParen stack
      toPostfixLoop ts (out ++ r.1) r.2
    else toPostfixLoop ts (out ++ [t]) stack

/-- `to_postfix` of src/lab5.py. -/
def toPostfix (tokens : List Char) : List Char :=
  toPostfixLoop tokens [] []

/-- `transitions[s].append(p)` on a `defaultdict(list)`. -/
def dAppend (tr : Trans) (s : Nat) (p : Char × Nat) : Trans :=
  if (lookupA tr s).isSome then
    tr.map (fun e => if e.1 = s then (e.1, e.2 ++ [p]) else e)
  else tr ++ [(s, [p])]

/-- `transitions[s] = v` on a `defaultdict(list)`. -/
def dSet (tr : Trans) (s : Nat) (v : List (Char × Nat)) : Trans :=
  if (lookupA tr s).isSome then
    tr.map (fun e => if e.1 = s then (e.1, v) else e)
  else tr ++ [(s, v)]

/-- The errors `build_nfa` can actually raise: `IndexError` from
`stack.pop()` on an empty list, and the plain
`Exception("Ошибка построения НКА.")` when the final stack is not a
singleton.  No `SyntaxError` exists anywhere in src/lab5.py. -/
inductive BuildErr
  | indexError
  | exception
deriving DecidableEq, Repr

/-- The token-evaluation loop of `build_nfa`; fragments are `(start, accept)`
pairs, the stack's head is Python's `stack[-1]`. -/
def buildLoop : List Char → Nat → Trans → List (Nat × Nat) →
    Except BuildErr (Nat × Trans × List (Nat × Nat))
  | [], ctr, tr, stack => .ok (ctr, tr, stack)
  | tok :: rest, ctr, tr, stack =>
    if tok ≠ '*' ∧ tok ≠ '+' ∧ tok ≠ '.' ∧ tok ≠ '|' then
      let s0 := ctr
      let s1 := ctr + 1
      let tr1 := dAppend tr s0 ('ε', s1)
      let tr2 := if tok ≠ 'ε' then dSet tr1 s0 [(tok, s1)] else tr1
      buildLoop rest (ctr + 2) tr2 ((s0, s1) :: stack)
    else if tok = '.' then
      match stack with
      | f2 :: f1 :: st =>
        buildLoop rest ctr (dAppend tr f1.2 ('ε', f2.1)) ((f1.1, f2.2) :: st)
      | _ => .error .indexError
    else if tok = '|' then
      match stack with
      | f2 :: f1 :: st =>
        let s0 := ctr
        let s1 := ctr + 1
        let tr1 := dAppend (dAppend (dAppend (dAppend tr s0 ('ε', f1.1)) s0 ('ε', f2.1))
          f1.2 ('ε', s1)) f2.2 ('ε', s1)
        buildLoop rest (ctr + 2) tr1 ((s0, s1) :: st)
      | _ => .error .indexError
    else if tok = '*' then
      match stack with
      | f1 :: st =>
        let s0 := ctr
        let s1 := ctr + 1
        let tr1 := dAppend (dAppend (dAppend (dAppend tr s0 ('ε', f1.1)) s0 ('ε', s1))
          f1.2 ('ε', f1.1)) f1.2 ('ε', s1)
        buildLoop rest (ctr + 2) tr1 ((s0, s1) :: st)
      | [] => .error .indexError
    else
      match stack with
      | f1 :: st =>
        let s0 := ctr
        let s1 := ctr + 1
        let tr1 := dAppend (dAppend (dAppend tr s0 ('ε', f1.1)) f1.2 ('ε', f1.1))
          f1.2 ('ε', s1)
        buildLoop rest (ctr + 2) tr1 ((s0, s1) :: st)
      | [] => .error .indexError

/-- `build_nfa` of src/lab5.py, threading the global state counter:
returns `(start, accept, transitions, next counter)`. -/
def build_nfa (pfx : List Char) (ctr : Nat) : Except BuildErr (Nat × Nat × Trans × Nat) :=
  match buildLoop pfx ctr [] [] with
  | .error e => .error e
  | .ok (c, tr, [f]) => .ok (f.1, f.2, tr, c)
  | .ok _ => .error .exception

/-- The worklist loop of `epsilon_closure`; the closure is a Python set,
membership-guarded additions preserve duplicate-freedom of discovery. -/
def closureLoop (tr : Trans) : Nat → List Nat → List Nat → Option (List Nat)
  | _, [], cl => some cl
  | 0, _ :: _, _ => none
  | fuel + 1, s :: stck, cl =>
    let step := (lookupD tr s).foldl
      (fun (acc : List Nat × List Nat) (p : Char × Nat) =>
        if p.1 = 'ε' ∧ ¬ p.2 ∈ acc.2 then (p.2 :: acc.1, acc.2 ++ [p.2]) else acc)
      (stck, cl)
    closureLoop tr fuel step.1 step.2

/-- `epsilon_closure` of src/lab5.py (with fuel for the worklist loop). -/
def epsilon_closure (tr : Trans) (fuel : Nat) (states : List Nat) : Option (List Nat) :=
  closureLoop tr fuel states states

/-- `move` of src/lab5.py. -/
def move (tr : Trans) (states : List Nat) (sym : Char) : List Nat :=
  states.foldl
    (fun acc s =>
      (lookupD tr s).foldl
        (fun a p => if p.1 = sym ∧ ¬ p.2 ∈ a then a ++ [p.2] else a) acc)
    []

/-- The per-symbol target of `subset_construction`:
`⋃ {epsilon_closure(move({s}, sym)) : s ∈ current}`. -/
def nxtFor (tr : Trans) (cfuel : Nat) (current : List Nat) (sym : Char) : Option (List Nat) :=
  current.foldl
    (fun acc s =>
      match acc with
      | none => none
      | some l =>
        match epsilon_closure tr cfuel (move tr [s] sym) with
        | none => none
        | some c => some (unionL l c))
    (some [])

/-- Alphabet collection of `subset_construction`: all non-ε symbols. -/
def collectAlph (tr : Trans) : List Char :=
  tr.foldl
    (fun acc e =>
      e.2.foldl (fun a p => if p.1 ≠ 'ε' ∧ ¬ p.1 ∈ a then a ++ [p.1] else a) acc)
    []

/-- The sort key `(0 if x.isdigit() else 1, x)` of `subset_construction`. -/
def symRank (c : Char) : Nat := if c.isDigit then 0 else 1

/-- Key comparison for the alphabet sort. -/
def symLe (a b : Char) : Bool :=
  decide (symRank a < symRank b) || (decide (symRank a = symRank b) && decide (a ≤ b))

/-- Insert into a sorted list (stable, like Python `sorted`). -/
def insSym (a : Char) : List Char → List Char
  | [] => [a]
  | b :: rest => if symLe a b ∧ ¬ symLe b a then a :: b :: rest else b :: insSym a rest

/-- `sorted(alph, key=...)` of `subset_construction`. -/
def sortSyms (l : List Char) : List Char :=
  l.foldr insSym []

/-- Accumulated state of the subset-construction worklist
(`dfa_states`, `dfa_final`, `dfa_trans`, `state_order`, `queue`, counter). -/
structure SCSt where
  map : List (List Nat × Nat)
  finals : List Nat
  trans : List (Nat × List (Char × Nat))
  order : List Nat
  queue : List (List Nat)
  ctr : Nat
deriving DecidableEq, Repr

/-- `dfa_trans[cid][sym] = d` where the entry for `cid` exists. -/
def transAppend (t : List (Nat × List (Char × Nat))) (cid : Nat) (p : Char × Nat) :
    List (Nat × List (Char × Nat)) :=
  t.map (fun e => if e.1 = cid then (e.1, e.2 ++ [p]) else e)

/-- One symbol of the inner `for sym in sorted(alph)` loop of
`subset_construction`. -/
def scSym (tr : Trans) (cfuel : Nat) (accept : Nat) (current : List Nat) (cid : Nat)
    (acc : Option SCSt) (sym : Char) : Option SCSt :=
  match acc with
  | none => none
  | some s =>
    match nxtFor tr cfuel current sym with
    | none => none
    | some nxt =>
      if nxt = [] then some s
      else
        match lookupBy setEqB s.map nxt with
        | some nid => some { s with trans := transAppend s.trans cid (sym, nid) }
        | none =>
          let nid := s.ctr
          some { s with
            map := s.map ++ [(nxt, nid)]
            finals := if accept ∈ nxt then s.finals ++ [nid] else s.finals
            queue := s.queue ++ [nxt]
            ctr := s.ctr + 1
            trans := transAppend s.trans cid (sym, nid) }

/-- The `while queue` loop of `subset_construction`. -/
def scLoop (tr : Trans) (cfuel : Nat) (accept : Nat) (alph : List Char) :
    Nat → SCSt → Option SCSt
  | fuel, st =>
    match st.queue with
    | [] => some st
    | current :: qrest =>
      match fuel with
      | 0 => none
      | fuel + 1 =>
        match lookupBy setEqB st.map current with
        | none => none
        | some cid =>
          let st1 : SCSt :=
            { st with
              queue := qrest
              order := st.order ++ [cid]
              trans := st.trans ++ [(cid, [])] }
          match alph.foldl (scSym tr cfuel accept current cid) (some st1) with
          | none => none
          | some st2 => scLoop tr cfuel accept alph fuel st2

/-- `subset_construction` of src/lab5.py; `ctr` continues the global
state counter, `cfuel`/`lfuel` bound the closure and worklist loops. -/
def subset_construction (tr : Trans) (cfuel lfuel : Nat) (nfa_start nfa_accept ctr : Nat) :
    Option SCSt :=
  match epsilon_closure tr cfuel [nfa_start] with
  | none => none
  | some start_set =>
    let st0 : SCSt :=
      { map := [(start_set, ctr)]
        finals := if nfa_accept ∈ start_set then [ctr] else []
        trans := []
        order := []
        queue := [start_set]
        ctr := ctr + 1 }
    scLoop tr cfuel nfa_accept (sortSyms (collectAlph tr)) lfuel st0

/-- States of the merged automaton: the surviving DFA states plus the
single merged final state `"H"`. -/
inductive MSt
  | st (n : Nat)
  | H
deriving DecidableEq, Repr

/-- `merge_final_states` of src/lab5.py: final states are dropped,
transitions into them are redirected to `H`, `H` gets no outgoing
transitions and is appended last. -/
def merge_final_states (dfaT : List (Nat × List (Char × Nat))) (order : List Nat)
    (finals : List Nat) : List (MSt × List (Char × MSt)) × List MSt :=
  if finals = [] then
    (dfaT.map (fun e => (MSt.st e.1, e.2.map (fun p => (p.1, MSt.st p.2)))),
     order.map MSt.st)
  else
    let newOrder := (order.filter (fun s => decide (¬ s ∈ finals))).map MSt.st ++ [MSt.H]
    let newTrans :=
      (dfaT.filter (fun e => decide (¬ e.1 ∈ finals))).map
        (fun e =>
          (MSt.st e.1,
           e.2.map (fun p => (p.1, if p.2 ∈ finals then MSt.H else MSt.st p.2))))
      ++ [(MSt.H, [])]
    (newTrans, newOrder)

/-- The error raised by a compilation, if any. -/
def buildErrOf {α : Type} : Except BuildErr α → Option BuildErr
  | .error e => some e
  | .ok _ => none

/-- Run the (pre-merge) DFA transition table from a state, failing closed. -/
def runDFA (t : List (Nat × List (Char × Nat))) : Nat → List Char → Option Nat
  | s, [] => some s
  | s, a :: w =>
    match lookupA t s with
    | none => none
    | some inner =>
      match lookupA inner a with
      | none => none
      | some d => runDFA t d w

/-- Run the merged transition table from a state, failing closed. -/
def runMerged (t : List (MSt × List (Char × MSt))) : MSt → List Char → Option MSt
  | s, [] => some s
  | s, a :: w =>
    match lookupA t s with
    | none => none
    | some inner =>
      match lookupA inner a with
      | none => none
      | some d => runMerged t d w

/-- The full compilation pipeline up to the determinized DFA. -/
def compileDFA (regex : String) (cfuel lfuel : Nat) : Option SCSt :=
  match build_nfa (toPostfix (insert_concat (tokenize regex.toList))) 0 with
  | .error _ => none
  | .ok (s, a, tr, c) => subset_construction tr cfuel lfuel s a c

/-- Acceptance by the determinized (pre-merge) DFA: run from the first
discovered state, end in a member of `dfa_final`. -/
def dfaAccepts (regex : String) (cfuel lfuel : Nat) (w : String) : Bool :=
  match compileDFA regex cfuel lfuel with
  | none => false
  | some st =>
    match runDFA st.trans (st.order.headD 0) w.toList with
    | none => false
    | some s => decide (s ∈ st.finals)

/-- Acceptance by the automaton after `merge_final_states`: run from the
first state of the merged order, end in the merged final state `H`. -/
def mergedAccepts (regex : String) (cfuel lfuel : Nat) (w : String) : Bool :=
  match compileDFA regex cfuel lfuel with
  | none => false
  | some st =>
    let m := merge_final_states st.trans st.order st.finals
    match runMerged m.1 (MSt.st (st.order.headD 0)) w.toList with
    | none => false
    | some s => decide (s = MSt.H)

/-- Determinism/no-sink property of one emitted DFA transition row: its
keys are duplicate-free symbols of the alphabet, and a symbol has an
entry exactly when the ε-closed union of moves of the row's underlying
subset on that symbol is nonempty. -/
def EntryProp (tr : Trans) (cfuel : Nat) (alph : List Char)
    (map : List (List Nat × Nat)) (e : Nat × List (Char × Nat)) : Prop :=
  (e.2.map Prod.fst).Nodup ∧
  (∀ p ∈ e.2, p.1 ∈ alph) ∧
  ∃ S, (S, e.1) ∈ map ∧
    ∀ sym ∈ alph, (lookupA e.2 sym = none ↔ nxtFor tr cfuel S sym = some [])

/-- Worklist invariant of `subset_construction`: discovered subsets have
pairwise-distinct labels below the counter and pairwise set-different
keys; queued subsets are registered, pairwise set-different and not yet
emitted; emitted rows have duplicate-free labels and satisfy
`EntryProp`. -/
def SCInv (tr : Trans) (cfuel : Nat) (alph : List Char) (st : SCSt) : Prop :=
  (st.map.map Prod.snd).Nodup ∧
  (∀ v ∈ st.map.map Prod.snd, v < st.ctr) ∧
  st.map.Pairwise (fun e1 e2 => setEqB e1.1 e2.1 = false) ∧
  (∀ q ∈ st.queue, q ∈ st.map.map Prod.fst) ∧
  st.queue.Pairwise (fun q1 q2 => setEqB q1 q2 = false) ∧
  (∀ q ∈ st.queue, ∀ n, (q, n) ∈ st.map → ¬ n ∈ st.trans.map Prod.fst) ∧
  (∀ k ∈ st.trans.map Prod.fst, k ∈ st.map.map Prod.snd) ∧
  (st.trans.map Prod.fst).Nodup ∧
  ∀ e ∈ st.trans, EntryProp tr cfuel alph st.map e

end Lab5

/-! ## Lab4 — NFA determinization (src/lab4pc.py)

NFA states and symbols are the strings of the CSV input; the transition
relation `transitions[state][symbol]` (a `defaultdict(set)`) is embedded
as a total function returning the (duplicate-free) target list.  DFA
labels `S{n}` are embedded as the counter value `n`. -/

namespace Lab4

/-- The reserved epsilon symbol of src/lab4pc.py. -/
def EPSILON : String := "ε"

/-- The worklist loop of `epsilon_closure` (single-state version). -/
def closureLoop (tr : String → String → List String) :
    Nat → List String → List String → Option (List String)
  | _, [], cl => some cl
  | 0, _ :: _, _ => none
  | fuel + 1, s :: stck, cl =>
    let step := (tr s EPSILON).foldl
      (fun (acc : List String × List String) n =>
        if ¬ n ∈ acc.2 then (n :: acc.1, acc.2 ++ [n]) else acc)
      (stck, cl)
    closureLoop tr fuel step.1 step.2

/-- `epsilon_closure` of src/lab4pc.py: closure of a single state. -/
def epsilon_closure (tr : String → String → List String) (fuel : Nat) (s : String) :
    Option (List String) :=
  closureLoop tr fuel [s] [s]

/-- `epsilon_closure_set` of src/lab4pc.py: union of the single-state
closures. -/
def epsilon_closure_set (tr : String → String → List String) (fuel : Nat)
    (states : List String) : Option (List String) :=
  states.foldl
    (fun acc s =>
      match acc with
      | none => none
      | some cl =>
        match epsilon_closure tr fuel s with
        | none => none
        | some c => some (unionL cl c))
    (some [])

/-- The per-symbol move-union `target` of `nfa_to_dfa`. -/
def targetOf (tr : String → String → List String) (current : List String)
    (symbol : String) : List String :=
  current.foldl (fun a s2 => unionL a (tr s2 symbol)) []

/-- `epsilon-closure(⋃ move)` — the destination subset of `nfa_to_dfa`
for one (subset, symbol) pair. -/
def nxtFor4 (tr : String → String → List String) (cfuel : Nat) (current : List String)
    (symbol : String) : Option (List String) :=
  epsilon_closure_set tr cfuel (targetOf tr current symbol)

/-- Accumulated state of the `nfa_to_dfa` worklist (`state_map` /
`reverse_map` as one association list, `dfa_transitions`, `queue`,
counter; the `dfa_states` list of the source is `map.map Prod.fst`). -/
structure DSt where
  map : List (List String × Nat)
  trans : List (Nat × List (String × Nat))
  queue : List (List String)
  ctr : Nat
deriving DecidableEq, Repr

/-- `dfa_transitions[cid][symbol] = d` where the entry for `cid` exists. -/
def transAppend4 (t : List (Nat × List (String × Nat))) (cid : Nat) (p : String × Nat) :
    List (Nat × List (String × Nat)) :=
  t.map (fun e => if e.1 = cid then (e.1, e.2 ++ [p]) else e)

/-- One symbol of the `for symbol in terminals` loop of `nfa_to_dfa`. -/
def ndSym (tr : String → String → List String) (cfuel : Nat) (current : List String)
    (cid : Nat) (acc : Option DSt) (symbol : String) : Option DSt :=
  match acc with
  | none => none
  | some s =>
    match nxtFor4 tr cfuel current symbol with
    | none => none
    | some tc =>
      if tc = [] then some s
      else
        match lookupBy setEqB s.map tc with
        | some nid => some { s with trans := transAppend4 s.trans cid (symbol, nid) }
        | none =>
          some { s with
            map := s.map ++ [(tc, s.ctr)]
            queue := s.queue ++ [tc]
            ctr := s.ctr + 1
            trans := transAppend4 s.trans cid (symbol, s.ctr) }

/-- The `while queue` loop of `nfa_to_dfa`. -/
def ndLoop (tr : String → String → List String) (cfuel : Nat) (terminals : List String) :
    Nat → DSt → Option DSt
  | fuel, st =>
    match st.queue with
    | [] => some st
    | current :: qrest =>
      match fuel with
      | 0 => none
      | fuel + 1 =>
        match lookupBy setEqB st.map current with
        | none => none
        | some cid =>
          let st1 : DSt := { st with queue := qrest, trans := st.trans ++ [(cid, [])] }
          match terminals.foldl (ndSym tr cfuel current cid) (some st1) with
          | none => none
          | some st2 => ndLoop tr cfuel terminals fuel st2

/-- `nfa_to_dfa` of src/lab4pc.py (the ε symbol is filtered from the
terminals; the start subset gets label 0, i.e. `"S0"`). -/
def nfa_to_dfa (tr : String → String → List String) (cfuel lfuel : Nat)
    (terminals : List String) (start_state : String) : Option DSt :=
  match epsilon_closure tr cfuel start_state with
  | none => none
  | some ic =>
    ndLoop tr cfuel (terminals.filter (fun t => decide (t ≠ EPSILON))) lfuel
      { map := [(ic, 0)], trans := [], queue := [ic], ctr := 1 }

/-- The closing `for fs, label in reverse_map.items()` pass of
`nfa_to_dfa`: labels whose subset intersects the NFA final states. -/
def dfa_final_of (map : List (List String × Nat)) (final_states : List String) : List Nat :=
  (map.filter (fun e => e.1.any (fun x => decide (x ∈ final_states)))).map Prod.snd

/-- Row property for `nfa_to_dfa` (see `Lab5.EntryProp`). -/
def EntryProp4 (tr : String → String → List String) (cfuel : Nat) (terms : List String)
    (map : List (List String × Nat)) (e : Nat × List (String × Nat)) : Prop :=
  (e.2.map Prod.fst).Nodup ∧
  (∀ p ∈ e.2, p.1 ∈ terms) ∧
  ∃ S, (S, e.1) ∈ map ∧
    ∀ sym ∈ terms, (lookupA e.2 sym = none ↔ nxtFor4 tr cfuel S sym = some [])

/-- Worklist invariant of `nfa_to_dfa` (see `Lab5.SCInv`). -/
def NDInv (tr : String → String → List String) (cfuel : Nat) (terms : List String)
    (st : DSt) : Prop :=
  (st.map.map Prod.snd).Nodup ∧
  (∀ v ∈ st.map.map Prod.snd, v < st.ctr) ∧
  st.map.Pairwise (fun e1 e2 => setEqB e1.1 e2.1 = false) ∧
  (∀ q ∈ st.queue, q ∈ st.map.map Prod.fst) ∧
  st.queue.Pairwise (fun q1 q2 => setEqB q1 q2 = false) ∧
  (∀ q ∈ st.queue, ∀ n, (q, n) ∈ st.map → ¬ n ∈ st.trans.map Prod.fst) ∧
  (∀ k ∈ st.trans.map Prod.fst, k ∈ st.map.map Prod.snd) ∧
  (st.trans.map Prod.fst).Nodup ∧
  ∀ e ∈ st.trans, EntryProp4 tr cfuel terms st.map e

end Lab4

/-! ## Lab2 — Moore/Mealy minimisation by signature refinement (src/lab2.py)

Input states, outputs and symbols are strings; the per-state transition
data is a list indexed by input position (`delta[s][a]`,
`transitions[s][i]`), embedded as a total function with `getD` defaults
(the source indexes directly, which presumes well-formed rows).  New
state names `s{i}` are embedded as the block index `i`.  The `mapping`
dict is embedded as first-match block lookup, which agrees with the
source's last-write dict for duplicate-free state lists (a partition's
blocks are then disjoint). -/

namespace Lab2

/-- One refinement pass (the body of the `while changed` loop): every
block is regrouped by refined signature against the current partition
`P`; the buckets of all blocks are concatenated in order. -/
def refineStep {σ : Type} [DecidableEq σ] (sig : List (List String) → String → σ)
    (P : List (List String)) : List (List String) :=
  P.foldl (fun acc group => acc ++ (buckets (sig P) group).map Prod.snd) []

/-- The `changed` flag of one pass: some block produced more than one
bucket. -/
def stepChanged {σ : Type} [DecidableEq σ] (sig : List (List String) → String → σ)
    (P : List (List String)) : Bool :=
  P.any (fun g => decide ((buckets (sig P) g).length > 1))

/-- The `while changed` loop: run one pass, repeat while a block was
split; the fuel bounds the number of passes. -/
def refineLoop {σ : Type} [DecidableEq σ] (sig : List (List String) → String → σ) :
    Nat → List (List String) → Option (List (List String))
  | 0, _ => none
  | fuel + 1, P =>
    if stepChanged sig P then refineLoop sig fuel (refineStep sig P)
    else some (refineStep sig P)

/-- The refined signature of `minimize_moore`: the state's output paired
with the block indices reached on each input symbol (an input whose
destination lies in no block contributes nothing, like the source's
`for`/`break` search). -/
def sigMoore (state_output : String → String) (delta : String → List String)
    (inputs : List String) (P : List (List String)) (s : String) : String × List Nat :=
  (state_output s,
   (List.range inputs.length).filterMap
     (fun a => P.findIdx? (fun g => decide ((delta s).getD a "" ∈ g))))

/-- The refined signature of `minimize_mealy`: the output tuple over all
inputs paired with the block indices of the transition destinations. -/
def sigMealy (transitions : String → List (String × String)) (inputs : List String)
    (P : List (List String)) (s : String) : List String × List Nat :=
  ((List.range inputs.length).map (fun i => ((transitions s).getD i ("", "")).2),
   (transitions s).filterMap (fun t => P.findIdx? (fun g => decide (t.1 ∈ g))))

/-- Result of `minimize_moore`: new states `s{i}` (as indices), their
outputs, the quotient transition table and the final partition (the
`mapping` dict of the source is `fun s => P.findIdx? (s ∈ ·)`). -/
structure MooreMin where
  states : List Nat
  outputs : List (Nat × String)
  delta : List (Nat × List Nat)
  parts : List (List String)
deriving DecidableEq, Repr

/-- `minimize_moore` of src/lab2.py.  The initial partition groups
states by output; the quotient takes each block's first member as
representative. -/
def minimize_moore (Q : List String) (state_output : String → String)
    (delta : String → List String) (inputs : List String) : Option MooreMin :=
  let P0 := (buckets (fun s => state_output s) Q).map Prod.snd
  match refineLoop (sigMoore state_output delta inputs) (Q.length + 1) P0 with
  | none => none
  | some P =>
    let mapping := fun s => P.findIdx? (fun g => decide (s ∈ g))
    some
      { states := List.range P.length
        outputs := Q.filterMap (fun s => (mapping s).map (fun i => (i, state_output s)))
        delta := P.map (fun g =>
          ((mapping (g.headD "")).getD 0,
           (List.range inputs.length).map
             (fun a => (mapping ((delta (g.headD "")).getD a "")).getD 0)))
        parts := P }

/-- Result of `minimize_mealy` (destinations with their outputs). -/
structure MealyMin where
  states : List Nat
  trans : List (Nat × List (Nat × String))
  parts : List (List String)
deriving DecidableEq, Repr

/-- `minimize_mealy` of src/lab2.py.  The initial partition groups
states by their output tuple. -/
def minimize_mealy (inputs : List String) (states : List String)
    (transitions : String → List (String × String)) : Option MealyMin :=
  let P0 := (buckets (fun s =>
    (List.range inputs.length).map (fun i => ((transitions s).getD i ("", "")).2))
    states).map Prod.snd
  match refineLoop (sigMealy transitions inputs) (states.length + 1) P0 with
  | none => none
  | some P =>
    let mapping := fun s => P.findIdx? (fun g => decide (s ∈ g))
    some
      { states := List.range P.length
        trans := P.map (fun g =>
          ((mapping (g.headD "")).getD 0,
           (transitions (g.headD "")).map
             (fun t => ((mapping t.1).getD 0, t.2))))
        parts := P }

/-- A state set `R` closed under the quotient transition table: no
transition leaves `R`.  Together with membership of the start state,
this certifies that states outside `R` are unreachable from it. -/
def reachClosed (d : List (Nat × List Nat)) (R : List Nat) : Prop :=
  ∀ s ∈ R, ∀ t ∈ lookupD d s, t ∈ R

instance (d : List (Nat × List Nat)) (R : List Nat) : Decidable (reachClosed d R) := by
  unfold reachClosed
  infer_instance

end Lab2

/-! ## CheckMoore — Moore-automata equivalence (src/checkmoore.py)

`outputs` and `transitions` are total functions (the source reads
`transitions` with empty-set defaults; `outputs` is indexed directly,
presuming well-formed input).  The union of the two input alphabets is
a Python set; it is embedded in first-automaton-first order, which is
one of the set's possible iteration orders. -/

namespace CheckMoore

/-- A parsed Moore automaton of src/checkmoore.py. -/
structure MooreA where
  states : List String
  outputs : String → String
  transitions : String → String → List String
  inputs : List String

/-- Insert into a sorted list of strings (`sorted`, stable). -/
def insStr (a : String) : List String → List String
  | [] => [a]
  | b :: rest => if a ≤ b then a :: b :: rest else b :: insStr a rest

/-- Python `sorted` on a list of target states. -/
def sortStr (l : List String) : List String :=
  l.foldr insStr []

/-- The union `auto1["inputs"] | auto2["inputs"]`. -/
def allInputs (a1 a2 : MooreA) : List String :=
  a1.inputs ++ a2.inputs.filter (fun x => decide (¬ x ∈ a1.inputs))

/-- The `for tgt1, tgt2 in zip(sorted_t1, sorted_t2)` loop: checks or
extends the mapping pair by pair; `adds` accumulates the pairs enqueued
for later traversal.  `none` is the `return False` of the source. -/
def procPairs (a1 a2 : MooreA) :
    List (String × String) → List (String × String) → List (String × String) →
    Option (List (String × String) × List (String × String))
  | [], mapping, adds => some (mapping, adds)
  | (t1, t2) :: rest, mapping, adds =>
    match lookupA mapping t1 with
    | some m =>
      if m = t2 ∧ a1.outputs t1 = a2.outputs t2 then procPairs a1 a2 rest mapping adds
      else none
    | none =>
      if a1.outputs t1 = a2.outputs t2 then
        procPairs a1 a2 rest (mapping ++ [(t1, t2)]) (adds ++ [(t1, t2)])
      else none

/-- The `for symbol in all_inputs` loop for one visited state pair. -/
def procSyms (a1 a2 : MooreA) (s1 s2 : String) :
    List String → List (String × String) → List (String × String) →
    Option (List (String × String) × List (String × String))
  | [], mapping, adds => some (mapping, adds)
  | sym :: rest, mapping, adds =>
    if (a1.transitions s1 sym).length ≠ (a2.transitions s2 sym).length then none
    else
      match procPairs a1 a2
          ((sortStr (a1.transitions s1 sym)).zip (sortStr (a2.transitions s2 sym)))
          mapping adds with
      | none => none
      | some (m, ad) => procSyms a1 a2 s1 s2 rest m ad

/-- The `while queue` breadth-first loop; `some false` is the
source's `return False`, `some true` its final `return True`. -/
def eqLoop (a1 a2 : MooreA) (allIn : List String) :
    Nat → List (String × String) → List (String × String) → Option Bool
  | _, [], _ => some true
  | 0, _ :: _, _ => none
  | fuel + 1, (s1, s2) :: qrest, mapping =>
    match procSyms a1 a2 s1 s2 allIn mapping [] with
    | none => some false
    | some (m, adds) => eqLoop a1 a2 allIn fuel (qrest ++ adds) m

/-- `are_moore_automata_equivalent` of src/checkmoore.py (with fuel for
the breadth-first loop). -/
def are_moore_automata_equivalent (fuel : Nat) (a1 a2 : MooreA) : Option Bool :=
  let s1 := a1.states.headD ""
  let s2 := a2.states.headD ""
  if a1.outputs s1 = a2.outputs s2 then
    eqLoop a1 a2 (allInputs a1 a2) fuel [(s1, s2)] [(s1, s2)]
  else some false

end CheckMoore

/-! ## Lab1 — Mealy ↔ Moore conversion (src/lab1.py)

A loaded Mealy machine (`load_mealy`) is total: every state has a
transition `(target, output)` for every input symbol, so `delta` is a
total function; `raw` is recovered as the row-major triple list.  Moore
state names `q{n}` are embedded as the counter value `n`.  The
`for a in inputs: if a not in mealy_trans[q]: continue` guards of the
source never skip for a total machine and are embedded as direct
accesses. -/

namespace Lab1

/-- A Mealy machine as loaded by `load_mealy` of src/lab1.py. -/
structure Mealy where
  states : List String
  inputs : List String
  delta : String → String → String × String

/-- The flattened `raw` rows of `load_mealy`: one `(src, target, out)`
triple per (input row, state column), in scan order. -/
def rawTriples (M : Mealy) : List (String × String × String) :=
  (M.inputs.map (fun inp =>
    M.states.map (fun s => (s, (M.delta s inp).1, (M.delta s inp).2)))).flatten

/-- `if out not in incoming[target]: incoming[target].append(out)`. -/
def updIncoming (f : String → List String) (tgt out : String) : String → List String :=
  fun s => if s = tgt then (if out ∈ f tgt then f tgt else f tgt ++ [out]) else f s

/-- The incoming-output sets after the scan of all transitions. -/
def incoming0 (M : Mealy) : String → List String :=
  (rawTriples M).foldl (fun f t => updIncoming f t.2.1 t.2.2) (fun _ => [])

/-- The incoming-output sets after the start-state seeding: if no
transition targets the start state, the output of its transition on the
first input symbol is appended. -/
def incoming (M : Mealy) : String → List String :=
  if incoming0 M (M.states.headD "") = [] then
    updIncoming (incoming0 M) (M.states.headD "")
      (M.delta (M.states.headD "") (M.inputs.headD "")).2
  else incoming0 M

/-- The `(q, out)` pairs in registration order
(`for q in state_names: for out in incoming[q]`). -/
def moorePairs (M : Mealy) : List (String × String) :=
  (M.states.map (fun q => (incoming M q).map (fun o => (q, o)))).flatten

/-- Pair the elements of a list with counter values from `n`. -/
def idxPairs {α : Type} : List α → Nat → List (α × Nat)
  | [], _ => []
  | p :: rest, n => (p, n) :: idxPairs rest (n + 1)

/-- `moore_mapping` after the registration loop: `(q, out) ↦ q{i}`. -/
def moore_mapping (M : Mealy) : List ((String × String) × Nat) :=
  idxPairs (moorePairs M) 0

/-- All Moore states with their outputs (`sorted_states` /
`moore_states` before pruning). -/
def moore_states_all (M : Mealy) : List (Nat × String) :=
  (moore_mapping M).map (fun e => (e.2, e.1.2))

/-- The start state of the Moore automaton:
`moore_mapping[(start, incoming[start][0])]`. -/
def start_moore (M : Mealy) : Nat :=
  (lookupA (moore_mapping M)
    (M.states.headD "", (incoming M (M.states.headD "")).headD "")).getD 0

/-- Mutable state of the transition-building loop of
`convert_mealy_to_moore` (`moore_mapping`, the counter and
`moore_transitions`). -/
structure MMState where
  map : List ((String × String) × Nat)
  ctr : Nat
  trans : List (Nat × List (String × Nat))
deriving DecidableEq, Repr

/-- One input symbol of the transition-building loop: look up (or, if
missing, lazily register) the `(target, output)` pair of the Mealy
transition and record the Moore transition. -/
def mmStep (M : Mealy) (entry : (String × String) × Nat) (st : MMState) (a : String) :
    MMState :=
  let r := (M.delta entry.1.1 a).1
  let y := (M.delta entry.1.1 a).2
  match lookupA st.map (r, y) with
  | some nid => { st with trans := Lab4.transAppend4 st.trans entry.2 (a, nid) }
  | none =>
    { map := st.map ++ [((r, y), st.ctr)]
      ctr := st.ctr + 1
      trans := Lab4.transAppend4 (st.trans ++ [(st.ctr, [])]) entry.2 (a, st.ctr) }

/-- The `for (q, out), m_state in list(moore_mapping.items())` loop over
the snapshot of the registered pairs, starting from the empty
per-state transition dicts. -/
def mmLoop (M : Mealy) : MMState :=
  (moore_mapping M).foldl
    (fun st entry => M.inputs.foldl (mmStep M entry) st)
    { map := moore_mapping M
      ctr := (moore_mapping M).length
      trans := (moore_mapping M).map (fun e => (e.2, [])) }

/-- The worklist loop of `remove_unreachable_automaton` of src/lab1.py
(generic in the state type). -/
def ruLoop {α : Type} [DecidableEq α] (inputs : List String) (tr : α → String → Option α) :
    Nat → List α → List α → Option (List α)
  | _, [], reach => some reach
  | 0, _ :: _, _ => none
  | fuel + 1, s :: q, reach =>
    if s ∈ reach then ruLoop inputs tr fuel q reach
    else
      ruLoop inputs tr fuel
        (q ++ inputs.filterMap (fun a =>
          match tr s a with
          | some n => if n ∈ reach ++ [s] then none else some n
          | none => none))
        (reach ++ [s])

/-- The transition function of the freshly built Moore automaton
(`a in transitions[s]` checks become `Option` lookups). -/
def mmTr (mm : MMState) : Nat → String → Option Nat := fun n a =>
  match lookupA mm.trans n with
  | none => none
  | some row => lookupA row a

/-- A converted Moore automaton of src/lab1.py. -/
structure Moore1 where
  states : List (Nat × String)
  inputs : List String
  trans : List (Nat × List (String × Nat))
  start : Nat
deriving DecidableEq, Repr

/-- `convert_mealy_to_moore` of src/lab1.py: register the
(state, output) pairs, build the transition table, prune unreachable
states breadth-first from the Moore start state. -/
def convert_mealy_to_moore (M : Mealy) : Option Moore1 :=
  let mm := mmLoop M
  let names := (moore_states_all M).map Prod.fst
  match ruLoop M.inputs (mmTr mm) (1 + names.length * (1 + M.inputs.length))
      [start_moore M] [] with
  | none => none
  | some reach =>
    some
      { states := (moore_states_all M).filter (fun p => decide (p.1 ∈ reach))
        inputs := M.inputs
        trans := reach.map (fun s => (s, lookupD mm.trans s))
        start := start_moore M }

/-- The transition function of a Moore automaton. -/
def moTr (Mo : Moore1) : Nat → String → Option Nat := fun n a =>
  match lookupA Mo.trans n with
  | none => none
  | some row => lookupA row a

/-- The Mealy transition row of one Moore state: each transition to
`target` carries `output_by_state[target]` as its output. -/
def mealyRow (Mo : Moore1) (st : Nat) : List (String × (Nat × String)) :=
  Mo.inputs.filterMap (fun a =>
    match moTr Mo st a with
    | none => none
    | some t => some (a, (t, (lookupA Mo.states t).getD "")))

/-- `mealy_transitions` of `convert_moore_to_mealy`, keyed by the Moore
state names. -/
def mealyTransAll (Mo : Moore1) : List (Nat × List (String × (Nat × String))) :=
  Mo.states.map (fun p => (p.1, mealyRow Mo p.1))

/-- `transitions_without_output` as a transition function; a state with
no row (a `KeyError` in the source) yields no successors. -/
def mlTr (Mo : Moore1) : Nat → String → Option Nat := fun st a =>
  match lookupA (mealyTransAll Mo) st with
  | none => none
  | some row =>
    match lookupA row a with
    | none => none
    | some td => some td.1

/-- A converted Mealy machine of src/lab1.py. -/
structure MealyR where
  states : List Nat
  inputs : List String
  trans : List (Nat × List (String × (Nat × String)))
  start : Nat
deriving DecidableEq, Repr

/-- `convert_moore_to_mealy` of src/lab1.py: transition outputs come
from the target state's output; unreachable states are pruned by the
same breadth-first pass (the returned state list keeps the original
name order); the start state is preserved. -/
def convert_moore_to_mealy (Mo : Moore1) : Option MealyR :=
  let names := Mo.states.map Prod.fst
  match ruLoop Mo.inputs (mlTr Mo) (1 + names.length * (1 + Mo.inputs.length))
      [Mo.start] [] with
  | none => none
  | some reach =>
    some
      { states := names.filter (fun st => decide (st ∈ reach))
        inputs := Mo.inputs
        trans := (names.filter (fun st => decide (st ∈ reach))).map
          (fun st => (st, mealyRow Mo st))
        start := Mo.start }

/-- The Moore state index registered for a `(target, output)` pair
(`moore_mapping[(r, y)]`). -/
def mIdx (M : Mealy) (p : String × String) : Nat :=
  (lookupA (moore_mapping M) p).getD 0

/-- The transition row built for a Moore state whose underlying Mealy
state is `q`. -/
def mmRow (M : Mealy) (q : String) : List (String × Nat) :=
  M.inputs.map (fun a => (a, mIdx M ((M.delta q a).1, (M.delta q a).2)))

/-- The Mealy→Moore→Mealy round trip. -/
def roundTrip (M : Mealy) : Option MealyR :=
  match convert_mealy_to_moore M with
  | none => none
  | some Mo => convert_moore_to_mealy Mo

/-- Output sequence of a total Mealy machine on an input word. -/
def runMealyF (M : Mealy) : String → List String → List String
  | _, [] => []
  | q, a :: w => (M.delta q a).2 :: runMealyF M (M.delta q a).1 w

/-- Output sequence of a converted (association-list) Mealy machine,
failing closed on a missing transition. -/
def runMealyR (T : List (Nat × List (String × (Nat × String)))) :
    Nat → List String → Option (List String)
  | _, [] => some []
  | st, a :: w =>
    match lookupA T st with
    | none => none
    | some row =>
      match lookupA row a with
      | none => none
      | some td =>
        match runMealyR T td.1 w with
        | none => none
        | some ys => some (td.2 :: ys)

/-- The Moore automaton returned by `convert_mealy_to_moore` once the
reachable-state list of its pruning pass is known. -/
def prunedMoore (M : Mealy) (R1 : List Nat) : Moore1 :=
  { states := (moore_states_all M).filter (fun p => decide (p.1 ∈ R1))
    inputs := M.inputs
    trans := R1.map (fun s => (s, lookupD (mmLoop M).trans s))
    start := start_moore M }

end Lab1

/-! ## Supporting lemmas -/

namespace Util

theorem lookupA_append_right {κ ν : Type} [DecidableEq κ] (l₁ l₂ : List (κ × ν)) (k : κ)
    (h : lookupA l₁ k = none) : lookupA (l₁ ++ l₂) k = lookupA l₂ k := by
  induction l₁ with
  | nil => rfl
  | cons e rest ih =>
    by_cases he : e.1 = k
    · simp [lookupA, he] at h
    · simp only [lookupA, he, if_false, List.cons_append] at h ⊢
      exact ih h

theorem lookupA_append_left {κ ν : Type} [DecidableEq κ] (l₁ l₂ : List (κ × ν)) (k : κ) (v : ν)
    (h : lookupA l₁ k = some v) : lookupA (l₁ ++ l₂) k = some v := by
  induction l₁ with
  | nil => simp [lookupA] at h
  | cons e rest ih =>
    by_cases he : e.1 = k
    · simp only [lookupA, he, if_true] at h
      simp [lookupA, he, h]
    · simp only [lookupA, he, if_false] at h
      simp only [List.cons_append, lookupA, he, if_false]
      exact ih h

theorem lookupA_isSome_iff_mem {κ ν : Type} [DecidableEq κ] (l : List (κ × ν)) (k : κ) :
    (lookupA l k).isSome = true ↔ k ∈ l.map Prod.fst := by
  induction l with
  | nil => simp [lookupA]
  | cons e rest ih =>
    by_cases he : e.1 = k
    · simp [lookupA, he]
    · simp only [lookupA, he, if_false, List.map_cons, List.mem_cons]
      rw [ih]
      constructor
      · exact fun h => Or.inr h
      · rintro (h | h)
        · exact absurd h.symm he
        · exact h

theorem lookupA_mem_of_some {κ ν : Type} [DecidableEq κ] (l : List (κ × ν)) (k : κ) (v : ν)
    (h : lookupA l k = some v) : (k, v) ∈ l := by
  induction l with
  | nil => simp [lookupA] at h
  | cons e rest ih =>
    by_cases he : e.1 = k
    · simp only [lookupA, he, if_true, Option.some.injEq] at h
      subst h; subst he
      exact List.mem_cons_self _ _
    · simp only [lookupA, he, if_false] at h
      exact List.mem_cons_of_mem _ (ih h)

theorem mem_addNew {α : Type} [DecidableEq α] (l : List α) (x y : α) :
    y ∈ addNew l x ↔ y ∈ l ∨ y = x := by
  unfold addNew
  by_cases h : x ∈ l
  · simp only [h, if_true]
    constructor
    · exact fun hy => Or.inl hy
    · rintro (hy | rfl) <;> assumption
  · simp [h, List.mem_append]

theorem mem_unionL {α : Type} [DecidableEq α] (l t : List α) (y : α) :
    y ∈ unionL l t ↔ y ∈ l ∨ y ∈ t := by
  induction t generalizing l with
  | nil => simp [unionL]
  | cons a rest ih =>
    unfold unionL at ih ⊢
    simp only [List.foldl_cons]
    rw [ih, mem_addNew]
    constructor
    · rintro ((h | rfl) | h)
      · exact Or.inl h
      · exact Or.inr (List.mem_cons_self _ _)
      · exact Or.inr (List.mem_cons_of_mem _ h)
    · rintro (h | h)
      · exact Or.inl (Or.inl h)
      · rcases List.mem_cons.mp h with rfl | h
        · exact Or.inl (Or.inr rfl)
        · exact Or.inr h

end Util

namespace Lab5

theorem runMerged_append (t : List (MSt × List (Char × MSt))) (s : MSt) (w w' : List Char) :
    runMerged t s (w ++ w') = (runMerged t s w).bind (fun s2 => runMerged t s2 w') := by
  induction w generalizing s with
  | nil => simp [runMerged]
  | cons a w ih =>
    simp only [List.cons_append, runMerged]
    cases h1 : lookupA t s with
    | none => simp
    | some inner =>
      cases h2 : lookupA inner a with
      | none => simp [h2]
      | some d => simp only [h2]; exact ih d

/-- The merged-state part of `merge_final_states` keyed at `H` finds only
the trailing sink entry. -/
theorem lookupA_mergeBody_H (dfaT : List (Nat × List (Char × Nat))) (finals : List Nat) :
    lookupA ((dfaT.filter (fun e => decide (¬ e.1 ∈ finals))).map
      (fun e => (MSt.st e.1,
        e.2.map (fun p => (p.1, if p.2 ∈ finals then MSt.H else MSt.st p.2))))) MSt.H
      = none := by
  induction dfaT with
  | nil => rfl
  | cons e rest ih =>
    by_cases hf : e.1 ∈ finals
    · simpa [hf] using ih
    · simpa [hf, lookupA] using ih

theorem lookupA_mergeBody_final (dfaT : List (Nat × List (Char × Nat))) (finals : List Nat)
    (n : Nat) (hn : n ∈ finals) :
    lookupA ((dfaT.filter (fun e => decide (¬ e.1 ∈ finals))).map
      (fun e => (MSt.st e.1,
        e.2.map (fun p => (p.1, if p.2 ∈ finals then MSt.H else MSt.st p.2))))) (MSt.st n)
      = none := by
  induction dfaT with
  | nil => rfl
  | cons e rest ih =>
    by_cases hf : e.1 ∈ finals
    · simpa [hf] using ih
    · have hne : MSt.st e.1 ≠ MSt.st n := by
        intro hc
        exact hf (by injection hc with h; rw [h]; exact hn)
      simpa [hf, lookupA, hne] using ih

theorem lookupA_mergeBody_nonfinal (dfaT : List (Nat × List (Char × Nat))) (finals : List Nat)
    (n : Nat) (hn : ¬ n ∈ finals) :
    lookupA ((dfaT.filter (fun e => decide (¬ e.1 ∈ finals))).map
      (fun e => (MSt.st e.1,
        e.2.map (fun p => (p.1, if p.2 ∈ finals then MSt.H else MSt.st p.2))))) (MSt.st n)
      = (lookupA dfaT n).map
          (fun inner => inner.map (fun p => (p.1, if p.2 ∈ finals then MSt.H else MSt.st p.2))) := by
  induction dfaT with
  | nil => rfl
  | cons e rest ih =>
    by_cases he : e.1 = n
    · subst he
      simp [hn, lookupA]
    · have hne : MSt.st e.1 ≠ MSt.st n := by
        intro hc
        exact he (by injection hc)
      by_cases hf : e.1 ∈ finals
      · simpa [hf, lookupA, he] using ih
      · simpa [hf, lookupA, he, hne] using ih

end Lab5

namespace Util

theorem lookupA_eq_none_iff {κ ν : Type} [DecidableEq κ] (l : List (κ × ν)) (k : κ) :
    lookupA l k = none ↔ ¬ k ∈ l.map Prod.fst := by
  rw [← lookupA_isSome_iff_mem]
  cases lookupA l k <;> simp

theorem setEqB_refl {α : Type} [DecidableEq α] (l : List α) : setEqB l l = true := by
  simp [setEqB, List.all_eq_true]

theorem lookupBy_eq_none_iff {κ ν : Type} (eq : κ → κ → Bool) (l : List (κ × ν)) (k : κ) :
    lookupBy eq l k = none ↔ ∀ e ∈ l, eq e.1 k = false := by
  induction l with
  | nil => simp [lookupBy]
  | cons e rest ih =>
    by_cases he : eq e.1 k = true
    · simp [lookupBy, he]
    · have he' : eq e.1 k = false := by
        cases h : eq e.1 k
        · rfl
        · exact absurd h he
      simp only [lookupBy, he', Bool.false_eq_true, if_false, List.mem_cons]
      rw [ih]
      constructor
      · intro h f hf
        rcases hf with rfl | hf
        · exact he'
        · exact h f hf
      · intro h f hf
        exact h f (Or.inr hf)

theorem lookupBy_of_mem_pairwise {κ ν : Type} (eq : κ → κ → Bool)
    (href : ∀ a, eq a a = true) (l : List (κ × ν)) (k : κ) (v : ν)
    (hpw : l.Pairwise (fun e1 e2 => eq e1.1 e2.1 = false)) (hm : (k, v) ∈ l) :
    lookupBy eq l k = some v := by
  induction l with
  | nil => simp at hm
  | cons e rest ih =>
    rcases List.mem_cons.mp hm with rfl | hm
    · simp [lookupBy, href]
    · have hne : eq e.1 k = false := (List.pairwise_cons.mp hpw).1 (k, v) hm
      simp only [lookupBy, hne, Bool.false_eq_true, if_false]
      exact ih (List.pairwise_cons.mp hpw).2 hm

/-- In an association list with duplicate-free values, the value
determines the key. -/
theorem fst_eq_of_val_nodup {κ ν : Type} (l : List (κ × ν)) (hnd : (l.map Prod.snd).Nodup)
    (k1 k2 : κ) (n : ν) (h1 : (k1, n) ∈ l) (h2 : (k2, n) ∈ l) : k1 = k2 := by
  induction l with
  | nil => simp at h1
  | cons e rest ih =>
    simp only [List.map_cons, List.nodup_cons] at hnd
    rcases List.mem_cons.mp h1 with h1e | h1r
    · rcases List.mem_cons.mp h2 with h2e | h2r
      · exact congrArg Prod.fst (h1e.trans h2e.symm)
      · rw [← h1e] at hnd
        exact absurd (List.mem_map.mpr ⟨(k2, n), h2r, rfl⟩) hnd.1
    · rcases List.mem_cons.mp h2 with h2e | h2r
      · rw [← h2e] at hnd
        exact absurd (List.mem_map.mpr ⟨(k1, n), h1r, rfl⟩) hnd.1
      · exact ih hnd.2 h1r h2r

end Util

namespace Lab5

theorem innerAlph_nodup (l : List (Char × Nat)) :
    ∀ acc : List Char, acc.Nodup →
      (l.foldl (fun a p => if p.1 ≠ 'ε' ∧ ¬ p.1 ∈ a then a ++ [p.1] else a) acc).Nodup := by
  induction l with
  | nil => exact fun acc h => h
  | cons p rest ih =>
    intro acc hacc
    simp only [List.foldl_cons]
    by_cases hc : p.1 ≠ 'ε' ∧ ¬ p.1 ∈ acc
    · rw [if_pos hc]
      refine ih _ ?_
      have hni : p.1 ∉ acc := hc.2
      simp [List.nodup_append, hacc, hni]
    · rw [if_neg hc]
      exact ih acc hacc

theorem collectAlph_nodup (tr : Trans) : (collectAlph tr).Nodup := by
  unfold collectAlph
  have h : ∀ (l : Trans) (acc : List Char), acc.Nodup →
      (l.foldl (fun acc e =>
        e.2.foldl (fun a p => if p.1 ≠ 'ε' ∧ ¬ p.1 ∈ a then a ++ [p.1] else a) acc) acc).Nodup := by
    intro l
    induction l with
    | nil => exact fun acc h => h
    | cons e rest ih =>
      intro acc hacc
      simp only [List.foldl_cons]
      exact ih _ (innerAlph_nodup e.2 acc hacc)
  exact h tr [] List.nodup_nil

theorem insSym_perm (a : Char) (l : List Char) : (insSym a l).Perm (a :: l) := by
  induction l with
  | nil => exact List.Perm.refl _
  | cons b rest ih =>
    unfold insSym
    by_cases hc : symLe a b = true ∧ ¬ symLe b a = true
    · rw [if_pos hc]
    · rw [if_neg hc]
      exact (List.Perm.cons b ih).trans (List.Perm.swap a b rest)

theorem sortSyms_perm (l : List Char) : (sortSyms l).Perm l := by
  induction l with
  | nil => exact List.Perm.refl _
  | cons a rest ih =>
    unfold sortSyms at ih ⊢
    simp only [List.foldr_cons]
    exact (insSym_perm a _).trans (List.Perm.cons a ih)

theorem sortSyms_nodup (l : List Char) (h : l.Nodup) : (sortSyms l).Nodup :=
  (sortSyms_perm l).nodup_iff.mpr h

theorem map_transAppend_no_key (T0 : List (Nat × List (Char × Nat))) (cid : Nat)
    (p : Char × Nat) (h : ¬ cid ∈ T0.map Prod.fst) :
    T0.map (fun e => if e.1 = cid then (e.1, e.2 ++ [p]) else e) = T0 := by
  induction T0 with
  | nil => rfl
  | cons e rest ih =>
    simp only [List.map_cons, List.mem_cons] at h
    push_neg at h
    have he : e.1 ≠ cid := fun hc => h.1 hc.symm
    simp only [List.map_cons, he, if_false]
    rw [ih (by simpa using h.2)]

theorem transAppend_eq (T0 : List (Nat × List (Char × Nat))) (cid : Nat)
    (i : List (Char × Nat)) (p : Char × Nat) (h : ¬ cid ∈ T0.map Prod.fst) :
    transAppend (T0 ++ [(cid, i)]) cid p = T0 ++ [(cid, i ++ [p])] := by
  unfold transAppend
  rw [List.map_append, map_transAppend_no_key T0 cid p h]
  simp

theorem EntryProp_mono (tr : Trans) (cfuel : Nat) (alph : List Char)
    (map ext : List (List Nat × Nat)) (e : Nat × List (Char × Nat))
    (h : EntryProp tr cfuel alph map e) : EntryProp tr cfuel alph (map ++ ext) e := by
  obtain ⟨h1, h2, S, hS, h3⟩ := h
  exact ⟨h1, h2, S, List.mem_append_left _ hS, h3⟩

theorem foldl_scSym_none (tr : Trans) (cfuel accept : Nat) (current : List Nat) (cid : Nat)
    (syms : List Char) : syms.foldl (scSym tr cfuel accept current cid) none = none := by
  induction syms with
  | nil => rfl
  | cons s rest ih => simpa [scSym] using ih

end Lab5

namespace Util

theorem lookupA_append_single_ne {κ ν : Type} [DecidableEq κ] (i : List (κ × ν))
    (k : κ) (v : ν) (k2 : κ) (hne : k ≠ k2) :
    lookupA (i ++ [(k, v)]) k2 = lookupA i k2 := by
  cases h : lookupA i k2 with
  | some w => exact lookupA_append_left i _ k2 w h
  | none =>
    rw [lookupA_append_right i _ k2 h]
    simp [lookupA, hne]

theorem lookupA_append_single_self {κ ν : Type} [DecidableEq κ] (i : List (κ × ν))
    (k : κ) (v : ν) (h : ¬ k ∈ i.map Prod.fst) :
    lookupA (i ++ [(k, v)]) k = some v := by
  rw [lookupA_append_right i _ k ((lookupA_eq_none_iff i k).mpr h)]
  simp [lookupA]

theorem exists_val_of_mem_keys {κ ν : Type} (l : List (κ × ν)) (k : κ)
    (h : k ∈ l.map Prod.fst) : ∃ v, (k, v) ∈ l := by
  rcases List.mem_map.mp h with ⟨e, he, rfl⟩
  exact ⟨e.2, he⟩

theorem not_mem_left_of_nodup_append_cons {α : Type} (l : List α) (a : α) (r : List α)
    (h : (l ++ a :: r).Nodup) : ¬ a ∈ l := by
  intro ha
  have hd := List.disjoint_of_nodup_append h
  exact (List.disjoint_left.mp hd ha) (List.mem_cons_self a r)

theorem foldl_append_join {β γ : Type} (f : β → List γ) :
    ∀ (P : List β) (acc : List γ),
      P.foldl (fun a g => a ++ f g) acc = acc ++ (P.map f).flatten := by
  intro P
  induction P with
  | nil => intro acc; simp
  | cons g rest ih =>
    intro acc
    simp only [List.foldl_cons, List.map_cons, List.flatten_cons]
    rw [ih, List.append_assoc]

theorem map_modify_no_key {σ α : Type} [DecidableEq σ] (bs : List (σ × List α)) (k : σ)
    (f : List α → List α) (h : ¬ k ∈ bs.map Prod.fst) :
    bs.map (fun b => if b.1 = k then (b.1, f b.2) else b) = bs := by
  induction bs with
  | nil => rfl
  | cons e rest ih =>
    simp only [List.map_cons, List.mem_cons] at h
    push_neg at h
    have he : e.1 ≠ k := fun hc => h.1 hc.symm
    simp only [List.map_cons, he, if_false]
    rw [ih (by simpa using h.2)]

/-- With duplicate-free keys, `bucketsAdd` at an existing key appends to
exactly that key's bucket. -/
theorem bucketsAdd_decomp {σ α : Type} [DecidableEq σ] (bs : List (σ × List α)) (k : σ)
    (s : α) (hnd : (bs.map Prod.fst).Nodup) (hs : (lookupA bs k).isSome = true) :
    ∃ pre v post, bs = pre ++ (k, v) :: post ∧ ¬ k ∈ pre.map Prod.fst ∧
      ¬ k ∈ post.map Prod.fst ∧
      bucketsAdd bs k s = pre ++ (k, v ++ [s]) :: post := by
  induction bs with
  | nil => simp [lookupA] at hs
  | cons e rest ih =>
    simp only [List.map_cons, List.nodup_cons] at hnd
    by_cases he : e.1 = k
    · refine ⟨[], e.2, rest, ?_, by simp, ?_, ?_⟩
      · have hee : e = (k, e.2) := by rw [← he]
        rw [List.nil_append, ← hee]
      · rw [← he]; exact hnd.1
      · unfold bucketsAdd
        rw [if_pos hs]
        simp only [List.map_cons, he, if_true, List.nil_append]
        have hrest : ¬ k ∈ rest.map Prod.fst := he ▸ hnd.1
        rw [map_modify_no_key rest k (fun v => v ++ [s]) hrest]
    · have hs' : (lookupA rest k).isSome = true := by
        simp only [lookupA, he, if_false] at hs
        exact hs
      obtain ⟨pre, v, post, hbs, hpre, hpost, hadd⟩ := ih hnd.2 hs'
      refine ⟨e :: pre, v, post, by rw [hbs]; rfl, ?_, hpost, ?_⟩
      · simp only [List.map_cons, List.mem_cons]
        push_neg
        exact ⟨fun hc => he hc.symm, hpre⟩
      · unfold bucketsAdd at hadd ⊢
        rw [if_pos hs]
        rw [if_pos hs'] at hadd
        simp only [List.map_cons, he, if_false, List.cons_append]
        rw [hadd]

/-- Keys are preserved and extended by `bucketsAdd`. -/
theorem bucketsAdd_keys_sub {σ α : Type} [DecidableEq σ] (bs : List (σ × List α)) (k : σ)
    (s : α) : bs.map Prod.fst ⊆ (bucketsAdd bs k s).map Prod.fst := by
  unfold bucketsAdd
  by_cases hs : (lookupA bs k).isSome = true
  · rw [if_pos hs]
    intro x hx
    rcases List.mem_map.mp hx with ⟨e, he, rfl⟩
    refine List.mem_map.mpr ⟨if e.1 = k then (e.1, e.2 ++ [s]) else e, List.mem_map.mpr ⟨e, he, rfl⟩, ?_⟩
    by_cases hek : e.1 = k
    · simp [hek]
    · simp [hek]
  · rw [if_neg hs]
    intro x hx
    simp only [List.map_append, List.mem_append]
    exact Or.inl hx

theorem bucketsAdd_key_mem {σ α : Type} [DecidableEq σ] (bs : List (σ × List α)) (k : σ)
    (s : α) (hnd : (bs.map Prod.fst).Nodup) : k ∈ (bucketsAdd bs k s).map Prod.fst := by
  unfold bucketsAdd
  by_cases hs : (lookupA bs k).isSome = true
  · rw [if_pos hs]
    obtain ⟨pre, v, post, hbs, _, _, hadd⟩ := bucketsAdd_decomp bs k s hnd hs
    unfold bucketsAdd at hadd
    rw [if_pos hs] at hadd
    rw [hadd]
    simp
  · rw [if_neg hs]
    simp

/-- The main bucket-fold invariant: keys stay duplicate-free, buckets
stay non-empty, the concatenation of the buckets is a permutation of
the accumulated input, and every processed element's signature is a
key. -/
theorem buckets_fold_props {σ α : Type} [DecidableEq σ] (sig : α → σ) :
    ∀ (l : List α) (bs : List (σ × List α)),
      (bs.map Prod.fst).Nodup → (∀ b ∈ bs, b.2 ≠ []) →
      (((l.foldl (fun bs s => bucketsAdd bs (sig s) s) bs).map Prod.fst).Nodup ∧
       (∀ b ∈ l.foldl (fun bs s => bucketsAdd bs (sig s) s) bs, b.2 ≠ []) ∧
       ((l.foldl (fun bs s => bucketsAdd bs (sig s) s) bs).map Prod.snd).flatten.Perm
         ((bs.map Prod.snd).flatten ++ l) ∧
       (∀ x ∈ l, sig x ∈ (l.foldl (fun bs s => bucketsAdd bs (sig s) s) bs).map Prod.fst) ∧
       bs.map Prod.fst ⊆ (l.foldl (fun bs s => bucketsAdd bs (sig s) s) bs).map Prod.fst) := by
  intro l
  induction l with
  | nil =>
    intro bs h1 h2
    exact ⟨h1, h2, by simp, by simp, fun x hx => hx⟩
  | cons s rest ih =>
    intro bs h1 h2
    simp only [List.foldl_cons]
    have hstep1 : ((bucketsAdd bs (sig s) s).map Prod.fst).Nodup := by
      unfold bucketsAdd
      by_cases hs : (lookupA bs (sig s)).isSome = true
      · rw [if_pos hs]
        obtain ⟨pre, v, post, hbs, _, _, hadd⟩ := bucketsAdd_decomp bs (sig s) s h1 hs
        unfold bucketsAdd at hadd
        rw [if_pos hs] at hadd
        rw [hadd]
        rw [hbs] at h1
        simpa using h1
      · rw [if_neg hs]
        simp only [List.map_append]
        rw [List.nodup_append]
        refine ⟨h1, by simp, ?_⟩
        intro x hx hm
        simp only [List.map_cons, List.map_nil, List.mem_singleton] at hm
        subst hm
        rw [← lookupA_isSome_iff_mem] at hx
        exact hs hx
    have hstep2 : ∀ b ∈ bucketsAdd bs (sig s) s, b.2 ≠ [] := by
      unfold bucketsAdd
      by_cases hs : (lookupA bs (sig s)).isSome = true
      · rw [if_pos hs]
        intro b hb
        rcases List.mem_map.mp hb with ⟨e, he, rfl⟩
        by_cases hek : e.1 = sig s
        · simp only [hek, if_true]
          simp
        · simp only [hek, if_false]
          exact h2 e he
      · rw [if_neg hs]
        intro b hb
        rcases List.mem_append.mp hb with hb | hb
        · exact h2 b hb
        · rcases List.mem_singleton.mp hb with rfl
          simp
    have hstep3 : ((bucketsAdd bs (sig s) s).map Prod.snd).flatten.Perm
        ((bs.map Prod.snd).flatten ++ [s]) := by
      by_cases hs : (lookupA bs (sig s)).isSome = true
      · obtain ⟨pre, v, post, hbs, _, _, hadd⟩ := bucketsAdd_decomp bs (sig s) s h1 hs
        rw [hadd, hbs]
        simp only [List.map_append, List.map_cons, List.flatten_append, List.flatten_cons,
          List.append_assoc]
        exact List.Perm.append_left _ (List.Perm.append_left _ List.perm_append_comm)
      · unfold bucketsAdd
        rw [if_neg hs]
        simp
    obtain ⟨r1, r2, r3, r4, r5⟩ := ih (bucketsAdd bs (sig s) s) hstep1 hstep2
    refine ⟨r1, r2, ?_, ?_, ?_⟩
    · refine r3.trans ?_
      refine List.Perm.trans (hstep3.append_right rest) ?_
      simp only [List.append_assoc]
      exact (List.Perm.refl _).append (List.Perm.refl _)
    · intro x hx
      rcases List.mem_cons.mp hx with rfl | hx
      · exact r5 (bucketsAdd_key_mem bs (sig x) x h1)
      · exact r4 x hx
    · intro k hk
      exact r5 (bucketsAdd_keys_sub bs (sig s) s hk)

theorem buckets_flatten_perm {σ α : Type} [DecidableEq σ] (sig : α → σ) (l : List α) :
    ((buckets sig l).map Prod.snd).flatten.Perm l := by
  have h := (buckets_fold_props sig l [] (by simp) (by simp)).2.2.1
  simpa [buckets] using h

theorem buckets_nonempty_blocks {σ α : Type} [DecidableEq σ] (sig : α → σ) (l : List α) :
    ∀ b ∈ buckets sig l, b.2 ≠ [] :=
  (buckets_fold_props sig l [] (by simp) (by simp)).2.1

theorem buckets_sig_mem {σ α : Type} [DecidableEq σ] (sig : α → σ) (l : List α) :
    ∀ x ∈ l, sig x ∈ (buckets sig l).map Prod.fst :=
  (buckets_fold_props sig l [] (by simp) (by simp)).2.2.2.1

theorem buckets_fold_const {σ α : Type} [DecidableEq σ] (sig : α → σ) (k : σ) :
    ∀ (l : List α) (m : List α), (∀ x ∈ l, sig x = k) →
      l.foldl (fun bs s => bucketsAdd bs (sig s) s) [(k, m)] = [(k, m ++ l)] := by
  intro l
  induction l with
  | nil => intro m _; simp
  | cons s rest ih =>
    intro m hall
    have hk : sig s = k := hall s (List.mem_cons_self _ _)
    simp only [List.foldl_cons]
    have hstep : bucketsAdd [(k, m)] (sig s) s = [(k, m ++ [s])] := by
      rw [hk]
      simp [bucketsAdd, lookupA]
    rw [hstep, ih (m ++ [s]) (fun x hx => hall x (List.mem_cons_of_mem _ hx))]
    simp

theorem buckets_const {σ α : Type} [DecidableEq σ] (sig : α → σ) (k : σ) (l : List α)
    (hne : l ≠ []) (hall : ∀ x ∈ l, sig x = k) : buckets sig l = [(k, l)] := by
  cases l with
  | nil => exact absurd rfl hne
  | cons s rest =>
    unfold buckets
    simp only [List.foldl_cons]
    have hk : sig s = k := hall s (List.mem_cons_self _ _)
    have hstep : bucketsAdd [] (sig s) s = [(k, [s])] := by
      rw [hk]; simp [bucketsAdd, lookupA]
    rw [hstep, buckets_fold_const sig k rest [s]
      (fun x hx => hall x (List.mem_cons_of_mem _ hx))]
    rfl

theorem two_mem_length_ge {α : Type} (L : List α) (a b : α) (ha : a ∈ L) (hb : b ∈ L)
    (hne : a ≠ b) : 2 ≤ L.length := by
  cases L with
  | nil => simp at ha
  | cons x rest =>
    cases rest with
    | nil =>
      rcases List.mem_singleton.mp ha with rfl
      rcases List.mem_singleton.mp hb with rfl
      exact absurd rfl hne
    | cons y rest2 => simp [Nat.succ_le_succ, Nat.succ_le_succ (Nat.zero_le _)]

theorem length_le_flatten_length {γ : Type} (P : List (List γ)) (h : ∀ g ∈ P, g ≠ []) :
    P.length ≤ P.flatten.length := by
  induction P with
  | nil => simp
  | cons g rest ih =>
    simp only [List.length_cons, List.flatten_cons, List.length_append]
    have hg : 1 ≤ g.length := by
      have := h g (List.mem_cons_self _ _)
      cases g with
      | nil => exact absurd rfl this
      | cons _ _ => simp
    have hr := ih (fun g2 hg2 => h g2 (List.mem_cons_of_mem _ hg2))
    omega

theorem sum_ge_length {L : List Nat} (h : ∀ n ∈ L, 1 ≤ n) : L.length ≤ L.sum := by
  induction L with
  | nil => simp
  | cons n rest ih =>
    simp only [List.length_cons, List.sum_cons]
    have h1 := h n (List.mem_cons_self _ _)
    have h2 := ih (fun m hm => h m (List.mem_cons_of_mem _ hm))
    omega

theorem sum_ge_length_succ {L : List Nat} (h : ∀ n ∈ L, 1 ≤ n) (h2 : ∃ n ∈ L, 2 ≤ n) :
    L.length + 1 ≤ L.sum := by
  induction L with
  | nil => simp at h2
  | cons n rest ih =>
    obtain ⟨m, hm, hm2⟩ := h2
    simp only [List.length_cons, List.sum_cons]
    rcases List.mem_cons.mp hm with rfl | hm
    · have := sum_ge_length (fun k hk => h k (List.mem_cons_of_mem _ hk))
      omega
    · have h1 := h n (List.mem_cons_self _ _)
      have := ih (fun k hk => h k (List.mem_cons_of_mem _ hk)) ⟨m, hm, hm2⟩
      omega

end Util

namespace Lab5

/-- The inner `for sym in sorted(alph)` loop of `subset_construction`
preserves the worklist invariant and completes the transition row of the
state being processed. -/
theorem scSym_foldl_props (tr : Trans) (cfuel accept : Nat) (alph : List Char)
    (current : List Nat) (cid : Nat)
    (T0 : List (Nat × List (Char × Nat))) (hT0cid : ¬ cid ∈ T0.map Prod.fst) :
    ∀ (syms processed : List Char) (s : SCSt) (i : List (Char × Nat)) (s2 : SCSt),
      alph = processed ++ syms → alph.Nodup →
      (s.map.map Prod.snd).Nodup →
      (∀ v ∈ s.map.map Prod.snd, v < s.ctr) →
      s.map.Pairwise (fun e1 e2 => setEqB e1.1 e2.1 = false) →
      (∀ q ∈ s.queue, q ∈ s.map.map Prod.fst) →
      s.queue.Pairwise (fun q1 q2 => setEqB q1 q2 = false) →
      (∀ q ∈ s.queue, ∀ n, (q, n) ∈ s.map → ¬ n ∈ T0.map Prod.fst ∧ n ≠ cid) →
      s.trans = T0 ++ [(cid, i)] →
      (∀ k ∈ T0.map Prod.fst, k ∈ s.map.map Prod.snd) →
      cid ∈ s.map.map Prod.snd →
      (∀ e ∈ T0, EntryProp tr cfuel alph s.map e) →
      (i.map Prod.fst).Nodup →
      (∀ p ∈ i, p.1 ∈ processed) →
      (∀ sym ∈ processed, (lookupA i sym = none ↔ nxtFor tr cfuel current sym = some [])) →
      (current, cid) ∈ s.map →
      syms.foldl (scSym tr cfuel accept current cid) (some s) = some s2 →
      ∃ i2 : List (Char × Nat),
        (s2.map.map Prod.snd).Nodup ∧
        (∀ v ∈ s2.map.map Prod.snd, v < s2.ctr) ∧
        s2.map.Pairwise (fun e1 e2 => setEqB e1.1 e2.1 = false) ∧
        (∀ q ∈ s2.queue, q ∈ s2.map.map Prod.fst) ∧
        s2.queue.Pairwise (fun q1 q2 => setEqB q1 q2 = false) ∧
        (∀ q ∈ s2.queue, ∀ n, (q, n) ∈ s2.map → ¬ n ∈ T0.map Prod.fst ∧ n ≠ cid) ∧
        s2.trans = T0 ++ [(cid, i2)] ∧
        (∀ k ∈ T0.map Prod.fst, k ∈ s2.map.map Prod.snd) ∧
        cid ∈ s2.map.map Prod.snd ∧
        (∀ e ∈ T0, EntryProp tr cfuel alph s2.map e) ∧
        (i2.map Prod.fst).Nodup ∧
        (∀ p ∈ i2, p.1 ∈ processed ++ syms) ∧
        (∀ sym ∈ processed ++ syms,
          (lookupA i2 sym = none ↔ nxtFor tr cfuel current sym = some [])) ∧
        (current, cid) ∈ s2.map := by
  intro syms
  induction syms with
  | nil =>
    intro processed s i s2 hsplit halph h1 h2 h3 h4 h5 h6 h7 h8 h9 h10 h11 h12 h13 h14 hfold
    simp only [List.foldl_nil, Option.some.injEq] at hfold
    subst hfold
    exact ⟨i, h1, h2, h3, h4, h5, h6, h7, h8, h9, h10, h11,
      by simpa using h12, by simpa using h13, h14⟩
  | cons sym rest ih =>
    intro processed s i s2 hsplit halph h1 h2 h3 h4 h5 h6 h7 h8 h9 h10 h11 h12 h13 h14 hfold
    have hsymnp : ¬ sym ∈ processed := by
      rw [hsplit] at halph
      exact not_mem_left_of_nodup_append_cons processed sym rest halph
    have hsymni : ¬ sym ∈ i.map Prod.fst := by
      intro hs
      rcases List.mem_map.mp hs with ⟨p, hp, rfl⟩
      exact hsymnp (h12 p hp)
    have hsplit2 : alph = (processed ++ [sym]) ++ rest := by
      rw [hsplit]; simp
    have happ : processed ++ sym :: rest = (processed ++ [sym]) ++ rest := by simp
    simp only [List.foldl_cons] at hfold
    cases hn : nxtFor tr cfuel current sym with
    | none =>
      have hstep : scSym tr cfuel accept current cid (some s) sym = none := by
        simp [scSym, hn]
      rw [hstep, foldl_scSym_none] at hfold
      exact absurd hfold (by simp)
    | some nxt =>
      cases nxt with
      | nil =>
        have hstep : scSym tr cfuel accept current cid (some s) sym = some s := by
          simp [scSym, hn]
        rw [hstep] at hfold
        have h12' : ∀ p ∈ i, p.1 ∈ processed ++ [sym] := by
          intro p hp
          exact List.mem_append_left _ (h12 p hp)
        have h13' : ∀ sym2 ∈ processed ++ [sym],
            (lookupA i sym2 = none ↔ nxtFor tr cfuel current sym2 = some []) := by
          intro sym2 hs2
          rcases List.mem_append.mp hs2 with hs2 | hs2
          · exact h13 sym2 hs2
          · rcases List.mem_singleton.mp hs2 with rfl
            constructor
            · intro _; exact hn
            · intro _; exact (lookupA_eq_none_iff i sym2).mpr hsymni
        obtain ⟨i2, c⟩ := ih (processed ++ [sym]) s i s2 hsplit2 halph h1 h2 h3 h4 h5 h6
          h7 h8 h9 h10 h11 h12' h13' h14 hfold
        rw [happ]
        exact ⟨i2, c⟩
      | cons x xs =>
        have hi2nodup : ((i ++ [(sym, cid)]).map Prod.fst).Nodup := by
          simp [List.nodup_append, h11, hsymni]
        cases hlb : lookupBy setEqB s.map (x :: xs) with
        | some nid =>
          have hstep : scSym tr cfuel accept current cid (some s) sym
              = some { s with trans := transAppend s.trans cid (sym, nid) } := by
            simp [scSym, hn, hlb]
          rw [hstep] at hfold
          have htr : ({ s with trans := transAppend s.trans cid (sym, nid) } : SCSt).trans
              = T0 ++ [(cid, i ++ [(sym, nid)])] := by
            simp only [h7]
            exact transAppend_eq T0 cid i (sym, nid) hT0cid
          have h11' : ((i ++ [(sym, nid)]).map Prod.fst).Nodup := by
            simp [List.nodup_append, h11, hsymni]
          have h12' : ∀ p ∈ i ++ [(sym, nid)], p.1 ∈ processed ++ [sym] := by
            intro p hp
            rcases List.mem_append.mp hp with hp | hp
            · exact List.mem_append_left _ (h12 p hp)
            · rcases List.mem_singleton.mp hp with rfl
              exact List.mem_append_right _ (List.mem_singleton_self _)
          have h13' : ∀ sym2 ∈ processed ++ [sym],
              (lookupA (i ++ [(sym, nid)]) sym2 = none ↔
                nxtFor tr cfuel current sym2 = some []) := by
            intro sym2 hs2
            rcases List.mem_append.mp hs2 with hs2 | hs2
            · have hne : sym ≠ sym2 := fun hc => hsymnp (hc ▸ hs2)
              rw [lookupA_append_single_ne i sym nid sym2 hne]
              exact h13 sym2 hs2
            · rcases List.mem_singleton.mp hs2 with rfl
              rw [lookupA_append_single_self i sym2 nid hsymni]
              constructor
              · intro hc; exact absurd hc (by simp)
              · intro hc; rw [hn] at hc; exact absurd hc (by simp)
          obtain ⟨i2, c⟩ := ih (processed ++ [sym])
            { s with trans := transAppend s.trans cid (sym, nid) }
            (i ++ [(sym, nid)]) s2 hsplit2 halph
            h1 h2 h3 h4 h5 h6 htr h8 h9 h10 h11' h12' h13' h14 hfold
          rw [happ]
          exact ⟨i2, c⟩
        | none =>
          have hAllNe : ∀ e ∈ s.map, setEqB e.1 (x :: xs) = false :=
            (lookupBy_eq_none_iff setEqB s.map (x :: xs)).mp hlb
          have hstep : scSym tr cfuel accept current cid (some s) sym
              = some { s with
                  map := s.map ++ [(x :: xs, s.ctr)]
                  finals := if accept ∈ x :: xs then s.finals ++ [s.ctr] else s.finals
                  queue := s.queue ++ [x :: xs]
                  ctr := s.ctr + 1
                  trans := transAppend s.trans cid (sym, s.ctr) } := by
            simp [scSym, hn, hlb]
          rw [hstep] at hfold
          have hctrnotin : ¬ s.ctr ∈ s.map.map Prod.snd := by
            intro hc
            exact absurd (h2 s.ctr hc) (by simp)
          have h1' : ((s.map ++ [(x :: xs, s.ctr)]).map Prod.snd).Nodup := by
            simp only [List.map_append]
            simp [List.nodup_append, h1, hctrnotin]
          have h2' : ∀ v ∈ (s.map ++ [(x :: xs, s.ctr)]).map Prod.snd, v < s.ctr + 1 := by
            intro v hv
            simp only [List.map_append, List.mem_append] at hv
            rcases hv with hv | hv
            · exact Nat.lt_succ_of_lt (h2 v hv)
            · simp only [List.map_cons, List.map_nil, List.mem_singleton] at hv
              rw [hv]; exact Nat.lt_succ_self _
          have h3' : (s.map ++ [(x :: xs, s.ctr)]).Pairwise
              (fun e1 e2 => setEqB e1.1 e2.1 = false) := by
            rw [List.pairwise_append]
            refine ⟨h3, List.pairwise_singleton _ _, ?_⟩
            intro e he f hf
            rcases List.mem_singleton.mp hf with rfl
            exact hAllNe e he
          have h4' : ∀ q ∈ s.queue ++ [x :: xs],
              q ∈ (s.map ++ [(x :: xs, s.ctr)]).map Prod.fst := by
            intro q hq
            rcases List.mem_append.mp hq with hq | hq
            · simp only [List.map_append, List.mem_append]
              exact Or.inl (h4 q hq)
            · rcases List.mem_singleton.mp hq with rfl
              simp
          have hqNe : ∀ q ∈ s.queue, setEqB q (x :: xs) = false := by
            intro q hq
            rcases exists_val_of_mem_keys s.map q (h4 q hq) with ⟨v, hv⟩
            exact hAllNe (q, v) hv
          have h5' : (s.queue ++ [x :: xs]).Pairwise
              (fun q1 q2 => setEqB q1 q2 = false) := by
            rw [List.pairwise_append]
            exact ⟨h5, List.pairwise_singleton _ _, fun q hq f hf => by
              rcases List.mem_singleton.mp hf with rfl
              exact hqNe q hq⟩
          have h6' : ∀ q ∈ s.queue ++ [x :: xs], ∀ n,
              (q, n) ∈ s.map ++ [(x :: xs, s.ctr)] →
              ¬ n ∈ T0.map Prod.fst ∧ n ≠ cid := by
            intro q hq n hqn
            rcases List.mem_append.mp hq with hq | hq
            · rcases List.mem_append.mp hqn with hqn | hqn
              · exact h6 q hq n hqn
              · rcases List.mem_singleton.mp hqn with heq
                have hq1 : q = x :: xs := congrArg Prod.fst heq
                have := hqNe q hq
                rw [hq1] at this
                rw [setEqB_refl] at this
                exact absurd this (by simp)
            · rcases List.mem_singleton.mp hq with rfl
              rcases List.mem_append.mp hqn with hqn | hqn
              · have := hAllNe (x :: xs, n) hqn
                rw [setEqB_refl] at this
                exact absurd this (by simp)
              · rcases List.mem_singleton.mp hqn with heq
                have hn2 : n = s.ctr := congrArg Prod.snd heq
                subst hn2
                constructor
                · intro hc
                  exact hctrnotin (h8 _ hc)
                · intro hc
                  rw [hc] at hctrnotin
                  exact hctrnotin h9
          have htr : transAppend s.trans cid (sym, s.ctr)
              = T0 ++ [(cid, i ++ [(sym, s.ctr)])] := by
            rw [h7]
            exact transAppend_eq T0 cid i (sym, s.ctr) hT0cid
          have h8' : ∀ k ∈ T0.map Prod.fst,
              k ∈ (s.map ++ [(x :: xs, s.ctr)]).map Prod.snd := by
            intro k hk
            simp only [List.map_append, List.mem_append]
            exact Or.inl (h8 k hk)
          have h9' : cid ∈ (s.map ++ [(x :: xs, s.ctr)]).map Prod.snd := by
            simp only [List.map_append, List.mem_append]
            exact Or.inl h9
          have h10' : ∀ e ∈ T0, EntryProp tr cfuel alph (s.map ++ [(x :: xs, s.ctr)]) e :=
            fun e he => EntryProp_mono tr cfuel alph s.map _ e (h10 e he)
          have h11' : ((i ++ [(sym, s.ctr)]).map Prod.fst).Nodup := by
            simp [List.nodup_append, h11, hsymni]
          have h12' : ∀ p ∈ i ++ [(sym, s.ctr)], p.1 ∈ processed ++ [sym] := by
            intro p hp
            rcases List.mem_append.mp hp with hp | hp
            · exact List.mem_append_left _ (h12 p hp)
            · rcases List.mem_singleton.mp hp with rfl
              exact List.mem_append_right _ (List.mem_singleton_self _)
          have h13' : ∀ sym2 ∈ processed ++ [sym],
              (lookupA (i ++ [(sym, s.ctr)]) sym2 = none ↔
                nxtFor tr cfuel current sym2 = some []) := by
            intro sym2 hs2
            rcases List.mem_append.mp hs2 with hs2 | hs2
            · have hne : sym ≠ sym2 := fun hc => hsymnp (hc ▸ hs2)
              rw [lookupA_append_single_ne i sym s.ctr sym2 hne]
              exact h13 sym2 hs2
            · rcases List.mem_singleton.mp hs2 with rfl
              rw [lookupA_append_single_self i sym2 s.ctr hsymni]
              constructor
              · intro hc; exact absurd hc (by simp)
              · intro hc; rw [hn] at hc; exact absurd hc (by simp)
          have h14' : (current, cid) ∈ s.map ++ [(x :: xs, s.ctr)] :=
            List.mem_append_left _ h14
          obtain ⟨i2, c⟩ := ih (processed ++ [sym]) _ (i ++ [(sym, s.ctr)]) s2 hsplit2 halph
            h1' h2' h3' h4' h5' h6' htr h8' h9' h10' h11' h12' h13' h14' hfold
          rw [happ]
          exact ⟨i2, c⟩

/-- The worklist loop of `subset_construction` preserves the invariant. -/
theorem scLoop_props (tr : Trans) (cfuel accept : Nat) (alph : List Char)
    (halph : alph.Nodup) :
    ∀ (fuel : Nat) (st st' : SCSt), SCInv tr cfuel alph st →
      scLoop tr cfuel accept alph fuel st = some st' →
      SCInv tr cfuel alph st' := by
  intro fuel
  induction fuel with
  | zero =>
    intro st st' hinv hrun
    unfold scLoop at hrun
    cases hq : st.queue with
    | nil =>
      rw [hq] at hrun
      simp only [Option.some.injEq] at hrun
      subst hrun
      exact hinv
    | cons current qrest =>
      rw [hq] at hrun
      simp at hrun
  | succ fuel ihf =>
    intro st st' hinv hrun
    unfold scLoop at hrun
    cases hq : st.queue with
    | nil =>
      rw [hq] at hrun
      simp only [Option.some.injEq] at hrun
      subst hrun
      exact hinv
    | cons current qrest =>
      rw [hq] at hrun
      obtain ⟨h1, h2, h3, h4, h5, h6, h7, h8, h9⟩ := hinv
      have hcq : current ∈ st.queue := by
        rw [hq]; exact List.mem_cons_self _ _
      obtain ⟨cid0, hc0⟩ := exists_val_of_mem_keys st.map current (h4 current hcq)
      have hlb : lookupBy setEqB st.map current = some cid0 :=
        lookupBy_of_mem_pairwise setEqB setEqB_refl st.map current cid0 h3 hc0
      simp only [hlb] at hrun
      have hT0cid : ¬ cid0 ∈ st.trans.map Prod.fst := h6 current hcq cid0 hc0
      cases hfold : alph.foldl (scSym tr cfuel accept current cid0)
          (some
            { st with
              queue := qrest
              order := st.order ++ [cid0]
              trans := st.trans ++ [(cid0, [])] }) with
      | none =>
        simp only [hfold] at hrun
        exact Option.noConfusion hrun
      | some stmid =>
        simp only [hfold] at hrun
        have hqtail : qrest.Pairwise (fun q1 q2 => setEqB q1 q2 = false) := by
          rw [hq] at h5
          exact (List.pairwise_cons.mp h5).2
        have hqhead : ∀ q ∈ qrest, setEqB current q = false := by
          rw [hq] at h5
          exact (List.pairwise_cons.mp h5).1
        have h6' : ∀ q ∈ qrest, ∀ n, (q, n) ∈ st.map →
            ¬ n ∈ st.trans.map Prod.fst ∧ n ≠ cid0 := by
          intro q hqr n hqn
          have hq2 : q ∈ st.queue := by rw [hq]; exact List.mem_cons_of_mem _ hqr
          refine ⟨h6 q hq2 n hqn, ?_⟩
          intro hc
          subst hc
          have hqc : q = current := fst_eq_of_val_nodup st.map h1 q current n hqn hc0
          have := hqhead q hqr
          rw [hqc, setEqB_refl] at this
          exact absurd this (by simp)
        obtain ⟨i2, c1, c2, c3, c4, c5, c6, c7, c8, c9, c10, c11, c12, c13, c14⟩ :=
          scSym_foldl_props tr cfuel accept alph current cid0 st.trans hT0cid alph []
            { st with
              queue := qrest
              order := st.order ++ [cid0]
              trans := st.trans ++ [(cid0, [])] }
            [] stmid (by simp) halph h1 h2 h3 (fun q hqr => h4 q (by
              rw [hq]; exact List.mem_cons_of_mem _ hqr)) hqtail h6' rfl h7
            (List.mem_map.mpr ⟨(current, cid0), hc0, rfl⟩) h9
            (by simp) (by simp) (by simp) hc0 hfold
        refine ihf stmid st' ⟨c1, c2, c3, c4, c5, ?_, ?_, ?_, ?_⟩ hrun
        · intro q hqm n hqn
          have hcc := c6 q hqm n hqn
          rw [c7]
          simp only [List.map_append, List.mem_append, List.map_cons, List.map_nil,
            List.mem_singleton]
          rintro (hm | hm)
          · exact hcc.1 hm
          · exact hcc.2 hm
        · intro k hk
          rw [c7] at hk
          simp only [List.map_append, List.mem_append, List.map_cons, List.map_nil,
            List.mem_singleton] at hk
          rcases hk with hk | hk
          · exact c8 k hk
          · rw [hk]; exact c9
        · rw [c7]
          simp only [List.map_append, List.map_cons, List.map_nil]
          rw [List.nodup_append]
          exact ⟨h8, List.nodup_singleton _, by
            intro k hk hm
            rcases List.mem_singleton.mp hm with rfl
            exact hT0cid hk⟩
        · intro e he
          rw [c7] at he
          rcases List.mem_append.mp he with he | he
          · exact c10 e he
          · rcases List.mem_singleton.mp he with rfl
            refine ⟨c11, ?_, current, c14, ?_⟩
            · intro p hp
              simpa using c12 p hp
            · intro sym hsym
              exact c13 sym (by simpa using hsym)

/-- Determinism and the no-sink property of the DFA produced by
`subset_construction` of src/lab5.py: emitted rows have pairwise
distinct state labels; each row's symbols are duplicate-free members of
the collected alphabet; and a symbol is absent from a row exactly when
the ε-closed union of moves of the row's underlying subset on that
symbol is empty — no sink state is ever recorded. -/
theorem subset_construction_props (tr : Trans) (cfuel lfuel nfa_start nfa_accept ctr : Nat)
    (st : SCSt) (h : subset_construction tr cfuel lfuel nfa_start nfa_accept ctr = some st) :
    (st.trans.map Prod.fst).Nodup ∧
    ∀ e ∈ st.trans,
      (e.2.map Prod.fst).Nodup ∧
      (∀ p ∈ e.2, p.1 ∈ sortSyms (collectAlph tr)) ∧
      ∃ S, (S, e.1) ∈ st.map ∧
        ∀ sym ∈ sortSyms (collectAlph tr),
          (lookupA e.2 sym = none ↔ nxtFor tr cfuel S sym = some []) := by
  unfold subset_construction at h
  cases hec : epsilon_closure tr cfuel [nfa_start] with
  | none => rw [hec] at h; simp at h
  | some start_set =>
    rw [hec] at h
    have halph : (sortSyms (collectAlph tr)).Nodup :=
      sortSyms_nodup _ (collectAlph_nodup tr)
    have hinv0 : SCInv tr cfuel (sortSyms (collectAlph tr))
        { map := [(start_set, ctr)]
          finals := if nfa_accept ∈ start_set then [ctr] else []
          trans := []
          order := []
          queue := [start_set]
          ctr := ctr + 1 } := by
      refine ⟨by simp, by simp, List.pairwise_singleton _ _, by simp,
        List.pairwise_singleton _ _, ?_, by simp, by simp, by simp⟩
      intro q hq n hqn
      simp
    have hinv := scLoop_props tr cfuel nfa_accept (sortSyms (collectAlph tr)) halph
      lfuel _ st hinv0 h
    obtain ⟨_, _, _, _, _, _, _, g8, g9⟩ := hinv
    exact ⟨g8, g9⟩

end Lab5

namespace Lab4

theorem map_transAppend4_no_key (T0 : List (Nat × List (String × Nat))) (cid : Nat)
    (p : String × Nat) (h : ¬ cid ∈ T0.map Prod.fst) :
    T0.map (fun e => if e.1 = cid then (e.1, e.2 ++ [p]) else e) = T0 := by
  induction T0 with
  | nil => rfl
  | cons e rest ih =>
    simp only [List.map_cons, List.mem_cons] at h
    push_neg at h
    have he : e.1 ≠ cid := fun hc => h.1 hc.symm
    simp only [List.map_cons, he, if_false]
    rw [ih (by simpa using h.2)]

theorem transAppend4_eq (T0 : List (Nat × List (String × Nat))) (cid : Nat)
    (i : List (String × Nat)) (p : String × Nat) (h : ¬ cid ∈ T0.map Prod.fst) :
    transAppend4 (T0 ++ [(cid, i)]) cid p = T0 ++ [(cid, i ++ [p])] := by
  unfold transAppend4
  rw [List.map_append, map_transAppend4_no_key T0 cid p h]
  simp

theorem EntryProp4_mono (tr : String → String → List String) (cfuel : Nat)
    (terms : List String) (map ext : List (List String × Nat))
    (e : Nat × List (String × Nat))
    (h : EntryProp4 tr cfuel terms map e) : EntryProp4 tr cfuel terms (map ++ ext) e := by
  obtain ⟨h1, h2, S, hS, h3⟩ := h
  exact ⟨h1, h2, S, List.mem_append_left _ hS, h3⟩

theorem foldl_ndSym_none (tr : String → String → List String) (cfuel : Nat)
    (current : List String) (cid : Nat) (syms : List String) :
    syms.foldl (ndSym tr cfuel current cid) none = none := by
  induction syms with
  | nil => rfl
  | cons s rest ih => simpa [ndSym] using ih

/-- The inner `for symbol in terminals` loop of `nfa_to_dfa`
preserves the worklist invariant and completes the transition row of the
state being processed. -/
theorem ndSym_foldl_props (tr : String → String → List String) (cfuel : Nat) (terms : List String)
    (current : List String) (cid : Nat)
    (T0 : List (Nat × List (String × Nat))) (hT0cid : ¬ cid ∈ T0.map Prod.fst) :
    ∀ (syms processed : List String) (s : DSt) (i : List (String × Nat)) (s2 : DSt),
      terms = processed ++ syms → terms.Nodup →
      (s.map.map Prod.snd).Nodup →
      (∀ v ∈ s.map.map Prod.snd, v < s.ctr) →
      s.map.Pairwise (fun e1 e2 => setEqB e1.1 e2.1 = false) →
      (∀ q ∈ s.queue, q ∈ s.map.map Prod.fst) →
      s.queue.Pairwise (fun q1 q2 => setEqB q1 q2 = false) →
      (∀ q ∈ s.queue, ∀ n, (q, n) ∈ s.map → ¬ n ∈ T0.map Prod.fst ∧ n ≠ cid) →
      s.trans = T0 ++ [(cid, i)] →
      (∀ k ∈ T0.map Prod.fst, k ∈ s.map.map Prod.snd) →
      cid ∈ s.map.map Prod.snd →
      (∀ e ∈ T0, EntryProp4 tr cfuel terms s.map e) →
      (i.map Prod.fst).Nodup →
      (∀ p ∈ i, p.1 ∈ processed) →
      (∀ sym ∈ processed, (lookupA i sym = none ↔ nxtFor4 tr cfuel current sym = some [])) →
      (current, cid) ∈ s.map →
      syms.foldl (ndSym tr cfuel current cid) (some s) = some s2 →
      ∃ i2 : List (String × Nat),
        (s2.map.map Prod.snd).Nodup ∧
        (∀ v ∈ s2.map.map Prod.snd, v < s2.ctr) ∧
        s2.map.Pairwise (fun e1 e2 => setEqB e1.1 e2.1 = false) ∧
        (∀ q ∈ s2.queue, q ∈ s2.map.map Prod.fst) ∧
        s2.queue.Pairwise (fun q1 q2 => setEqB q1 q2 = false) ∧
        (∀ q ∈ s2.queue, ∀ n, (q, n) ∈ s2.map → ¬ n ∈ T0.map Prod.fst ∧ n ≠ cid) ∧
        s2.trans = T0 ++ [(cid, i2)] ∧
        (∀ k ∈ T0.map Prod.fst, k ∈ s2.map.map Prod.snd) ∧
        cid ∈ s2.map.map Prod.snd ∧
        (∀ e ∈ T0, EntryProp4 tr cfuel terms s2.map e) ∧
        (i2.map Prod.fst).Nodup ∧
        (∀ p ∈ i2, p.1 ∈ processed ++ syms) ∧
        (∀ sym ∈ processed ++ syms,
          (lookupA i2 sym = none ↔ nxtFor4 tr cfuel current sym = some [])) ∧
        (current, cid) ∈ s2.map := by
  intro syms
  induction syms with
  | nil =>
    intro processed s i s2 hsplit halph h1 h2 h3 h4 h5 h6 h7 h8 h9 h10 h11 h12 h13 h14 hfold
    simp only [List.foldl_nil, Option.some.injEq] at hfold
    subst hfold
    exact ⟨i, h1, h2, h3, h4, h5, h6, h7, h8, h9, h10, h11,
      by simpa using h12, by simpa using h13, h14⟩
  | cons sym rest ih =>
    intro processed s i s2 hsplit halph h1 h2 h3 h4 h5 h6 h7 h8 h9 h10 h11 h12 h13 h14 hfold
    have hsymnp : ¬ sym ∈ processed := by
      rw [hsplit] at halph
      exact not_mem_left_of_nodup_append_cons processed sym rest halph
    have hsymni : ¬ sym ∈ i.map Prod.fst := by
      intro hs
      rcases List.mem_map.mp hs with ⟨p, hp, rfl⟩
      exact hsymnp (h12 p hp)
    have hsplit2 : terms = (processed ++ [sym]) ++ rest := by
      rw [hsplit]; simp
    have happ : processed ++ sym :: rest = (processed ++ [sym]) ++ rest := by simp
    simp only [List.foldl_cons] at hfold
    cases hn : nxtFor4 tr cfuel current sym with
    | none =>
      have hstep : ndSym tr cfuel current cid (some s) sym = none := by
        simp [ndSym, hn]
      rw [hstep, foldl_ndSym_none] at hfold
      exact absurd hfold (by simp)
    | some nxt =>
      cases nxt with
      | nil =>
        have hstep : ndSym tr cfuel current cid (some s) sym = some s := by
          simp [ndSym, hn]
        rw [hstep] at hfold
        have h12' : ∀ p ∈ i, p.1 ∈ processed ++ [sym] := by
          intro p hp
          exact List.mem_append_left _ (h12 p hp)
        have h13' : ∀ sym2 ∈ processed ++ [sym],
            (lookupA i sym2 = none ↔ nxtFor4 tr cfuel current sym2 = some []) := by
          intro sym2 hs2
          rcases List.mem_append.mp hs2 with hs2 | hs2
          · exact h13 sym2 hs2
          · rcases List.mem_singleton.mp hs2 with rfl
            constructor
            · intro _; exact hn
            · intro _; exact (lookupA_eq_none_iff i sym2).mpr hsymni
        obtain ⟨i2, c⟩ := ih (processed ++ [sym]) s i s2 hsplit2 halph h1 h2 h3 h4 h5 h6
          h7 h8 h9 h10 h11 h12' h13' h14 hfold
        rw [happ]
        exact ⟨i2, c⟩
      | cons x xs =>
        have hi2nodup : ((i ++ [(sym, cid)]).map Prod.fst).Nodup := by
          simp [List.nodup_append, h11, hsymni]
        cases hlb : lookupBy setEqB s.map (x :: xs) with
        | some nid =>
          have hstep : ndSym tr cfuel current cid (some s) sym
              = some { s with trans := transAppend4 s.trans cid (sym, nid) } := by
            simp [ndSym, hn, hlb]
          rw [hstep] at hfold
          have htr : ({ s with trans := transAppend4 s.trans cid (sym, nid) } : DSt).trans
              = T0 ++ [(cid, i ++ [(sym, nid)])] := by
            simp only [h7]
            exact transAppend4_eq T0 cid i (sym, nid) hT0cid
          have h11' : ((i ++ [(sym, nid)]).map Prod.fst).Nodup := by
            simp [List.nodup_append, h11, hsymni]
          have h12' : ∀ p ∈ i ++ [(sym, nid)], p.1 ∈ processed ++ [sym] := by
            intro p hp
            rcases List.mem_append.mp hp with hp | hp
            · exact List.mem_append_left _ (h12 p hp)
            · rcases List.mem_singleton.mp hp with rfl
              exact List.mem_append_right _ (List.mem_singleton_self _)
          have h13' : ∀ sym2 ∈ processed ++ [sym],
              (lookupA (i ++ [(sym, nid)]) sym2 = none ↔
                nxtFor4 tr cfuel current sym2 = some []) := by
            intro sym2 hs2
            rcases List.mem_append.mp hs2 with hs2 | hs2
            · have hne : sym ≠ sym2 := fun hc => hsymnp (hc ▸ hs2)
              rw [lookupA_append_single_ne i sym nid sym2 hne]
              exact h13 sym2 hs2
            · rcases List.mem_singleton.mp hs2 with rfl
              rw [lookupA_append_single_self i sym2 nid hsymni]
              constructor
              · intro hc; exact absurd hc (by simp)
              · intro hc; rw [hn] at hc; exact absurd hc (by simp)
          obtain ⟨i2, c⟩ := ih (processed ++ [sym])
            { s with trans := transAppend4 s.trans cid (sym, nid) }
            (i ++ [(sym, nid)]) s2 hsplit2 halph
            h1 h2 h3 h4 h5 h6 htr h8 h9 h10 h11' h12' h13' h14 hfold
          rw [happ]
          exact ⟨i2, c⟩
        | none =>
          have hAllNe : ∀ e ∈ s.map, setEqB e.1 (x :: xs) = false :=
            (lookupBy_eq_none_iff setEqB s.map (x :: xs)).mp hlb
          have hstep : ndSym tr cfuel current cid (some s) sym
              = some { s with
                  map := s.map ++ [(x :: xs, s.ctr)]
                  queue := s.queue ++ [x :: xs]
                  ctr := s.ctr + 1
                  trans := transAppend4 s.trans cid (sym, s.ctr) } := by
            simp [ndSym, hn, hlb]
          rw [hstep] at hfold
          have hctrnotin : ¬ s.ctr ∈ s.map.map Prod.snd := by
            intro hc
            exact absurd (h2 s.ctr hc) (by simp)
          have h1' : ((s.map ++ [(x :: xs, s.ctr)]).map Prod.snd).Nodup := by
            simp only [List.map_append]
            simp [List.nodup_append, h1, hctrnotin]
          have h2' : ∀ v ∈ (s.map ++ [(x :: xs, s.ctr)]).map Prod.snd, v < s.ctr + 1 := by
            intro v hv
            simp only [List.map_append, List.mem_append] at hv
            rcases hv with hv | hv
            · exact Nat.lt_succ_of_lt (h2 v hv)
            · simp only [List.map_cons, List.map_nil, List.mem_singleton] at hv
              rw [hv]; exact Nat.lt_succ_self _
          have h3' : (s.map ++ [(x :: xs, s.ctr)]).Pairwise
              (fun e1 e2 => setEqB e1.1 e2.1 = false) := by
            rw [List.pairwise_append]
            refine ⟨h3, List.pairwise_singleton _ _, ?_⟩
            intro e he f hf
            rcases List.mem_singleton.mp hf with rfl
            exact hAllNe e he
          have h4' : ∀ q ∈ s.queue ++ [x :: xs],
              q ∈ (s.map ++ [(x :: xs, s.ctr)]).map Prod.fst := by
            intro q hq
            rcases List.mem_append.mp hq with hq | hq
            · simp only [List.map_append, List.mem_append]
              exact Or.inl (h4 q hq)
            · rcases List.mem_singleton.mp hq with rfl
              simp
          have hqNe : ∀ q ∈ s.queue, setEqB q (x :: xs) = false := by
            intro q hq
            rcases exists_val_of_mem_keys s.map q (h4 q hq) with ⟨v, hv⟩
            exact hAllNe (q, v) hv
          have h5' : (s.queue ++ [x :: xs]).Pairwise
              (fun q1 q2 => setEqB q1 q2 = false) := by
            rw [List.pairwise_append]
            exact ⟨h5, List.pairwise_singleton _ _, fun q hq f hf => by
              rcases List.mem_singleton.mp hf with rfl
              exact hqNe q hq⟩
          have h6' : ∀ q ∈ s.queue ++ [x :: xs], ∀ n,
              (q, n) ∈ s.map ++ [(x :: xs, s.ctr)] →
              ¬ n ∈ T0.map Prod.fst ∧ n ≠ cid := by
            intro q hq n hqn
            rcases List.mem_append.mp hq with hq | hq
            · rcases List.mem_append.mp hqn with hqn | hqn
              · exact h6 q hq n hqn
              · rcases List.mem_singleton.mp hqn with heq
                have hq1 : q = x :: xs := congrArg Prod.fst heq
                have := hqNe q hq
                rw [hq1] at this
                rw [setEqB_refl] at this
                exact absurd this (by simp)
            · rcases List.mem_singleton.mp hq with rfl
              rcases List.mem_append.mp hqn with hqn | hqn
              · have := hAllNe (x :: xs, n) hqn
                rw [setEqB_refl] at this
                exact absurd this (by simp)
              · rcases List.mem_singleton.mp hqn with heq
                have hn2 : n = s.ctr := congrArg Prod.snd heq
                subst hn2
                constructor
                · intro hc
                  exact hctrnotin (h8 _ hc)
                · intro hc
                  rw [hc] at hctrnotin
                  exact hctrnotin h9
          have htr : transAppend4 s.trans cid (sym, s.ctr)
              = T0 ++ [(cid, i ++ [(sym, s.ctr)])] := by
            rw [h7]
            exact transAppend4_eq T0 cid i (sym, s.ctr) hT0cid
          have h8' : ∀ k ∈ T0.map Prod.fst,
              k ∈ (s.map ++ [(x :: xs, s.ctr)]).map Prod.snd := by
            intro k hk
            simp only [List.map_append, List.mem_append]
            exact Or.inl (h8 k hk)
          have h9' : cid ∈ (s.map ++ [(x :: xs, s.ctr)]).map Prod.snd := by
            simp only [List.map_append, List.mem_append]
            exact Or.inl h9
          have h10' : ∀ e ∈ T0, EntryProp4 tr cfuel terms (s.map ++ [(x :: xs, s.ctr)]) e :=
            fun e he => EntryProp4_mono tr cfuel terms s.map _ e (h10 e he)
          have h11' : ((i ++ [(sym, s.ctr)]).map Prod.fst).Nodup := by
            simp [List.nodup_append, h11, hsymni]
          have h12' : ∀ p ∈ i ++ [(sym, s.ctr)], p.1 ∈ processed ++ [sym] := by
            intro p hp
            rcases List.mem_append.mp hp with hp | hp
            · exact List.mem_append_left _ (h12 p hp)
            · rcases List.mem_singleton.mp hp with rfl
              exact List.mem_append_right _ (List.mem_singleton_self _)
          have h13' : ∀ sym2 ∈ processed ++ [sym],
              (lookupA (i ++ [(sym, s.ctr)]) sym2 = none ↔
                nxtFor4 tr cfuel current sym2 = some []) := by
            intro sym2 hs2
            rcases List.mem_append.mp hs2 with hs2 | hs2
            · have hne : sym ≠ sym2 := fun hc => hsymnp (hc ▸ hs2)
              rw [lookupA_append_single_ne i sym s.ctr sym2 hne]
              exact h13 sym2 hs2
            · rcases List.mem_singleton.mp hs2 with rfl
              rw [lookupA_append_single_self i sym2 s.ctr hsymni]
              constructor
              · intro hc; exact absurd hc (by simp)
              · intro hc; rw [hn] at hc; exact absurd hc (by simp)
          have h14' : (current, cid) ∈ s.map ++ [(x :: xs, s.ctr)] :=
            List.mem_append_left _ h14
          obtain ⟨i2, c⟩ := ih (processed ++ [sym]) _ (i ++ [(sym, s.ctr)]) s2 hsplit2 halph
            h1' h2' h3' h4' h5' h6' htr h8' h9' h10' h11' h12' h13' h14' hfold
          rw [happ]
          exact ⟨i2, c⟩

/-- The worklist loop of `nfa_to_dfa` preserves the invariant. -/
theorem ndLoop_props (tr : String → String → List String) (cfuel : Nat) (terms : List String)
    (halph : terms.Nodup) :
    ∀ (fuel : Nat) (st st' : DSt), NDInv tr cfuel terms st →
      ndLoop tr cfuel terms fuel st = some st' →
      NDInv tr cfuel terms st' := by
  intro fuel
  induction fuel with
  | zero =>
    intro st st' hinv hrun
    unfold ndLoop at hrun
    cases hq : st.queue with
    | nil =>
      rw [hq] at hrun
      simp only [Option.some.injEq] at hrun
      subst hrun
      exact hinv
    | cons current qrest =>
      rw [hq] at hrun
      simp at hrun
  | succ fuel ihf =>
    intro st st' hinv hrun
    unfold ndLoop at hrun
    cases hq : st.queue with
    | nil =>
      rw [hq] at hrun
      simp only [Option.some.injEq] at hrun
      subst hrun
      exact hinv
    | cons current qrest =>
      rw [hq] at hrun
      obtain ⟨h1, h2, h3, h4, h5, h6, h7, h8, h9⟩ := hinv
      have hcq : current ∈ st.queue := by
        rw [hq]; exact List.mem_cons_self _ _
      obtain ⟨cid0, hc0⟩ := exists_val_of_mem_keys st.map current (h4 current hcq)
      have hlb : lookupBy setEqB st.map current = some cid0 :=
        lookupBy_of_mem_pairwise setEqB setEqB_refl st.map current cid0 h3 hc0
      simp only [hlb] at hrun
      have hT0cid : ¬ cid0 ∈ st.trans.map Prod.fst := h6 current hcq cid0 hc0
      cases hfold : terms.foldl (ndSym tr cfuel current cid0)
          (some
            { st with
              queue := qrest
              trans := st.trans ++ [(cid0, [])] }) with
      | none =>
        simp only [hfold] at hrun
        exact Option.noConfusion hrun
      | some stmid =>
        simp only [hfold] at hrun
        have hqtail : qrest.Pairwise (fun q1 q2 => setEqB q1 q2 = false) := by
          rw [hq] at h5
          exact (List.pairwise_cons.mp h5).2
        have hqhead : ∀ q ∈ qrest, setEqB current q = false := by
          rw [hq] at h5
          exact (List.pairwise_cons.mp h5).1
        have h6' : ∀ q ∈ qrest, ∀ n, (q, n) ∈ st.map →
            ¬ n ∈ st.trans.map Prod.fst ∧ n ≠ cid0 := by
          intro q hqr n hqn
          have hq2 : q ∈ st.queue := by rw [hq]; exact List.mem_cons_of_mem _ hqr
          refine ⟨h6 q hq2 n hqn, ?_⟩
          intro hc
          subst hc
          have hqc : q = current := fst_eq_of_val_nodup st.map h1 q current n hqn hc0
          have := hqhead q hqr
          rw [hqc, setEqB_refl] at this
          exact absurd this (by simp)
        obtain ⟨i2, c1, c2, c3, c4, c5, c6, c7, c8, c9, c10, c11, c12, c13, c14⟩ :=
          ndSym_foldl_props tr cfuel terms current cid0 st.trans hT0cid terms []
            { st with
              queue := qrest
              trans := st.trans ++ [(cid0, [])] }
            [] stmid (by simp) halph h1 h2 h3 (fun q hqr => h4 q (by
              rw [hq]; exact List.mem_cons_of_mem _ hqr)) hqtail h6' rfl h7
            (List.mem_map.mpr ⟨(current, cid0), hc0, rfl⟩) h9
            (by simp) (by simp) (by simp) hc0 hfold
        refine ihf stmid st' ⟨c1, c2, c3, c4, c5, ?_, ?_, ?_, ?_⟩ hrun
        · intro q hqm n hqn
          have hcc := c6 q hqm n hqn
          rw [c7]
          simp only [List.map_append, List.mem_append, List.map_cons, List.map_nil,
            List.mem_singleton]
          rintro (hm | hm)
          · exact hcc.1 hm
          · exact hcc.2 hm
        · intro k hk
          rw [c7] at hk
          simp only [List.map_append, List.mem_append, List.map_cons, List.map_nil,
            List.mem_singleton] at hk
          rcases hk with hk | hk
          · exact c8 k hk
          · rw [hk]; exact c9
        · rw [c7]
          simp only [List.map_append, List.map_cons, List.map_nil]
          rw [List.nodup_append]
          exact ⟨h8, List.nodup_singleton _, by
            intro k hk hm
            rcases List.mem_singleton.mp hm with rfl
            exact hT0cid hk⟩
        · intro e he
          rw [c7] at he
          rcases List.mem_append.mp he with he | he
          · exact c10 e he
          · rcases List.mem_singleton.mp he with rfl
            refine ⟨c11, ?_, current, c14, ?_⟩
            · intro p hp
              simpa using c12 p hp
            · intro sym hsym
              exact c13 sym (by simpa using hsym)

/-- Determinism and the no-sink property of the DFA produced by
`nfa_to_dfa` of src/lab4pc.py: emitted rows have pairwise distinct
state labels; each row's symbols are duplicate-free members of the
ε-filtered terminal list; and a symbol is absent from a row exactly
when the ε-closed union of moves of the row's underlying subset on that
symbol is empty — no sink state is ever recorded. -/
theorem nfa_to_dfa_props (tr : String → String → List String) (cfuel lfuel : Nat)
    (terminals : List String) (start_state : String) (st : DSt)
    (hterm : terminals.Nodup)
    (h : nfa_to_dfa tr cfuel lfuel terminals start_state = some st) :
    (st.trans.map Prod.fst).Nodup ∧
    ∀ e ∈ st.trans,
      (e.2.map Prod.fst).Nodup ∧
      (∀ p ∈ e.2, p.1 ∈ terminals.filter (fun t => decide (t ≠ EPSILON))) ∧
      ∃ S, (S, e.1) ∈ st.map ∧
        ∀ sym ∈ terminals.filter (fun t => decide (t ≠ EPSILON)),
          (lookupA e.2 sym = none ↔ nxtFor4 tr cfuel S sym = some []) := by
  unfold nfa_to_dfa at h
  cases hec : epsilon_closure tr cfuel start_state with
  | none => rw [hec] at h; simp at h
  | some ic =>
    rw [hec] at h
    have halph : (terminals.filter (fun t => decide (t ≠ EPSILON))).Nodup :=
      hterm.filter _
    have hinv0 : NDInv tr cfuel (terminals.filter (fun t => decide (t ≠ EPSILON)))
        { map := [(ic, 0)], trans := [], queue := [ic], ctr := 1 } := by
      refine ⟨by simp, by simp, List.pairwise_singleton _ _, by simp,
        List.pairwise_singleton _ _, ?_, by simp, by simp, by simp⟩
      intro q hq n hqn
      simp
    have hinv := ndLoop_props tr cfuel (terminals.filter (fun t => decide (t ≠ EPSILON)))
      halph lfuel _ st hinv0 h
    obtain ⟨_, _, _, _, _, _, _, g8, g9⟩ := hinv
    exact ⟨g8, g9⟩

end Lab4

namespace Util

theorem flatten_map_singleton {γ : Type} : ∀ (P : List γ), (P.map (fun g => [g])).flatten = P := by
  intro P
  induction P with
  | nil => rfl
  | cons g rest ih => simp only [List.map_cons, List.flatten_cons, ih]; rfl

end Util

namespace Lab2

theorem refineStep_eq {σ : Type} [DecidableEq σ] (sig : List (List String) → String → σ)
    (P : List (List String)) :
    refineStep sig P = (P.map (fun g => (buckets (sig P) g).map Prod.snd)).flatten := by
  unfold refineStep
  rw [foldl_append_join]
  simp

theorem regroup_flatten_perm {σ : Type} [DecidableEq σ] (σf : String → σ) :
    ∀ P : List (List String),
      ((P.map (fun g => (buckets σf g).map Prod.snd)).flatten).flatten.Perm P.flatten := by
  intro P
  induction P with
  | nil => simp
  | cons g rest ih =>
    simp only [List.map_cons, List.flatten_cons, List.flatten_append]
    exact (buckets_flatten_perm σf g).append ih

theorem refineStep_flatten_perm {σ : Type} [DecidableEq σ]
    (sig : List (List String) → String → σ) (P : List (List String)) :
    (refineStep sig P).flatten.Perm P.flatten := by
  rw [refineStep_eq]
  exact regroup_flatten_perm (sig P) P

theorem refineStep_nonempty {σ : Type} [DecidableEq σ]
    (sig : List (List String) → String → σ) (P : List (List String)) :
    ∀ b ∈ refineStep sig P, b ≠ [] := by
  rw [refineStep_eq]
  intro b hb
  rcases List.mem_flatten.mp hb with ⟨bl, hbl, hbbl⟩
  rcases List.mem_map.mp hbl with ⟨g, _, rfl⟩
  rcases List.mem_map.mp hbbl with ⟨bb, hbb, rfl⟩
  exact buckets_nonempty_blocks (sig P) g bb hbb

theorem refineStep_subblock {σ : Type} [DecidableEq σ]
    (sig : List (List String) → String → σ) (P : List (List String)) :
    ∀ b ∈ refineStep sig P, ∃ g ∈ P, ∀ x ∈ b, x ∈ g := by
  rw [refineStep_eq]
  intro b hb
  rcases List.mem_flatten.mp hb with ⟨bl, hbl, hbbl⟩
  rcases List.mem_map.mp hbl with ⟨g, hg, rfl⟩
  refine ⟨g, hg, ?_⟩
  intro x hx
  have hxf : x ∈ ((buckets (sig P) g).map Prod.snd).flatten :=
    List.mem_flatten.mpr ⟨b, hbbl, hx⟩
  exact (buckets_flatten_perm (sig P) g).subset hxf

theorem refineStep_length_eq {σ : Type} [DecidableEq σ]
    (sig : List (List String) → String → σ) (P : List (List String)) :
    (refineStep sig P).length = (P.map (fun g => (buckets (sig P) g).length)).sum := by
  rw [refineStep_eq, List.length_flatten]
  congr 1
  rw [List.map_map]
  exact List.map_congr_left (fun g _ => by simp)

theorem buckets_ne_nil {σ α : Type} [DecidableEq σ] (σf : α → σ) (g : List α)
    (hg : g ≠ []) : buckets σf g ≠ [] := by
  intro hc
  have := buckets_flatten_perm σf g
  rw [hc] at this
  simp only [List.map_nil, List.flatten_nil] at this
  exact hg this.symm.eq_nil

theorem refineStep_length_ge {σ : Type} [DecidableEq σ]
    (sig : List (List String) → String → σ) (P : List (List String))
    (h : ∀ g ∈ P, g ≠ []) : P.length ≤ (refineStep sig P).length := by
  rw [refineStep_length_eq]
  have hlen : (P.map (fun g => (buckets (sig P) g).length)).length = P.length := by simp
  rw [← hlen]
  refine sum_ge_length ?_
  intro n hn
  rcases List.mem_map.mp hn with ⟨g, hg, rfl⟩
  have := buckets_ne_nil (sig P) g (h g hg)
  cases hb : buckets (sig P) g with
  | nil => exact absurd hb this
  | cons _ _ => simp [hb]

theorem stepChanged_true_iff {σ : Type} [DecidableEq σ]
    (sig : List (List String) → String → σ) (P : List (List String)) :
    stepChanged sig P = true ↔ ∃ g ∈ P, 1 < (buckets (sig P) g).length := by
  unfold stepChanged
  rw [List.any_eq_true]
  constructor
  · rintro ⟨g, hg, hd⟩
    exact ⟨g, hg, by simpa using hd⟩
  · rintro ⟨g, hg, hd⟩
    exact ⟨g, hg, by simpa using hd⟩

theorem refineStep_length_gt {σ : Type} [DecidableEq σ]
    (sig : List (List String) → String → σ) (P : List (List String))
    (h : ∀ g ∈ P, g ≠ []) (hch : stepChanged sig P = true) :
    P.length + 1 ≤ (refineStep sig P).length := by
  rw [refineStep_length_eq]
  obtain ⟨g0, hg0, hlen0⟩ := (stepChanged_true_iff sig P).mp hch
  have hlen : (P.map (fun g => (buckets (sig P) g).length)).length = P.length := by simp
  rw [← hlen]
  refine sum_ge_length_succ ?_ ?_
  · intro n hn
    rcases List.mem_map.mp hn with ⟨g, hg, rfl⟩
    have := buckets_ne_nil (sig P) g (h g hg)
    cases hb : buckets (sig P) g with
    | nil => exact absurd hb this
    | cons _ _ => simp [hb]
  · exact ⟨(buckets (sig P) g0).length, List.mem_map.mpr ⟨g0, hg0, rfl⟩, hlen0⟩

theorem buckets_len_le_one_eq {σ : Type} [DecidableEq σ] (σf : String → σ)
    (g : List String) (hg : g ≠ []) (hlen : (buckets σf g).length ≤ 1) :
    ∃ k, buckets σf g = [(k, g)] := by
  have hall : ∀ x ∈ g, σf x = σf (g.headD "") := by
    intro x hx
    by_contra hne
    have hhd : g.headD "" ∈ g := by
      cases g with
      | nil => exact absurd rfl hg
      | cons s rest => exact List.mem_cons_self _ _
    have h1 := buckets_sig_mem σf g x hx
    have h2 := buckets_sig_mem σf g (g.headD "") hhd
    have := two_mem_length_ge _ _ _ h1 h2 hne
    simp only [List.length_map] at this
    omega
  exact ⟨σf (g.headD ""), buckets_const σf _ g hg hall⟩

theorem stepChanged_false_le {σ : Type} [DecidableEq σ]
    (sig : List (List String) → String → σ) (P : List (List String))
    (hch : stepChanged sig P = false) : ∀ g ∈ P, (buckets (sig P) g).length ≤ 1 := by
  intro g hg
  by_contra hgt
  rw [← Bool.not_eq_true] at hch
  exact hch ((stepChanged_true_iff sig P).mpr ⟨g, hg, by omega⟩)

theorem refineStep_eq_self {σ : Type} [DecidableEq σ]
    (sig : List (List String) → String → σ) (P : List (List String))
    (h : ∀ g ∈ P, g ≠ []) (hch : stepChanged sig P = false) : refineStep sig P = P := by
  rw [refineStep_eq]
  have hcong : ∀ g ∈ P, (buckets (sig P) g).map Prod.snd = [g] := by
    intro g hg
    obtain ⟨k, hk⟩ := buckets_len_le_one_eq (sig P) g (h g hg)
      (stepChanged_false_le sig P hch g hg)
    rw [hk]
    rfl
  rw [List.map_congr_left hcong]
  exact flatten_map_singleton P

/-- Monotone refinement terminates: with enough fuel relative to the
state count, the `while changed` loop reaches a partition no pass can
split, and every pass preserves the covered states. -/
theorem refineLoop_term {σ : Type} [DecidableEq σ]
    (sig : List (List String) → String → σ) (Q : List String) :
    ∀ (m : Nat) (P : List (List String)), (∀ g ∈ P, g ≠ []) → P.flatten.Perm Q →
      Q.length < P.length + m →
      ∃ P', refineLoop sig m P = some P' ∧ refineStep sig P' = P' ∧
        (∀ g ∈ P', g ≠ []) ∧ P'.flatten.Perm Q := by
  intro m
  induction m with
  | zero =>
    intro P hne hperm hlt
    have h1 : P.length ≤ P.flatten.length := length_le_flatten_length P hne
    have h2 : P.flatten.length = Q.length := hperm.length_eq
    omega
  | succ m ih =>
    intro P hne hperm hlt
    cases hch : stepChanged sig P with
    | false =>
      have heq : refineStep sig P = P := refineStep_eq_self sig P hne hch
      refine ⟨P, ?_, heq, hne, hperm⟩
      unfold refineLoop
      rw [hch]
      simp only [Bool.false_eq_true, if_false]
      rw [heq]
    | true =>
      have hstep := ih (refineStep sig P) (refineStep_nonempty sig P)
        ((refineStep_flatten_perm sig P).trans hperm) (by
          have := refineStep_length_gt sig P hne hch
          omega)
      obtain ⟨P', hP', hstab, hne', hperm'⟩ := hstep
      refine ⟨P', ?_, hstab, hne', hperm'⟩
      unfold refineLoop
      rw [hch]
      simp only [if_true]
      exact hP'

/-- Shared core for the refinement claims: per-pass monotonicity (blocks
only split and cover the same states) and termination of the
`while changed` loop within `|Q|` passes from any bucket-built initial
partition of a non-empty state list. -/
theorem refine_pass_and_term {σ σ0 : Type} [DecidableEq σ] [DecidableEq σ0]
    (sig : List (List String) → String → σ) (f : String → σ0) (Q : List String)
    (hQ : Q ≠ []) :
    (∀ P : List (List String), (∀ g ∈ P, g ≠ []) →
      (∀ b ∈ refineStep sig P, b ≠ [] ∧ ∃ g ∈ P, ∀ x ∈ b, x ∈ g) ∧
      (refineStep sig P).flatten.Perm P.flatten ∧
      P.length ≤ (refineStep sig P).length) ∧
    ∃ P', refineLoop sig Q.length ((buckets f Q).map Prod.snd) = some P' ∧
      refineStep sig P' = P' ∧ P'.flatten.Perm Q := by
  constructor
  · intro P hne
    exact ⟨fun b hb => ⟨refineStep_nonempty sig P b hb, refineStep_subblock sig P b hb⟩,
      refineStep_flatten_perm sig P, refineStep_length_ge sig P hne⟩
  · have hne0 : ∀ g ∈ (buckets f Q).map Prod.snd, g ≠ [] := by
      intro g hg
      rcases List.mem_map.mp hg with ⟨b, hb, rfl⟩
      exact buckets_nonempty_blocks f Q b hb
    have hperm0 : ((buckets f Q).map Prod.snd).flatten.Perm Q := buckets_flatten_perm f Q
    have hlen0 : 1 ≤ ((buckets f Q).map Prod.snd).length := by
      have := buckets_ne_nil f Q hQ
      cases hb : buckets f Q with
      | nil => exact absurd hb this
      | cons _ _ => simp [hb]
    obtain ⟨P', h1, h2, _, h4⟩ := refineLoop_term sig Q Q.length
      ((buckets f Q).map Prod.snd) hne0 hperm0 (by omega)
    exact ⟨P', h1, h2, h4⟩

/-- Core of the no-pruning result for `minimize_moore`: the loop always
completes within the built-in fuel and the quotient keeps one state per
block of the final stable partition, whose blocks cover exactly the
input states — reachability is never consulted. -/
theorem minimize_moore_total (Q : List String) (state_output : String → String)
    (delta : String → List String) (inputs : List String) :
    ∃ res, minimize_moore Q state_output delta inputs = some res ∧
      res.states = List.range res.parts.length ∧
      res.parts.flatten.Perm Q ∧
      (∀ g ∈ res.parts, g ≠ []) ∧
      refineStep (sigMoore state_output delta inputs) res.parts = res.parts := by
  have hne0 : ∀ g ∈ (buckets (fun s => state_output s) Q).map Prod.snd, g ≠ [] := by
    intro g hg
    rcases List.mem_map.mp hg with ⟨b, hb, rfl⟩
    exact buckets_nonempty_blocks _ Q b hb
  have hperm0 : ((buckets (fun s => state_output s) Q).map Prod.snd).flatten.Perm Q :=
    buckets_flatten_perm _ Q
  obtain ⟨P', hloop, hstab, hne', hperm'⟩ :=
    refineLoop_term (sigMoore state_output delta inputs) Q (Q.length + 1)
      ((buckets (fun s => state_output s) Q).map Prod.snd) hne0 hperm0 (by omega)
  refine ⟨{ states := List.range P'.length
            outputs := Q.filterMap (fun s =>
              (P'.findIdx? (fun g => decide (s ∈ g))).map (fun i => (i, state_output s)))
            delta := P'.map (fun g =>
              ((P'.findIdx? (fun g2 => decide (g.headD "" ∈ g2))).getD 0,
               (List.range inputs.length).map (fun a =>
                 (P'.findIdx? (fun g2 =>
                   decide ((delta (g.headD "")).getD a "" ∈ g2))).getD 0)))
            parts := P' }, ?_, rfl, hperm', hne', hstab⟩
  simp only [minimize_moore]
  rw [hloop]

/-- Core of the no-pruning result for `minimize_mealy`. -/
theorem minimize_mealy_total (inputs states : List String)
    (transitions : String → List (String × String)) :
    ∃ res, minimize_mealy inputs states transitions = some res ∧
      res.states = List.range res.parts.length ∧
      res.parts.flatten.Perm states ∧
      (∀ g ∈ res.parts, g ≠ []) ∧
      refineStep (sigMealy transitions inputs) res.parts = res.parts := by
  have hne0 : ∀ g ∈ (buckets (fun s =>
      (List.range inputs.length).map (fun i => ((transitions s).getD i ("", "")).2))
      states).map Prod.snd, g ≠ [] := by
    intro g hg
    rcases List.mem_map.mp hg with ⟨b, hb, rfl⟩
    exact buckets_nonempty_blocks _ states b hb
  have hperm0 : ((buckets (fun s =>
      (List.range inputs.length).map (fun i => ((transitions s).getD i ("", "")).2))
      states).map Prod.snd).flatten.Perm states :=
    buckets_flatten_perm _ states
  obtain ⟨P', hloop, hstab, hne', hperm'⟩ :=
    refineLoop_term (sigMealy transitions inputs) states (states.length + 1)
      ((buckets (fun s =>
        (List.range inputs.length).map (fun i => ((transitions s).getD i ("", "")).2))
        states).map Prod.snd) hne0 hperm0 (by omega)
  refine ⟨{ states := List.range P'.length
            trans := P'.map (fun g =>
              ((P'.findIdx? (fun g2 => decide (g.headD "" ∈ g2))).getD 0,
               (transitions (g.headD "")).map (fun t =>
                 ((P'.findIdx? (fun g2 => decide (t.1 ∈ g2))).getD 0, t.2))))
            parts := P' }, ?_, rfl, hperm', hne', hstab⟩
  simp only [minimize_mealy]
  rw [hloop]

end Lab2

namespace Util

theorem length_filter_mono {α : Type} (S : List α) (p q : α → Bool)
    (h : ∀ x ∈ S, p x = true → q x = true) :
    (S.filter p).length ≤ (S.filter q).length := by
  induction S with
  | nil => simp
  | cons x S' ih =>
    have ih' := ih (fun y hy => h y (List.mem_cons_of_mem _ hy))
    simp only [List.filter_cons]
    by_cases hp : p x = true
    · rw [hp, h x (List.mem_cons_self _ _) hp]
      simpa using ih'
    · rw [Bool.eq_false_iff.mpr hp]
      simp only [Bool.false_eq_true, if_false]
      cases hq : q x
      · simp only [Bool.false_eq_true, if_false]
        exact ih'
      · simp only [if_true, List.length_cons]
        omega

theorem filter_exclude_one {α : Type} [DecidableEq α] :
    ∀ (S K : List α) (k : α), k ∈ S → ¬ k ∈ K →
      (S.filter (fun s => decide (¬ s ∈ K ++ [k]))).length + 1
        ≤ (S.filter (fun s => decide (¬ s ∈ K))).length := by
  intro S
  induction S with
  | nil => intro K k hk; simp at hk
  | cons x S' ih =>
    intro K k hk hnk
    by_cases hxk : x = k
    · subst hxk
      simp only [List.filter_cons]
      rw [show (decide (¬ x ∈ K ++ [x])) = false by simp,
        show (decide (¬ x ∈ K)) = true by simpa using hnk]
      simp only [Bool.false_eq_true, if_false, if_true, List.length_cons]
      have hmono := length_filter_mono S' (fun s => decide (¬ s ∈ K ++ [x]))
        (fun s => decide (¬ s ∈ K)) ?_
      · omega
      · intro y _ hy
        simp only [decide_eq_true_eq, List.mem_append] at hy ⊢
        exact fun hc => hy (Or.inl hc)
    · have hk' : k ∈ S' := by
        rcases List.mem_cons.mp hk with h | h
        · exact absurd h.symm hxk
        · exact h
      simp only [List.filter_cons]
      by_cases hxKk : x ∈ K ++ [k]
      · have hxK : x ∈ K := by
          rcases List.mem_append.mp hxKk with h | h
          · exact h
          · exact absurd (List.mem_singleton.mp h) hxk
        rw [show (decide (¬ x ∈ K ++ [k])) = false by simp [hxKk],
          show (decide (¬ x ∈ K)) = false by simp [hxK]]
        simp only [Bool.false_eq_true, if_false]
        exact ih K k hk' hnk
      · have hxK : ¬ x ∈ K := fun h => hxKk (List.mem_append_left _ h)
        rw [show (decide (¬ x ∈ K ++ [k])) = true by simpa using hxKk,
          show (decide (¬ x ∈ K)) = true by simpa using hxK]
        simp only [if_true, List.length_cons]
        have := ih K k hk' hnk
        omega

theorem filter_exclude_many {α : Type} [DecidableEq α] (S : List α) :
    ∀ (ks K : List α), (K ++ ks).Nodup → (∀ k ∈ ks, k ∈ S) →
      (S.filter (fun s => decide (¬ s ∈ K ++ ks))).length + ks.length
        ≤ (S.filter (fun s => decide (¬ s ∈ K))).length := by
  intro ks
  induction ks with
  | nil => intro K _ _; simp
  | cons k ks' ih =>
    intro K hnd hmem
    have hknK : ¬ k ∈ K := not_mem_left_of_nodup_append_cons K k ks' hnd
    have step := filter_exclude_one S K k (hmem k (List.mem_cons_self _ _)) hknK
    have hnd' : ((K ++ [k]) ++ ks').Nodup := by
      rw [List.append_assoc]
      simpa using hnd
    have ihs := ih (K ++ [k]) hnd' (fun k2 hk2 => hmem k2 (List.mem_cons_of_mem _ hk2))
    have hre : K ++ k :: ks' = (K ++ [k]) ++ ks' := by simp
    rw [hre]
    simp only [List.length_cons]
    omega

end Util

namespace CheckMoore

theorem insStr_perm (a : String) (l : List String) : (insStr a l).Perm (a :: l) := by
  induction l with
  | nil => exact List.Perm.refl _
  | cons b rest ih =>
    unfold insStr
    by_cases hc : a ≤ b
    · rw [if_pos hc]
    · rw [if_neg hc]
      exact (List.Perm.cons b ih).trans (List.Perm.swap a b rest)

theorem sortStr_perm (l : List String) : (sortStr l).Perm l := by
  induction l with
  | nil => exact List.Perm.refl _
  | cons a rest ih =>
    unfold sortStr at ih ⊢
    simp only [List.foldr_cons]
    exact (insStr_perm a _).trans (List.Perm.cons a ih)

theorem zip_same_diag {α : Type} : ∀ (l : List α) (p : α × α), p ∈ l.zip l → p.2 = p.1 := by
  intro l
  induction l with
  | nil => intro p hp; simp at hp
  | cons x rest ih =>
    intro p hp
    rcases List.mem_cons.mp hp with rfl | hp
    · rfl
    · exact ih p hp

/-- The pair loop extends the mapping only along the graph of `f`. -/
theorem procPairs_graph (a1 a2 : MooreA) (f : String → String)
    (Hout : ∀ s ∈ a1.states, a1.outputs s = a2.outputs (f s)) :
    ∀ (pairs mapping adds : List (String × String)),
      (∀ p ∈ pairs, p.2 = f p.1 ∧ p.1 ∈ a1.states) →
      (∀ p ∈ mapping, p.2 = f p.1) →
      (mapping.map Prod.fst).Nodup →
      ∃ adds2 : List (String × String),
        procPairs a1 a2 pairs mapping adds = some (mapping ++ adds2, adds ++ adds2) ∧
        (∀ p ∈ adds2, p.2 = f p.1 ∧ p.1 ∈ a1.states) ∧
        ((mapping ++ adds2).map Prod.fst).Nodup := by
  intro pairs
  induction pairs with
  | nil =>
    intro mapping adds _ hmap hnd
    exact ⟨[], by simp [procPairs], by simp, by simpa using hnd⟩
  | cons p rest ih =>
    intro mapping adds hpairs hmap hnd
    obtain ⟨hp2, hp1⟩ := hpairs p (List.mem_cons_self _ _)
    have hrest : ∀ q ∈ rest, q.2 = f q.1 ∧ q.1 ∈ a1.states :=
      fun q hq => hpairs q (List.mem_cons_of_mem _ hq)
    obtain ⟨t1, t2⟩ := p
    simp only at hp2 hp1
    cases hl : lookupA mapping t1 with
    | some m =>
      have hm : m = f t1 := hmap (t1, m) (lookupA_mem_of_some mapping t1 m hl)
      have hcond : m = t2 ∧ a1.outputs t1 = a2.outputs t2 := by
        constructor
        · rw [hm, hp2]
        · rw [hp2]
          exact Hout t1 hp1
      obtain ⟨adds2, heq, hg, hnd2⟩ := ih mapping adds hrest hmap hnd
      refine ⟨adds2, ?_, hg, hnd2⟩
      simp only [procPairs, hl, if_pos hcond]
      exact heq
    | none =>
      have hcond : a1.outputs t1 = a2.outputs t2 := by
        rw [hp2]
        exact Hout t1 hp1
      have hmap' : ∀ q ∈ mapping ++ [(t1, t2)], q.2 = f q.1 := by
        intro q hq
        rcases List.mem_append.mp hq with hq | hq
        · exact hmap q hq
        · rcases List.mem_singleton.mp hq with rfl
          exact hp2
      have hnd' : ((mapping ++ [(t1, t2)]).map Prod.fst).Nodup := by
        simp only [List.map_append, List.map_cons, List.map_nil]
        rw [List.nodup_append]
        refine ⟨hnd, List.nodup_singleton _, ?_⟩
        intro x hx hx2
        rcases List.mem_singleton.mp hx2 with rfl
        rw [← lookupA_isSome_iff_mem] at hx
        rw [hl] at hx
        simp at hx
      obtain ⟨adds2, heq, hg, hnd2⟩ := ih (mapping ++ [(t1, t2)]) (adds ++ [(t1, t2)])
        hrest hmap' hnd'
      refine ⟨(t1, t2) :: adds2, ?_, ?_, ?_⟩
      · simp only [procPairs, hl, if_pos hcond]
        rw [heq]
        simp
      · intro q hq
        rcases List.mem_cons.mp hq with rfl | hq
        · exact ⟨hp2, hp1⟩
        · exact hg q hq
      · simpa using hnd2

end CheckMoore

namespace CheckMoore

/-- The symbol loop extends the mapping only along the graph of `f` and
never fails when `f` is a transition-respecting correspondence. -/
theorem procSyms_graph (a1 a2 : MooreA) (f : String → String)
    (Hout : ∀ s ∈ a1.states, a1.outputs s = a2.outputs (f s))
    (Htgt : ∀ s ∈ a1.states, ∀ a ∈ allInputs a1 a2,
      (a1.transitions s a).length = (a2.transitions (f s) a).length ∧
      ∀ p ∈ (sortStr (a1.transitions s a)).zip (sortStr (a2.transitions (f s) a)),
        p.2 = f p.1)
    (Hclosed : ∀ s ∈ a1.states, ∀ a ∈ allInputs a1 a2,
      ∀ t ∈ a1.transitions s a, t ∈ a1.states)
    (s1 : String) (hs1 : s1 ∈ a1.states) :
    ∀ (syms : List String) (mapping adds : List (String × String)),
      (∀ a ∈ syms, a ∈ allInputs a1 a2) →
      (∀ p ∈ mapping, p.2 = f p.1) →
      (mapping.map Prod.fst).Nodup →
      ∃ adds2 : List (String × String),
        procSyms a1 a2 s1 (f s1) syms mapping adds = some (mapping ++ adds2, adds ++ adds2) ∧
        (∀ p ∈ adds2, p.2 = f p.1 ∧ p.1 ∈ a1.states) ∧
        ((mapping ++ adds2).map Prod.fst).Nodup := by
  intro syms
  induction syms with
  | nil =>
    intro mapping adds _ hmap hnd
    exact ⟨[], by simp [procSyms], by simp, by simpa using hnd⟩
  | cons sym rest ih =>
    intro mapping adds hsyms hmap hnd
    have hsym : sym ∈ allInputs a1 a2 := hsyms sym (List.mem_cons_self _ _)
    obtain ⟨hlen, hzip⟩ := Htgt s1 hs1 sym hsym
    have hpairs : ∀ p ∈ (sortStr (a1.transitions s1 sym)).zip
        (sortStr (a2.transitions (f s1) sym)), p.2 = f p.1 ∧ p.1 ∈ a1.states := by
      intro p hp
      refine ⟨hzip p hp, ?_⟩
      have hp1 : p.1 ∈ sortStr (a1.transitions s1 sym) := (List.of_mem_zip hp).1
      have hp1' : p.1 ∈ a1.transitions s1 sym := (sortStr_perm _).subset hp1
      exact Hclosed s1 hs1 sym hsym p.1 hp1'
    obtain ⟨adds2a, heqa, hga, hnda⟩ := procPairs_graph a1 a2 f Hout
      ((sortStr (a1.transitions s1 sym)).zip (sortStr (a2.transitions (f s1) sym)))
      mapping adds hpairs hmap hnd
    have hmap' : ∀ p ∈ mapping ++ adds2a, p.2 = f p.1 := by
      intro p hp
      rcases List.mem_append.mp hp with hp | hp
      · exact hmap p hp
      · exact (hga p hp).1
    obtain ⟨adds2b, heqb, hgb, hndb⟩ := ih (mapping ++ adds2a) (adds ++ adds2a)
      (fun a ha => hsyms a (List.mem_cons_of_mem _ ha)) hmap' hnda
    refine ⟨adds2a ++ adds2b, ?_, ?_, ?_⟩
    · simp only [procSyms, hlen, ne_eq, not_true_eq_false, if_false, heqa]
      rw [heqb]
      simp [List.append_assoc]
    · intro p hp
      rcases List.mem_append.mp hp with hp | hp
      · exact hga p hp
      · exact hgb p hp
    · simpa [List.append_assoc] using hndb

/-- The breadth-first loop returns `True` when a transition-respecting
correspondence `f` exists, given fuel at least the number of states. -/
theorem eqLoop_true (a1 a2 : MooreA) (f : String → String)
    (Hout : ∀ s ∈ a1.states, a1.outputs s = a2.outputs (f s))
    (Htgt : ∀ s ∈ a1.states, ∀ a ∈ allInputs a1 a2,
      (a1.transitions s a).length = (a2.transitions (f s) a).length ∧
      ∀ p ∈ (sortStr (a1.transitions s a)).zip (sortStr (a2.transitions (f s) a)),
        p.2 = f p.1)
    (Hclosed : ∀ s ∈ a1.states, ∀ a ∈ allInputs a1 a2,
      ∀ t ∈ a1.transitions s a, t ∈ a1.states) :
    ∀ (fuel : Nat) (queue mapping : List (String × String)),
      (∀ p ∈ queue, p.2 = f p.1 ∧ p.1 ∈ a1.states) →
      (∀ p ∈ mapping, p.2 = f p.1) →
      (mapping.map Prod.fst).Nodup →
      queue.length +
        (a1.states.filter (fun s => decide (¬ s ∈ mapping.map Prod.fst))).length ≤ fuel →
      eqLoop a1 a2 (allInputs a1 a2) fuel queue mapping = some true := by
  intro fuel
  induction fuel with
  | zero =>
    intro queue mapping hq _ _ hfuel
    cases queue with
    | nil => rfl
    | cons p rest => simp at hfuel
  | succ fuel ih =>
    intro queue mapping hq hmap hnd hfuel
    cases queue with
    | nil => rfl
    | cons p qrest =>
      obtain ⟨s1, s2⟩ := p
      obtain ⟨hp2, hp1⟩ := hq (s1, s2) (List.mem_cons_self _ _)
      simp only at hp2 hp1
      subst hp2
      obtain ⟨adds2, heq, hg, hnd2⟩ := procSyms_graph a1 a2 f Hout Htgt Hclosed s1 hp1
        (allInputs a1 a2) mapping [] (fun a ha => ha) hmap hnd
      simp only [eqLoop, heq, List.nil_append]
      have hq' : ∀ q ∈ qrest ++ adds2, q.2 = f q.1 ∧ q.1 ∈ a1.states := by
        intro q hqm
        rcases List.mem_append.mp hqm with hqm | hqm
        · exact hq q (List.mem_cons_of_mem _ hqm)
        · exact hg q hqm
      have hmap' : ∀ q ∈ mapping ++ adds2, q.2 = f q.1 := by
        intro q hqm
        rcases List.mem_append.mp hqm with hqm | hqm
        · exact hmap q hqm
        · exact (hg q hqm).1
      have hndapp : (mapping.map Prod.fst ++ adds2.map Prod.fst).Nodup := by
        rw [← List.map_append]
        exact hnd2
      have hks : ∀ k ∈ adds2.map Prod.fst, k ∈ a1.states := by
        intro k hk
        rcases List.mem_map.mp hk with ⟨q, hqm, rfl⟩
        exact (hg q hqm).2
      have hsub := filter_exclude_many a1.states (adds2.map Prod.fst)
        (mapping.map Prod.fst) hndapp hks
      refine ih (qrest ++ adds2) (mapping ++ adds2) hq' hmap' hnd2 ?_
      have hre : (mapping ++ adds2).map Prod.fst
          = mapping.map Prod.fst ++ adds2.map Prod.fst := by
        rw [List.map_append]
      rw [hre]
      simp only [List.length_append, List.length_map] at hsub ⊢
      simp only [List.length_cons] at hfuel
      omega

/-- The equivalence check returns `True` whenever a
transition-respecting, output-preserving correspondence from the first
automaton's states into the second exists, with fuel `|states|`. -/
theorem equiv_true_of_sim (a1 a2 : MooreA) (f : String → String)
    (hne : a1.states ≠ [])
    (hstart : f (a1.states.headD "") = a2.states.headD "")
    (Hout : ∀ s ∈ a1.states, a1.outputs s = a2.outputs (f s))
    (Htgt : ∀ s ∈ a1.states, ∀ a ∈ allInputs a1 a2,
      (a1.transitions s a).length = (a2.transitions (f s) a).length ∧
      ∀ p ∈ (sortStr (a1.transitions s a)).zip (sortStr (a2.transitions (f s) a)),
        p.2 = f p.1)
    (Hclosed : ∀ s ∈ a1.states, ∀ a ∈ allInputs a1 a2,
      ∀ t ∈ a1.transitions s a, t ∈ a1.states) :
    are_moore_automata_equivalent a1.states.length a1 a2 = some true := by
  have hhead : a1.states.headD "" ∈ a1.states := by
    cases h : a1.states with
    | nil => exact absurd h hne
    | cons x rest => simp
  have hcond : a1.outputs (a1.states.headD "") = a2.outputs (a2.states.headD "") := by
    rw [← hstart]
    exact Hout _ hhead
  simp only [are_moore_automata_equivalent, if_pos hcond]
  refine eqLoop_true a1 a2 f Hout Htgt Hclosed a1.states.length
    [(a1.states.headD "", a2.states.headD "")] [(a1.states.headD "", a2.states.headD "")]
    ?_ ?_ ?_ ?_
  · intro p hp
    rcases List.mem_singleton.mp hp with rfl
    exact ⟨hstart.symm, hhead⟩
  · intro p hp
    rcases List.mem_singleton.mp hp with rfl
    exact hstart.symm
  · simp
  · have hx := filter_exclude_one a1.states [] (a1.states.headD "") hhead (by simp)
    have hall : a1.states.filter (fun s => decide (¬ s ∈ ([] : List String)))
        = a1.states := by
      simp
    rw [hall] at hx
    simp only [List.nil_append] at hx
    simp only [List.length_cons, List.length_nil, List.map_cons, List.map_nil]
    omega

end CheckMoore

namespace Lab1

/-- Looking up a key in an association list whose values are a function
of the keys yields that function's value. -/
theorem lookupA_map_self {κ ν : Type} [DecidableEq κ] (g : κ → ν) :
    ∀ (l : List κ) (k : κ), k ∈ l →
      lookupA (l.map (fun x => (x, g x))) k = some (g k) := by
  intro l
  induction l with
  | nil => intro k hk; simp at hk
  | cons x rest ih =>
    intro k hk
    by_cases hx : x = k
    · subst hx
      simp [lookupA]
    · have hk' : k ∈ rest := by
        rcases List.mem_cons.mp hk with h | h
        · exact absurd h.symm hx
        · exact h
      simp only [List.map_cons, lookupA, if_neg hx]
      exact ih k hk'

/-- Looking up in an association list keyed by a projection, with
values a function of the key. -/
theorem lookupA_map_key {α κ ν : Type} [DecidableEq κ] (f : α → κ) (g : κ → ν) :
    ∀ (l : List α) (k : κ), k ∈ l.map f →
      lookupA (l.map (fun x => (f x, g (f x)))) k = some (g k) := by
  intro l
  induction l with
  | nil => intro k hk; simp at hk
  | cons x rest ih =>
    intro k hk
    by_cases hx : f x = k
    · subst hx
      simp [lookupA]
    · simp only [List.map_cons, List.mem_cons] at hk
      rcases hk with h | h
      · exact absurd h.symm hx
      · simp only [List.map_cons, lookupA, if_neg hx]
        exact ih k h

/-- In an association list with pairwise distinct keys, lookup of a
present pair's key returns its value. -/
theorem lookupA_of_nodup {κ ν : Type} [DecidableEq κ] :
    ∀ (l : List (κ × ν)) (k : κ) (v : ν), (l.map Prod.fst).Nodup →
      (k, v) ∈ l → lookupA l k = some v := by
  intro l
  induction l with
  | nil => intro k v _ hm; simp at hm
  | cons e rest ih =>
    intro k v hnd hm
    simp only [List.map_cons, List.nodup_cons] at hnd
    rcases List.mem_cons.mp hm with h | h
    · rw [← h]
      simp [lookupA]
    · by_cases he : e.1 = k
      · exfalso
        apply hnd.1
        rw [he]
        exact List.mem_map.mpr ⟨(k, v), h, rfl⟩
      · simp only [lookupA, if_neg he]
        exact ih k v hnd.2 h

/-- Lookup in a filterMap-built association list whose produced keys
match the generating elements. -/
theorem lookupA_filterMap_self {κ ν : Type} [DecidableEq κ] (g : κ → Option (κ × ν))
    (hg : ∀ x p, g x = some p → p.1 = x) :
    ∀ (l : List κ) (k : κ) (p : κ × ν), k ∈ l → g k = some p →
      lookupA (l.filterMap g) k = some p.2 := by
  intro l
  induction l with
  | nil => intro k p hk _; simp at hk
  | cons x rest ih =>
    intro k p hk hgk
    by_cases hx : x = k
    · subst hx
      simp only [List.filterMap_cons, hgk]
      have h1 : p.1 = x := hg x p hgk
      simp [lookupA, h1]
    · have hk' : k ∈ rest := by
        rcases List.mem_cons.mp hk with h | h
        · exact absurd h.symm hx
        · exact h
      cases hgx : g x with
      | none =>
        simp only [List.filterMap_cons, hgx]
        exact ih k p hk' hgk
      | some q =>
        have h1 : q.1 = x := hg x q hgx
        have hne : q.1 ≠ k := by rw [h1]; exact hx
        simp only [List.filterMap_cons, hgx, lookupA, if_neg hne]
        exact ih k p hk' hgk

/-- The default head of a nonempty list is a member. -/
theorem headD_mem {α : Type} (l : List α) (d : α) (h : l ≠ []) : l.headD d ∈ l := by
  cases l with
  | nil => exact absurd rfl h
  | cons x rest => exact List.mem_cons_self x rest

/-- States pushed in one step of the pruning worklist are successors,
hence in the universe. -/
theorem ru_pushes_univ {α : Type} [DecidableEq α] (inputs : List String)
    (tr : α → String → Option α) (univ : List α)
    (htr : ∀ s a n, tr s a = some n → n ∈ univ) (s : α) (reach : List α) :
    ∀ x ∈ inputs.filterMap (fun a =>
      match tr s a with
      | some n => if n ∈ reach ++ [s] then none else some n
      | none => none), x ∈ univ := by
  intro x hx
  rcases List.mem_filterMap.mp hx with ⟨a, _, hfa⟩
  cases htra : tr s a with
  | none =>
    simp only [htra] at hfa
    exact Option.noConfusion hfa
  | some n =>
    simp only [htra] at hfa
    by_cases hn : n ∈ reach ++ [s]
    · rw [if_pos hn] at hfa
      exact absurd hfa (by simp)
    · rw [if_neg hn] at hfa
      simp only [Option.some.injEq] at hfa
      rw [← hfa]
      exact htr s a n htra

/-- Termination of the pruning worklist: with targets inside a finite
universe and enough fuel the loop returns a result. -/
theorem ruLoop_sound {α : Type} [DecidableEq α] (inputs : List String)
    (tr : α → String → Option α) (univ : List α)
    (htr : ∀ s a n, tr s a = some n → n ∈ univ) :
    ∀ (fuel : Nat) (queue reach : List α),
      (∀ s ∈ queue, s ∈ univ) →
      queue.length + (univ.filter (fun u => decide (¬ u ∈ reach))).length * (1 + inputs.length)
        ≤ fuel →
      ∃ R, ruLoop inputs tr fuel queue reach = some R := by
  intro fuel
  induction fuel with
  | zero =>
    intro queue reach hq hb
    cases queue with
    | nil => exact ⟨reach, rfl⟩
    | cons s q => simp only [List.length_cons] at hb; omega
  | succ fuel ih =>
    intro queue reach hq hb
    cases queue with
    | nil => exact ⟨reach, rfl⟩
    | cons s q =>
      by_cases hs : s ∈ reach
      · have hb' : q.length +
            (univ.filter (fun u => decide (¬ u ∈ reach))).length * (1 + inputs.length)
            ≤ fuel := by
          simp only [List.length_cons] at hb
          omega
        rcases ih q reach (fun x hx => hq x (List.mem_cons_of_mem s hx)) hb' with ⟨R, hR⟩
        refine ⟨R, ?_⟩
        simp only [ruLoop, if_pos hs]
        exact hR
      · have hsu : s ∈ univ := hq s (List.mem_cons_self s q)
        have hdec := filter_exclude_one univ reach s hsu hs
        have hplen : (inputs.filterMap (fun a =>
            match tr s a with
            | some n => if n ∈ reach ++ [s] then none else some n
            | none => none)).length ≤ inputs.length := List.length_filterMap_le _ _
        have hq' : ∀ x ∈ q ++ inputs.filterMap (fun a =>
            match tr s a with
            | some n => if n ∈ reach ++ [s] then none else some n
            | none => none), x ∈ univ := by
          intro x hx
          rcases List.mem_append.mp hx with h | h
          · exact hq x (List.mem_cons_of_mem s h)
          · exact ru_pushes_univ inputs tr univ htr s reach x h
        have hb' : (q ++ inputs.filterMap (fun a =>
            match tr s a with
            | some n => if n ∈ reach ++ [s] then none else some n
            | none => none)).length +
            (univ.filter (fun u => decide (¬ u ∈ reach ++ [s]))).length * (1 + inputs.length)
            ≤ fuel := by
          rw [List.length_append]
          simp only [List.length_cons] at hb
          have hmul : ((univ.filter (fun u => decide (¬ u ∈ reach ++ [s]))).length + 1)
              * (1 + inputs.length)
              ≤ (univ.filter (fun u => decide (¬ u ∈ reach))).length * (1 + inputs.length) :=
            Nat.mul_le_mul_right _ hdec
          rw [Nat.succ_mul] at hmul
          omega
        rcases ih _ _ hq' hb' with ⟨R, hR⟩
        refine ⟨R, ?_⟩
        simp only [ruLoop, if_neg hs]
        exact hR

/-- Everything already reached, and everything queued, ends up in the
result of the pruning worklist. -/
theorem ruLoop_mem {α : Type} [DecidableEq α] (inputs : List String)
    (tr : α → String → Option α) :
    ∀ (fuel : Nat) (queue reach R : List α),
      ruLoop inputs tr fuel queue reach = some R →
      (∀ s ∈ reach, s ∈ R) ∧ ∀ s ∈ queue, s ∈ R := by
  intro fuel
  induction fuel with
  | zero =>
    intro queue reach R h
    cases queue with
    | nil =>
      simp only [ruLoop, Option.some.injEq] at h
      subst h
      exact ⟨fun s hs => hs, fun s hs => absurd hs (List.not_mem_nil s)⟩
    | cons s q => simp [ruLoop] at h
  | succ fuel ih =>
    intro queue reach R h
    cases queue with
    | nil =>
      simp only [ruLoop, Option.some.injEq] at h
      subst h
      exact ⟨fun s hs => hs, fun s hs => absurd hs (List.not_mem_nil s)⟩
    | cons s q =>
      by_cases hs : s ∈ reach
      · simp only [ruLoop, if_pos hs] at h
        rcases ih q reach R h with ⟨h1, h2⟩
        refine ⟨h1, ?_⟩
        intro x hx
        rcases List.mem_cons.mp hx with rfl | hx'
        · exact h1 x hs
        · exact h2 x hx'
      · simp only [ruLoop, if_neg hs] at h
        rcases ih _ _ R h with ⟨h1, h2⟩
        constructor
        · intro x hx
          exact h1 x (List.mem_append_left _ hx)
        · intro x hx
          rcases List.mem_cons.mp hx with rfl | hx'
          · exact h1 x (List.mem_append_right _ (List.mem_cons_self x []))
          · exact h2 x (List.mem_append_left _ hx')

/-- The result of the pruning worklist stays inside the universe. -/
theorem ruLoop_subset {α : Type} [DecidableEq α] (inputs : List String)
    (tr : α → String → Option α) (univ : List α)
    (htr : ∀ s a n, tr s a = some n → n ∈ univ) :
    ∀ (fuel : Nat) (queue reach R : List α),
      (∀ s ∈ queue, s ∈ univ) → (∀ s ∈ reach, s ∈ univ) →
      ruLoop inputs tr fuel queue reach = some R →
      ∀ s ∈ R, s ∈ univ := by
  intro fuel
  induction fuel with
  | zero =>
    intro queue reach R hq hr h
    cases queue with
    | nil =>
      simp only [ruLoop, Option.some.injEq] at h
      subst h
      exact hr
    | cons s q => simp [ruLoop] at h
  | succ fuel ih =>
    intro queue reach R hq hr h
    cases queue with
    | nil =>
      simp only [ruLoop, Option.some.injEq] at h
      subst h
      exact hr
    | cons s q =>
      by_cases hs : s ∈ reach
      · simp only [ruLoop, if_pos hs] at h
        exact ih q reach R (fun x hx => hq x (List.mem_cons_of_mem s hx)) hr h
      · simp only [ruLoop, if_neg hs] at h
        apply ih _ _ R ?_ ?_ h
        · intro x hx
          rcases List.mem_append.mp hx with h' | h'
          · exact hq x (List.mem_cons_of_mem s h')
          · exact ru_pushes_univ inputs tr univ htr s reach x h'
        · intro x hx
          rcases List.mem_append.mp hx with h' | h'
          · exact hr x h'
          · rcases List.mem_cons.mp h' with rfl | h''
            · exact hq x (List.mem_cons_self x q)
            · simp at h''

/-- The result of the pruning worklist is closed under transitions on
the given inputs. -/
theorem ruLoop_closed {α : Type} [DecidableEq α] (inputs : List String)
    (tr : α → String → Option α) :
    ∀ (fuel : Nat) (queue reach R : List α),
      (∀ s ∈ reach, ∀ a ∈ inputs, ∀ n, tr s a = some n → n ∈ reach ∨ n ∈ queue) →
      ruLoop inputs tr fuel queue reach = some R →
      ∀ s ∈ R, ∀ a ∈ inputs, ∀ n, tr s a = some n → n ∈ R := by
  intro fuel
  induction fuel with
  | zero =>
    intro queue reach R hinv h
    cases queue with
    | nil =>
      simp only [ruLoop, Option.some.injEq] at h
      subst h
      intro s hs a ha n htrn
      rcases hinv s hs a ha n htrn with h' | h'
      · exact h'
      · simp at h'
    | cons s q => simp [ruLoop] at h
  | succ fuel ih =>
    intro queue reach R hinv h
    cases queue with
    | nil =>
      simp only [ruLoop, Option.some.injEq] at h
      subst h
      intro s hs a ha n htrn
      rcases hinv s hs a ha n htrn with h' | h'
      · exact h'
      · simp at h'
    | cons s q =>
      by_cases hs : s ∈ reach
      · simp only [ruLoop, if_pos hs] at h
        apply ih q reach R ?_ h
        intro x hx a ha n htrn
        rcases hinv x hx a ha n htrn with h' | h'
        · exact Or.inl h'
        · rcases List.mem_cons.mp h' with rfl | h''
          · exact Or.inl hs
          · exact Or.inr h''
      · simp only [ruLoop, if_neg hs] at h
        apply ih _ _ R ?_ h
        intro x hx a ha n htrn
        rcases List.mem_append.mp hx with hx' | hx'
        · rcases hinv x hx' a ha n htrn with h' | h'
          · exact Or.inl (List.mem_append_left _ h')
          · rcases List.mem_cons.mp h' with rfl | h''
            · exact Or.inl (List.mem_append_right _ (List.mem_cons_self n []))
            · exact Or.inr (List.mem_append_left _ h'')
        · rcases List.mem_cons.mp hx' with rfl | h''
          · by_cases hn : n ∈ reach ++ [x]
            · exact Or.inl hn
            · refine Or.inr (List.mem_append_right _ ?_)
              apply List.mem_filterMap.mpr
              refine ⟨a, ha, ?_⟩
              simp only [htrn]
              rw [if_neg hn]
          · simp at h''

/-- The keys of a counter-indexed pair list are the original list. -/
theorem idxPairs_map_fst {α : Type} : ∀ (l : List α) (n : Nat),
    (idxPairs l n).map Prod.fst = l := by
  intro l
  induction l with
  | nil => intro n; rfl
  | cons x rest ih =>
    intro n
    simp only [idxPairs, List.map_cons, ih]

/-- Counter values of a counter-indexed pair list start at the given
counter. -/
theorem idxPairs_snd_bounds {α : Type} : ∀ (l : List α) (n : Nat) (p : α × Nat),
    p ∈ idxPairs l n → n ≤ p.2 := by
  intro l
  induction l with
  | nil => intro n p hp; simp [idxPairs] at hp
  | cons x rest ih =>
    intro n p hp
    rcases List.mem_cons.mp hp with h | h
    · rw [h]
    · have := ih (n + 1) p h
      omega

/-- Counter values of a counter-indexed pair list are pairwise
distinct. -/
theorem idxPairs_snd_nodup {α : Type} : ∀ (l : List α) (n : Nat),
    ((idxPairs l n).map Prod.snd).Nodup := by
  intro l
  induction l with
  | nil => intro n; simp [idxPairs]
  | cons x rest ih =>
    intro n
    simp only [idxPairs, List.map_cons, List.nodup_cons]
    constructor
    · intro hmem
      rcases List.mem_map.mp hmem with ⟨p, hp, hp2⟩
      have := idxPairs_snd_bounds rest (n + 1) p hp
      omega
    · exact ih (n + 1)

/-- A pair in the Moore pair list consists of a Mealy state and one of
its incoming outputs. -/
theorem moorePairs_mem_fst (M : Mealy) (q o : String) (h : (q, o) ∈ moorePairs M) :
    q ∈ M.states ∧ o ∈ incoming M q := by
  rcases List.mem_flatten.mp h with ⟨inner, hin, hmem⟩
  rcases List.mem_map.mp hin with ⟨q', hq', rfl⟩
  rcases List.mem_map.mp hmem with ⟨o', ho', heq⟩
  simp only [Prod.mk.injEq] at heq
  rcases heq with ⟨h1, h2⟩
  subst h1
  subst h2
  exact ⟨hq', ho'⟩

/-- Every Mealy state / incoming output pair is registered. -/
theorem mem_moorePairs (M : Mealy) (q o : String) (hq : q ∈ M.states)
    (ho : o ∈ incoming M q) : (q, o) ∈ moorePairs M := by
  apply List.mem_flatten.mpr
  exact ⟨(incoming M q).map (fun o => (q, o)), List.mem_map_of_mem _ hq,
    List.mem_map_of_mem _ ho⟩

/-- The keys of the Moore mapping are the registered pairs. -/
theorem moore_mapping_keys (M : Mealy) :
    (moore_mapping M).map Prod.fst = moorePairs M :=
  idxPairs_map_fst _ _

/-- The Moore state names are pairwise distinct. -/
theorem moore_mapping_vals_nodup (M : Mealy) :
    ((moore_mapping M).map Prod.snd).Nodup :=
  idxPairs_snd_nodup _ _

/-- Every registered pair can be looked up in the Moore mapping. -/
theorem mapping_lookup_of_mem (M : Mealy) (p : String × String) (hp : p ∈ moorePairs M) :
    ∃ i, lookupA (moore_mapping M) p = some i := by
  have h : p ∈ (moore_mapping M).map Prod.fst := by
    rw [moore_mapping_keys]
    exact hp
  have h2 := (lookupA_isSome_iff_mem (moore_mapping M) p).mpr h
  cases hl : lookupA (moore_mapping M) p with
  | none => rw [hl] at h2; simp at h2
  | some i => exact ⟨i, rfl⟩

/-- Updating an incoming-output set preserves membership. -/
theorem mem_updIncoming (f : String → List String) (tgt out s o : String)
    (h : o ∈ f s) : o ∈ updIncoming f tgt out s := by
  unfold updIncoming
  by_cases hs : s = tgt
  · subst hs
    rw [if_pos rfl]
    by_cases ho : out ∈ f s
    · rw [if_pos ho]; exact h
    · rw [if_neg ho]; exact List.mem_append_left _ h
  · rw [if_neg hs]; exact h

/-- After updating, the added output is in the target's set. -/
theorem updIncoming_self (f : String → List String) (tgt out : String) :
    out ∈ updIncoming f tgt out tgt := by
  unfold updIncoming
  rw [if_pos rfl]
  by_cases ho : out ∈ f tgt
  · rw [if_pos ho]; exact ho
  · rw [if_neg ho]; exact List.mem_append_right _ (List.mem_cons_self _ _)

/-- The incoming-output scan only grows the sets. -/
theorem incoming_foldl_mono :
    ∀ (ts : List (String × String × String)) (f : String → List String) (s o : String),
      o ∈ f s → o ∈ ts.foldl (fun f t => updIncoming f t.2.1 t.2.2) f s := by
  intro ts
  induction ts with
  | nil => intro f s o h; exact h
  | cons t rest ih =>
    intro f s o h
    exact ih _ s o (mem_updIncoming f t.2.1 t.2.2 s o h)

/-- After the incoming-output scan, every scanned transition's output
is in its target's set. -/
theorem incoming_foldl_complete :
    ∀ (ts : List (String × String × String)) (f : String → List String)
      (src tgt out : String), (src, tgt, out) ∈ ts →
      out ∈ ts.foldl (fun f t => updIncoming f t.2.1 t.2.2) f tgt := by
  intro ts
  induction ts with
  | nil => intro f src tgt out h; simp at h
  | cons t rest ih =>
    intro f src tgt out h
    simp only [List.foldl_cons]
    rcases List.mem_cons.mp h with heq | hmem
    · rw [← heq]
      exact incoming_foldl_mono rest _ tgt out (updIncoming_self f tgt out)
    · exact ih _ src tgt out hmem

/-- Every transition's output is in its target state's incoming set
after the scan. -/
theorem incoming0_complete (M : Mealy) (q a : String) (hq : q ∈ M.states)
    (ha : a ∈ M.inputs) :
    (M.delta q a).2 ∈ incoming0 M (M.delta q a).1 := by
  apply incoming_foldl_complete (rawTriples M) _ q _ _
  apply List.mem_flatten.mpr
  refine ⟨M.states.map (fun s => (s, (M.delta s a).1, (M.delta s a).2)), ?_, ?_⟩
  · exact List.mem_map_of_mem _ ha
  · exact List.mem_map_of_mem _ hq

/-- The start-state seeding only grows the incoming sets. -/
theorem incoming_of_incoming0 (M : Mealy) (s o : String) (h : o ∈ incoming0 M s) :
    o ∈ incoming M s := by
  unfold incoming
  by_cases hc : incoming0 M (M.states.headD "") = []
  · rw [if_pos hc]
    exact mem_updIncoming _ _ _ s o h
  · rw [if_neg hc]; exact h

/-- Every transition's output is in its target state's final incoming
set. -/
theorem incoming_complete (M : Mealy) (q a : String) (hq : q ∈ M.states)
    (ha : a ∈ M.inputs) :
    (M.delta q a).2 ∈ incoming M (M.delta q a).1 :=
  incoming_of_incoming0 M _ _ (incoming0_complete M q a hq ha)

/-- The start state's incoming set is nonempty after seeding. -/
theorem incoming_start_ne_nil (M : Mealy) :
    incoming M (M.states.headD "") ≠ [] := by
  unfold incoming
  by_cases hc : incoming0 M (M.states.headD "") = []
  · rw [if_pos hc]
    unfold updIncoming
    rw [if_pos rfl, hc]
    simp
  · rw [if_neg hc]; exact hc

/-- The Moore start state is the mapping entry of the start state and
the head of its incoming set. -/
theorem start_moore_lookup (M : Mealy) (hne : M.states ≠ []) :
    lookupA (moore_mapping M)
      (M.states.headD "", (incoming M (M.states.headD "")).headD "")
      = some (start_moore M) := by
  have hpair : (M.states.headD "", (incoming M (M.states.headD "")).headD "")
      ∈ moorePairs M :=
    mem_moorePairs M _ _ (headD_mem _ _ hne) (headD_mem _ _ (incoming_start_ne_nil M))
  rcases mapping_lookup_of_mem M _ hpair with ⟨i, hi⟩
  rw [hi]
  unfold start_moore
  rw [hi]
  rfl

/-- The Moore start state is one of the registered state names. -/
theorem start_moore_mem (M : Mealy) (hne : M.states ≠ []) :
    start_moore M ∈ (moore_mapping M).map Prod.snd := by
  have h := start_moore_lookup M hne
  have hm := lookupA_mem_of_some _ _ _ h
  exact List.mem_map.mpr ⟨_, hm, rfl⟩

/-- The exported Moore state names are the mapping's counter values. -/
theorem moore_names_eq (M : Mealy) :
    (moore_states_all M).map Prod.fst = (moore_mapping M).map Prod.snd := by
  unfold moore_states_all
  rw [List.map_map]
  rfl

/-- Appending a transition to the unique row with a given key modifies
only that row. -/
theorem transAppend4_mid (pre post : List (Nat × List (String × Nat))) (i : Nat)
    (row : List (String × Nat)) (p : String × Nat)
    (hpre : ¬ i ∈ pre.map Prod.fst) (hpost : ¬ i ∈ post.map Prod.fst) :
    Lab4.transAppend4 (pre ++ (i, row) :: post) i p = pre ++ (i, row ++ [p]) :: post := by
  unfold Lab4.transAppend4
  rw [List.map_append, List.map_cons]
  rw [Lab4.map_transAppend4_no_key pre i p hpre,
    Lab4.map_transAppend4_no_key post i p hpost]
  simp

/-- Under target closure, every Mealy transition out of a registered
state leads to a registered pair. -/
theorem mapping_registered (M : Mealy)
    (hcl : ∀ q ∈ M.states, ∀ a ∈ M.inputs, (M.delta q a).1 ∈ M.states) :
    ∀ (q o : String) (i : Nat), ((q, o), i) ∈ moore_mapping M →
      ∀ a ∈ M.inputs, ∃ j, lookupA (moore_mapping M)
        ((M.delta q a).1, (M.delta q a).2) = some j := by
  intro q o i hent a ha
  have hqp : (q, o) ∈ moorePairs M := by
    have h := List.mem_map_of_mem Prod.fst hent
    rw [moore_mapping_keys] at h
    exact h
  have hq : q ∈ M.states := (moorePairs_mem_fst M q o hqp).1
  have hr : (M.delta q a).1 ∈ M.states := hcl q hq a ha
  have hy : (M.delta q a).2 ∈ incoming M (M.delta q a).1 := incoming_complete M q a hq ha
  exact mapping_lookup_of_mem M _ (mem_moorePairs M _ _ hr hy)

/-- Effect of the inner `for a in inputs` loop of the transition
builder on one pre-registered Moore state: it appends the transitions
of the underlying Mealy state, touching no other row. -/
theorem mmFold_inner (M : Mealy) (q o : String) (i C : Nat)
    (pre post : List (Nat × List (String × Nat)))
    (hpre : ¬ i ∈ pre.map Prod.fst) (hpost : ¬ i ∈ post.map Prod.fst) :
    ∀ (as : List String) (row : List (String × Nat)),
      (∀ a ∈ as, ∃ j, lookupA (moore_mapping M)
        ((M.delta q a).1, (M.delta q a).2) = some j) →
      as.foldl (mmStep M ((q, o), i))
        { map := moore_mapping M, ctr := C, trans := pre ++ (i, row) :: post } =
      { map := moore_mapping M, ctr := C,
        trans := pre ++ (i, row ++ as.map (fun a =>
          (a, mIdx M ((M.delta q a).1, (M.delta q a).2)))) :: post } := by
  intro as
  induction as with
  | nil =>
    intro row _
    simp
  | cons a rest ih =>
    intro row hreg
    rcases hreg a (List.mem_cons_self a rest) with ⟨j, hj⟩
    have hstep : mmStep M ((q, o), i)
        { map := moore_mapping M, ctr := C, trans := pre ++ (i, row) :: post } a =
        { map := moore_mapping M, ctr := C,
          trans := pre ++ (i, row ++
            [(a, mIdx M ((M.delta q a).1, (M.delta q a).2))]) :: post } := by
      simp only [mmStep, hj]
      rw [transAppend4_mid pre post i row _ hpre hpost]
      unfold mIdx
      rw [hj]
      rfl
    rw [List.foldl_cons, hstep]
    rw [ih (row ++ [(a, mIdx M ((M.delta q a).1, (M.delta q a).2))])
      (fun a' ha' => hreg a' (List.mem_cons_of_mem a ha'))]
    simp [List.append_assoc]

/-- Effect of the outer loop of the transition builder over a suffix of
the registered entries: rows of processed entries hold the full rows,
rows of pending entries stay empty. -/
theorem mmFold_outer (M : Mealy)
    (hreg : ∀ (q o : String) (i : Nat), ((q, o), i) ∈ moore_mapping M →
      ∀ a ∈ M.inputs, ∃ j, lookupA (moore_mapping M)
        ((M.delta q a).1, (M.delta q a).2) = some j)
    (C : Nat) :
    ∀ (es done : List ((String × String) × Nat)),
      moore_mapping M = done ++ es →
      es.foldl (fun st entry => M.inputs.foldl (mmStep M entry) st)
        { map := moore_mapping M, ctr := C,
          trans := done.map (fun e => (e.2, mmRow M e.1.1))
            ++ es.map (fun e => (e.2, ([] : List (String × Nat)))) } =
      { map := moore_mapping M, ctr := C,
        trans := (moore_mapping M).map (fun e => (e.2, mmRow M e.1.1)) } := by
  intro es
  induction es with
  | nil =>
    intro done hsplit
    simp only [List.foldl_nil, List.map_nil, List.append_nil]
    rw [hsplit]
    simp
  | cons e rest ih =>
    intro done hsplit
    obtain ⟨⟨q, o⟩, i⟩ := e
    have hvals := moore_mapping_vals_nodup M
    rw [hsplit, List.map_append, List.map_cons] at hvals
    have hnm1 : ¬ i ∈ done.map Prod.snd :=
      not_mem_left_of_nodup_append_cons _ _ _ hvals
    have hnm2 : ¬ i ∈ rest.map Prod.snd := by
      have h2 := (List.nodup_append.mp hvals).2.1
      exact (List.nodup_cons.mp h2).1
    have hpre : ¬ i ∈ (done.map (fun e => (e.2, mmRow M e.1.1))).map Prod.fst := by
      intro h
      rcases List.mem_map.mp h with ⟨y, hy, hyf⟩
      rcases List.mem_map.mp hy with ⟨z, hz, rfl⟩
      exact hnm1 (List.mem_map.mpr ⟨z, hz, hyf⟩)
    have hpost : ¬ i ∈ (rest.map
        (fun e => (e.2, ([] : List (String × Nat))))).map Prod.fst := by
      intro h
      rcases List.mem_map.mp h with ⟨y, hy, hyf⟩
      rcases List.mem_map.mp hy with ⟨z, hz, rfl⟩
      exact hnm2 (List.mem_map.mpr ⟨z, hz, hyf⟩)
    have he_mem : ((q, o), i) ∈ moore_mapping M := by
      rw [hsplit]
      exact List.mem_append_right _ (List.mem_cons_self _ _)
    simp only [List.foldl_cons, List.map_cons]
    rw [mmFold_inner M q o i C (done.map (fun e => (e.2, mmRow M e.1.1)))
      (rest.map (fun e => (e.2, ([] : List (String × Nat))))) hpre hpost
      M.inputs [] (hreg q o i he_mem)]
    have hsplit' : moore_mapping M = (done ++ [((q, o), i)]) ++ rest := by
      rw [hsplit]
      simp
    have hih := ih (done ++ [((q, o), i)]) hsplit'
    rw [List.map_append] at hih
    simp only [List.map_cons, List.map_nil, List.nil_append] at hih
    rw [← hih]
    simp [List.append_assoc, mmRow]

/-- The transition-building loop leaves the mapping and the counter
unchanged and produces the full row for every registered entry. -/
theorem mmLoop_spec (M : Mealy)
    (hreg : ∀ (q o : String) (i : Nat), ((q, o), i) ∈ moore_mapping M →
      ∀ a ∈ M.inputs, ∃ j, lookupA (moore_mapping M)
        ((M.delta q a).1, (M.delta q a).2) = some j) :
    mmLoop M = { map := moore_mapping M
                 ctr := (moore_mapping M).length
                 trans := (moore_mapping M).map (fun e => (e.2, mmRow M e.1.1)) } := by
  unfold mmLoop
  have h := mmFold_outer M hreg (moore_mapping M).length (moore_mapping M) [] (by simp)
  simpa using h

/-- Key list of the built transition table. -/
theorem mm_rows_fst (M : Mealy) :
    ((moore_mapping M).map (fun e => (e.2, mmRow M e.1.1))).map Prod.fst
      = (moore_mapping M).map Prod.snd := by
  rw [List.map_map]
  rfl

/-- Row lookup in the built transition table. -/
theorem mm_trans_lookup (M : Mealy)
    (hreg : ∀ (q o : String) (i : Nat), ((q, o), i) ∈ moore_mapping M →
      ∀ a ∈ M.inputs, ∃ j, lookupA (moore_mapping M)
        ((M.delta q a).1, (M.delta q a).2) = some j)
    (q o : String) (i : Nat) (hent : ((q, o), i) ∈ moore_mapping M) :
    lookupA (mmLoop M).trans i = some (mmRow M q) := by
  rw [mmLoop_spec M hreg]
  apply lookupA_of_nodup
  · rw [mm_rows_fst]
    exact moore_mapping_vals_nodup M
  · exact List.mem_map.mpr ⟨((q, o), i), hent, rfl⟩

/-- The built transition function on a registered state follows the
underlying Mealy transition. -/
theorem mmTr_step (M : Mealy)
    (hreg : ∀ (q o : String) (i : Nat), ((q, o), i) ∈ moore_mapping M →
      ∀ a ∈ M.inputs, ∃ j, lookupA (moore_mapping M)
        ((M.delta q a).1, (M.delta q a).2) = some j)
    (q o : String) (i : Nat) (hent : ((q, o), i) ∈ moore_mapping M)
    (a : String) (ha : a ∈ M.inputs) :
    mmTr (mmLoop M) i a = some (mIdx M ((M.delta q a).1, (M.delta q a).2)) := by
  unfold mmTr
  simp only [mm_trans_lookup M hreg q o i hent]
  unfold mmRow
  exact lookupA_map_self _ M.inputs a ha

/-- Targets of the built transition function are registered state
names. -/
theorem mmTr_univ (M : Mealy)
    (hreg : ∀ (q o : String) (i : Nat), ((q, o), i) ∈ moore_mapping M →
      ∀ a ∈ M.inputs, ∃ j, lookupA (moore_mapping M)
        ((M.delta q a).1, (M.delta q a).2) = some j) :
    ∀ (n : Nat) (a : String) (j : Nat), mmTr (mmLoop M) n a = some j →
      j ∈ (moore_mapping M).map Prod.snd := by
  intro n a j h
  unfold mmTr at h
  rw [mmLoop_spec M hreg] at h
  cases hrow : lookupA ((moore_mapping M).map (fun e => (e.2, mmRow M e.1.1))) n with
  | none =>
    simp only [hrow] at h
    exact Option.noConfusion h
  | some row =>
    simp only [hrow] at h
    have hmem := lookupA_mem_of_some _ _ _ hrow
    rcases List.mem_map.mp hmem with ⟨e, he, heq⟩
    have hrow_eq : row = mmRow M e.1.1 := by
      have h2 := congrArg Prod.snd heq
      simpa using h2.symm
    subst hrow_eq
    have hj := lookupA_mem_of_some _ _ _ h
    unfold mmRow at hj
    rcases List.mem_map.mp hj with ⟨a', ha', heq2⟩
    have hj_eq : j = mIdx M ((M.delta e.1.1 a').1, (M.delta e.1.1 a').2) := by
      have h3 := congrArg Prod.snd heq2
      simpa using h3.symm
    obtain ⟨⟨q, o⟩, i⟩ := e
    rcases hreg q o i he a' ha' with ⟨m, hm⟩
    rw [hj_eq]
    unfold mIdx
    rw [hm]
    have hmm := lookupA_mem_of_some _ _ _ hm
    exact List.mem_map.mpr ⟨_, hmm, rfl⟩

/-- Looking up a reachable Moore state's output in the pruned state
list. -/
theorem prunedMoore_states_lookup (M : Mealy) (R1 : List Nat) (r y : String) (j : Nat)
    (hent : ((r, y), j) ∈ moore_mapping M) (hj : j ∈ R1) :
    lookupA (prunedMoore M R1).states j = some y := by
  have hnd : ((moore_states_all M).map Prod.fst).Nodup := by
    rw [moore_names_eq]
    exact moore_mapping_vals_nodup M
  have hst : (prunedMoore M R1).states
      = (moore_states_all M).filter (fun p => decide (p.1 ∈ R1)) := rfl
  apply lookupA_of_nodup
  · rw [hst]
    have hsub : List.Sublist
        (((moore_states_all M).filter (fun p => decide (p.1 ∈ R1))).map Prod.fst)
        ((moore_states_all M).map Prod.fst) := (List.filter_sublist _).map _
    exact hnd.sublist hsub
  · rw [hst]
    apply List.mem_filter.mpr
    exact ⟨List.mem_map.mpr ⟨((r, y), j), hent, rfl⟩, by simpa using hj⟩

/-- A registered reachable state name appears in the pruned name
list. -/
theorem prunedMoore_names_mem (M : Mealy) (R1 : List Nat) (q o : String) (i : Nat)
    (hent : ((q, o), i) ∈ moore_mapping M) (hiR1 : i ∈ R1) :
    i ∈ (prunedMoore M R1).states.map Prod.fst := by
  apply List.mem_map.mpr
  refine ⟨(i, o), ?_, rfl⟩
  apply List.mem_filter.mpr
  exact ⟨List.mem_map.mpr ⟨((q, o), i), hent, rfl⟩, by simpa using hiR1⟩

/-- A pruned name is reachable and registered. -/
theorem prunedMoore_names_sub (M : Mealy) (R1 : List Nat) (i : Nat)
    (h : i ∈ (prunedMoore M R1).states.map Prod.fst) :
    i ∈ R1 ∧ ∃ q o, ((q, o), i) ∈ moore_mapping M := by
  rcases List.mem_map.mp h with ⟨p, hp, rfl⟩
  rcases List.mem_filter.mp hp with ⟨hall, hdec⟩
  constructor
  · simpa using hdec
  · rcases List.mem_map.mp hall with ⟨e, he, heq⟩
    refine ⟨e.1.1, e.1.2, ?_⟩
    have h1 : e.2 = p.1 := by rw [← heq]
    rw [← h1]
    exact he

/-- `convert_mealy_to_moore` succeeds on a closed nonempty machine and
returns the pruned automaton of a reachable-state list with the listed
properties. -/
theorem convert_m2m_spec (M : Mealy) (hne : M.states ≠ [])
    (hcl : ∀ q ∈ M.states, ∀ a ∈ M.inputs, (M.delta q a).1 ∈ M.states) :
    ∃ R1, convert_mealy_to_moore M = some (prunedMoore M R1) ∧
      start_moore M ∈ R1 ∧
      (∀ s ∈ R1, s ∈ (moore_mapping M).map Prod.snd) ∧
      (∀ s ∈ R1, ∀ a ∈ M.inputs, ∀ n, mmTr (mmLoop M) s a = some n → n ∈ R1) := by
  have hreg := mapping_registered M hcl
  have huniv := mmTr_univ M hreg
  have hstart := start_moore_mem M hne
  have hq0 : ∀ s ∈ ([start_moore M] : List Nat), s ∈ (moore_mapping M).map Prod.snd := by
    intro s hs
    rcases List.mem_cons.mp hs with rfl | h
    · exact hstart
    · exact absurd h (List.not_mem_nil s)
  have hbound : ([start_moore M] : List Nat).length +
      (((moore_mapping M).map Prod.snd).filter
        (fun u => decide (¬ u ∈ ([] : List Nat)))).length * (1 + M.inputs.length)
      ≤ 1 + ((moore_states_all M).map Prod.fst).length * (1 + M.inputs.length) := by
    have hfilter : ((moore_mapping M).map Prod.snd).filter
        (fun u => decide (¬ u ∈ ([] : List Nat))) = (moore_mapping M).map Prod.snd :=
      List.filter_eq_self.mpr (fun a _ => by simp)
    rw [hfilter, moore_names_eq]
    simp
  obtain ⟨R1, hR1⟩ := ruLoop_sound M.inputs (mmTr (mmLoop M))
    ((moore_mapping M).map Prod.snd) huniv
    (1 + ((moore_states_all M).map Prod.fst).length * (1 + M.inputs.length))
    [start_moore M] [] hq0 hbound
  have hmem := ruLoop_mem M.inputs (mmTr (mmLoop M)) _ _ _ _ hR1
  have hclosed := ruLoop_closed M.inputs (mmTr (mmLoop M)) _ _ _ _
    (fun s hs => absurd hs (List.not_mem_nil s)) hR1
  have hsub := ruLoop_subset M.inputs (mmTr (mmLoop M)) ((moore_mapping M).map Prod.snd)
    huniv _ _ _ _ hq0 (fun s hs => absurd hs (List.not_mem_nil s)) hR1
  refine ⟨R1, ?_, hmem.2 _ (List.mem_cons_self _ _), hsub, hclosed⟩
  unfold convert_mealy_to_moore
  simp only [hR1]
  rfl

/-- The pruned Moore transition function on a reachable registered
state follows the underlying Mealy transition. -/
theorem prunedMoore_moTr (M : Mealy) (R1 : List Nat)
    (hcl : ∀ q ∈ M.states, ∀ a ∈ M.inputs, (M.delta q a).1 ∈ M.states)
    (q o : String) (i : Nat) (hent : ((q, o), i) ∈ moore_mapping M)
    (hiR1 : i ∈ R1) (a : String) (ha : a ∈ M.inputs) :
    moTr (prunedMoore M R1) i a
      = some (mIdx M ((M.delta q a).1, (M.delta q a).2)) := by
  have hreg := mapping_registered M hcl
  have htr : (prunedMoore M R1).trans
      = R1.map (fun s => (s, lookupD (mmLoop M).trans s)) := rfl
  unfold moTr
  rw [htr]
  simp only [lookupA_map_self (fun s => lookupD (mmLoop M).trans s) R1 i hiR1]
  have hD : lookupD (mmLoop M).trans i = mmRow M q := by
    unfold lookupD
    rw [mm_trans_lookup M hreg q o i hent]
    rfl
  rw [hD]
  unfold mmRow
  exact lookupA_map_self _ M.inputs a ha

/-- The Mealy row of a reachable registered pruned-Moore state carries
the Mealy transition's target index and output. -/
theorem prunedMoore_mealyRow (M : Mealy) (R1 : List Nat)
    (hcl : ∀ q ∈ M.states, ∀ a ∈ M.inputs, (M.delta q a).1 ∈ M.states)
    (hclR1 : ∀ s ∈ R1, ∀ a ∈ M.inputs, ∀ n, mmTr (mmLoop M) s a = some n → n ∈ R1)
    (q o : String) (i : Nat) (hent : ((q, o), i) ∈ moore_mapping M)
    (hiR1 : i ∈ R1) (a : String) (ha : a ∈ M.inputs) :
    ∃ j, (((M.delta q a).1, (M.delta q a).2), j) ∈ moore_mapping M ∧ j ∈ R1 ∧
      moTr (prunedMoore M R1) i a = some j ∧
      lookupA (mealyRow (prunedMoore M R1) i) a = some (j, (M.delta q a).2) := by
  have hreg := mapping_registered M hcl
  rcases hreg q o i hent a ha with ⟨j, hj⟩
  have hmIdx : mIdx M ((M.delta q a).1, (M.delta q a).2) = j := by
    unfold mIdx
    rw [hj]
    rfl
  have hentj : (((M.delta q a).1, (M.delta q a).2), j) ∈ moore_mapping M :=
    lookupA_mem_of_some _ _ _ hj
  have hjR1 : j ∈ R1 := by
    apply hclR1 i hiR1 a ha j
    rw [mmTr_step M hreg q o i hent a ha, hmIdx]
  have hout : lookupA (prunedMoore M R1).states j = some (M.delta q a).2 :=
    prunedMoore_states_lookup M R1 _ _ j hentj hjR1
  have hmo : moTr (prunedMoore M R1) i a = some j := by
    rw [prunedMoore_moTr M R1 hcl q o i hent hiR1 a ha, hmIdx]
  refine ⟨j, hentj, hjR1, hmo, ?_⟩
  have hg : ∀ x p, (fun a' =>
      match moTr (prunedMoore M R1) i a' with
      | none => none
      | some t => some (a', (t, (lookupA (prunedMoore M R1).states t).getD "")))
        x = some p → p.1 = x := by
    intro x p hx
    cases hmx : moTr (prunedMoore M R1) i x with
    | none =>
      simp only [hmx] at hx
      exact Option.noConfusion hx
    | some t =>
      simp only [hmx, Option.some.injEq] at hx
      rw [← hx]
  have happ := lookupA_filterMap_self
    (fun a' => match moTr (prunedMoore M R1) i a' with
      | none => none
      | some t => some (a', (t, (lookupA (prunedMoore M R1).states t).getD "")))
    hg M.inputs a (a, (j, (M.delta q a).2)) ha ?_
  · exact happ
  · simp only [hmo, hout]
    rfl

/-- The `transitions_without_output` function of a pruned-name state. -/
theorem prunedMoore_mlTr (M : Mealy) (R1 : List Nat) (i : Nat) (a : String)
    (hi : i ∈ (prunedMoore M R1).states.map Prod.fst) :
    mlTr (prunedMoore M R1) i a =
      match lookupA (mealyRow (prunedMoore M R1) i) a with
      | none => none
      | some td => some td.1 := by
  unfold mlTr mealyTransAll
  simp only [lookupA_map_key Prod.fst (mealyRow (prunedMoore M R1))
    (prunedMoore M R1).states i hi]

/-- Targets of `transitions_without_output` stay among the pruned
names. -/
theorem prunedMoore_mlTr_univ (M : Mealy) (R1 : List Nat)
    (hcl : ∀ q ∈ M.states, ∀ a ∈ M.inputs, (M.delta q a).1 ∈ M.states)
    (hclR1 : ∀ s ∈ R1, ∀ a ∈ M.inputs, ∀ n, mmTr (mmLoop M) s a = some n → n ∈ R1) :
    ∀ (s : Nat) (a : String) (n : Nat), mlTr (prunedMoore M R1) s a = some n →
      n ∈ (prunedMoore M R1).states.map Prod.fst := by
  intro s a n h
  unfold mlTr at h
  cases hrow : lookupA (mealyTransAll (prunedMoore M R1)) s with
  | none =>
    simp only [hrow] at h
    exact Option.noConfusion h
  | some row =>
    simp only [hrow] at h
    cases htd : lookupA row a with
    | none =>
      simp only [htd] at h
      exact Option.noConfusion h
    | some td =>
      simp only [htd, Option.some.injEq] at h
      have hmem := lookupA_mem_of_some _ _ _ hrow
      unfold mealyTransAll at hmem
      rcases List.mem_map.mp hmem with ⟨p, hp, heq⟩
      have hrow_eq : row = mealyRow (prunedMoore M R1) p.1 :=
        (congrArg Prod.snd heq).symm
      subst hrow_eq
      have htd_mem := lookupA_mem_of_some _ _ _ htd
      unfold mealyRow at htd_mem
      rcases List.mem_filterMap.mp htd_mem with ⟨a', ha', hga⟩
      cases hmo : moTr (prunedMoore M R1) p.1 a' with
      | none =>
        simp only [hmo] at hga
        exact Option.noConfusion hga
      | some t =>
        simp only [hmo, Option.some.injEq] at hga
        have htd1 : t = td.1 := by
          have h2 := congrArg (fun x => x.2.1) hga
          simpa using h2
        have hnames : p.1 ∈ (prunedMoore M R1).states.map Prod.fst :=
          List.mem_map.mpr ⟨p, hp, rfl⟩
        rcases prunedMoore_names_sub M R1 p.1 hnames with ⟨hpR1, q', o', hent'⟩
        have ha'2 : a' ∈ M.inputs := ha'
        have hmo2 := prunedMoore_moTr M R1 hcl q' o' p.1 hent' hpR1 a' ha'2
        have ht_eq : t = mIdx M ((M.delta q' a').1, (M.delta q' a').2) := by
          rw [hmo] at hmo2
          exact (Option.some.injEq _ _).mp hmo2
        have hreg := mapping_registered M hcl
        rcases hreg q' o' p.1 hent' a' ha'2 with ⟨j, hj⟩
        have hmIdx : mIdx M ((M.delta q' a').1, (M.delta q' a').2) = j := by
          unfold mIdx
          rw [hj]
          rfl
        have hentj := lookupA_mem_of_some _ _ _ hj
        have hjR1 : j ∈ R1 := by
          apply hclR1 p.1 hpR1 a' ha'2 j
          rw [mmTr_step M hreg q' o' p.1 hent' a' ha'2, hmIdx]
        have hn : n = j := by
          rw [← h, ← htd1, ht_eq, hmIdx]
        rw [hn]
        exact prunedMoore_names_mem M R1 _ _ j hentj hjR1

/-- `convert_moore_to_mealy` succeeds on the pruned Moore automaton and
returns the doubly pruned Mealy machine of a reachable-state list with
the listed properties. -/
theorem convert_m2mealy_spec (M : Mealy) (R1 : List Nat)
    (hcl : ∀ q ∈ M.states, ∀ a ∈ M.inputs, (M.delta q a).1 ∈ M.states)
    (hclR1 : ∀ s ∈ R1, ∀ a ∈ M.inputs, ∀ n, mmTr (mmLoop M) s a = some n → n ∈ R1)
    (hstart_names : (prunedMoore M R1).start
      ∈ (prunedMoore M R1).states.map Prod.fst) :
    ∃ R2 : List Nat, convert_moore_to_mealy (prunedMoore M R1) = some
        { states := ((prunedMoore M R1).states.map Prod.fst).filter
            (fun st => decide (st ∈ R2))
          inputs := (prunedMoore M R1).inputs
          trans := (((prunedMoore M R1).states.map Prod.fst).filter
            (fun st => decide (st ∈ R2))).map
            (fun st => (st, mealyRow (prunedMoore M R1) st))
          start := (prunedMoore M R1).start } ∧
      (prunedMoore M R1).start ∈ R2 ∧
      (∀ s ∈ R2, s ∈ (prunedMoore M R1).states.map Prod.fst) ∧
      (∀ s ∈ R2, ∀ a ∈ (prunedMoore M R1).inputs, ∀ n,
        mlTr (prunedMoore M R1) s a = some n → n ∈ R2) := by
  have huniv := prunedMoore_mlTr_univ M R1 hcl hclR1
  have hq0 : ∀ s ∈ ([(prunedMoore M R1).start] : List Nat),
      s ∈ (prunedMoore M R1).states.map Prod.fst := by
    intro s hs
    rcases List.mem_cons.mp hs with rfl | h
    · exact hstart_names
    · exact absurd h (List.not_mem_nil s)
  have hbound : ([(prunedMoore M R1).start] : List Nat).length +
      (((prunedMoore M R1).states.map Prod.fst).filter
        (fun u => decide (¬ u ∈ ([] : List Nat)))).length
        * (1 + (prunedMoore M R1).inputs.length)
      ≤ 1 + ((prunedMoore M R1).states.map Prod.fst).length
        * (1 + (prunedMoore M R1).inputs.length) := by
    have hfilter : ((prunedMoore M R1).states.map Prod.fst).filter
        (fun u => decide (¬ u ∈ ([] : List Nat)))
        = (prunedMoore M R1).states.map Prod.fst :=
      List.filter_eq_self.mpr (fun a _ => by simp)
    rw [hfilter]
    simp
  obtain ⟨R2, hR2⟩ := ruLoop_sound (prunedMoore M R1).inputs (mlTr (prunedMoore M R1))
    ((prunedMoore M R1).states.map Prod.fst) huniv
    (1 + ((prunedMoore M R1).states.map Prod.fst).length
      * (1 + (prunedMoore M R1).inputs.length))
    [(prunedMoore M R1).start] [] hq0 hbound
  have hmem := ruLoop_mem (prunedMoore M R1).inputs (mlTr (prunedMoore M R1)) _ _ _ _ hR2
  have hclosed := ruLoop_closed (prunedMoore M R1).inputs (mlTr (prunedMoore M R1))
    _ _ _ _ (fun s hs => absurd hs (List.not_mem_nil s)) hR2
  have hsub := ruLoop_subset (prunedMoore M R1).inputs (mlTr (prunedMoore M R1))
    ((prunedMoore M R1).states.map Prod.fst) huniv _ _ _ _ hq0
    (fun s hs => absurd hs (List.not_mem_nil s)) hR2
  refine ⟨R2, ?_, hmem.2 _ (List.mem_cons_self _ _), hsub, hclosed⟩
  unfold convert_moore_to_mealy
  simp only [hR2]

/-- The doubly pruned round-trip Mealy machine simulates the original
Mealy machine from any registered state reachable in both pruning
passes. -/
theorem roundTrip_sim (M : Mealy) (R1 R2 : List Nat)
    (hcl : ∀ q ∈ M.states, ∀ a ∈ M.inputs, (M.delta q a).1 ∈ M.states)
    (hclR1 : ∀ s ∈ R1, ∀ a ∈ M.inputs, ∀ n, mmTr (mmLoop M) s a = some n → n ∈ R1)
    (hsub2 : ∀ s ∈ R2, s ∈ (prunedMoore M R1).states.map Prod.fst)
    (hcl2 : ∀ s ∈ R2, ∀ a ∈ (prunedMoore M R1).inputs, ∀ n,
      mlTr (prunedMoore M R1) s a = some n → n ∈ R2) :
    ∀ (w : List String), (∀ a ∈ w, a ∈ M.inputs) →
      ∀ (q o : String) (i : Nat), ((q, o), i) ∈ moore_mapping M → i ∈ R2 →
      runMealyR ((((prunedMoore M R1).states.map Prod.fst).filter
          (fun st => decide (st ∈ R2))).map
          (fun st => (st, mealyRow (prunedMoore M R1) st))) i w
        = some (runMealyF M q w) := by
  intro w
  induction w with
  | nil => intro _ q o i _ _; rfl
  | cons a rest ih =>
    intro hw q o i hent hiR2
    have ha : a ∈ M.inputs := hw a (List.mem_cons_self a rest)
    have hinames : i ∈ (prunedMoore M R1).states.map Prod.fst := hsub2 i hiR2
    have hiR1 : i ∈ R1 := (prunedMoore_names_sub M R1 i hinames).1
    have hfilter_mem : i ∈ ((prunedMoore M R1).states.map Prod.fst).filter
        (fun st => decide (st ∈ R2)) :=
      List.mem_filter.mpr ⟨hinames, by simpa using hiR2⟩
    have hrowRT := lookupA_map_self (fun st => mealyRow (prunedMoore M R1) st)
      (((prunedMoore M R1).states.map Prod.fst).filter (fun st => decide (st ∈ R2)))
      i hfilter_mem
    rcases prunedMoore_mealyRow M R1 hcl hclR1 q o i hent hiR1 a ha with
      ⟨j, hentj, hjR1, hmo, hrow_a⟩
    have hml : mlTr (prunedMoore M R1) i a = some j := by
      rw [prunedMoore_mlTr M R1 i a hinames]
      simp only [hrow_a]
    have hjR2 : j ∈ R2 := hcl2 i hiR2 a ha j hml
    have hih := ih (fun x hx => hw x (List.mem_cons_of_mem a hx))
      (M.delta q a).1 (M.delta q a).2 j hentj hjR2
    simp only [runMealyR, hrowRT, hrow_a, hih]
    rfl

end Lab1

/-! ## Claims -/

/-- C1 counterexample: the automaton produced by the FULL pipeline of
src/lab5.py — including `merge_final_states` — REJECTS `"ab"` (and
`"bba"`): the merged final state `H` has no outgoing transitions, so no
string that extends an accepted prefix can be followed.  The pipeline
does complete (the `Option` is `some`), so this is the genuine value the
Python code computes. -/
theorem c1_counterexample :
    (Lab5.compileDFA "(a|b)+" 100 100).isSome = true ∧
    Lab5.mergedAccepts "(a|b)+" 100 100 "ab" = false ∧
    Lab5.mergedAccepts "(a|b)+" 100 100 "bba" = false := by
  refine ⟨by decide, by decide, by decide⟩

/-- C1 (amended): for the regex `(a|b)+`, the determinized automaton
produced by tokenize → insert-concat → postfix → Thompson → subset
construction (BEFORE merging of final states) accepts `"a"`, `"ab"` and
`"bba"` and rejects `""`; after `merge_final_states` the automaton
accepts `"a"` and still rejects `""`, but no longer accepts `"ab"` or
`"bba"` because the merged final state has no outgoing transitions. -/
theorem c1_regex_pipeline :
    Lab5.dfaAccepts "(a|b)+" 100 100 "a" = true ∧
    Lab5.dfaAccepts "(a|b)+" 100 100 "ab" = true ∧
    Lab5.dfaAccepts "(a|b)+" 100 100 "bba" = true ∧
    Lab5.dfaAccepts "(a|b)+" 100 100 "" = false ∧
    Lab5.mergedAccepts "(a|b)+" 100 100 "a" = true ∧
    Lab5.mergedAccepts "(a|b)+" 100 100 "" = false := by
  refine ⟨by decide, by decide, by decide, by decide, by decide, by decide⟩

/-- C7 counterexample: on the unbalanced-parenthesis input `"("` the
compiler of src/lab5.py raises no error of any kind and silently returns
an automaton (the stray parenthesis is treated as a literal), whereas
the claim demands a `SyntaxError` exactly in this situation. -/
theorem c7_counterexample :
    (Lab5.build_nfa (Lab5.toPostfix (Lab5.insert_concat (Lab5.tokenize "(".toList))) 0).isOk
      = true := by decide

/-- C7 (amended): the regex compiler of src/lab5.py never raises a
`SyntaxError`.  An operator with a missing operand underflows the
fragment stack and raises `IndexError` (inputs `"*"`, `"a|"`); a postfix
sequence leaving the stack non-singleton raises the generic
`Exception` (input `""`); a character outside the operator set (`"?"`)
is accepted as a literal, and unbalanced parentheses (`"("`) are
silently tolerated — both return an automaton with no error. -/
theorem c7_build_errors :
    (Lab5.build_nfa (Lab5.toPostfix (Lab5.insert_concat (Lab5.tokenize "(".toList))) 0).isOk
      = true ∧
    (Lab5.build_nfa (Lab5.toPostfix (Lab5.insert_concat (Lab5.tokenize "?".toList))) 0).isOk
      = true ∧
    Lab5.buildErrOf (Lab5.build_nfa (Lab5.toPostfix (Lab5.insert_concat
      (Lab5.tokenize "*".toList))) 0) = some .indexError ∧
    Lab5.buildErrOf (Lab5.build_nfa (Lab5.toPostfix (Lab5.insert_concat
      (Lab5.tokenize "a|".toList))) 0) = some .indexError ∧
    Lab5.buildErrOf (Lab5.build_nfa (Lab5.toPostfix (Lab5.insert_concat
      (Lab5.tokenize "".toList))) 0) = some .exception := by
  refine ⟨by decide, by decide, by decide, by decide, by decide⟩

/-- C10: when the DFA has at least one final state, `merge_final_states`
returns an order in which all final states are dropped and the single
state `H` is appended last; `H` has no outgoing transitions; transitions
of final sources are discarded; every remaining transition into a final
state is redirected to `H`; consequently a run that has reached `H`
cannot be extended by any further symbol. -/
theorem c10_merge_final_states (dfaT : List (Nat × List (Char × Nat))) (order : List Nat)
    (finals : List Nat) (hf : finals ≠ []) :
    (Lab5.merge_final_states dfaT order finals).2
        = (order.filter (fun s => decide (¬ s ∈ finals))).map Lab5.MSt.st ++ [Lab5.MSt.H]
    ∧ lookupA (Lab5.merge_final_states dfaT order finals).1 Lab5.MSt.H = some []
    ∧ (∀ n, n ∈ finals →
        lookupA (Lab5.merge_final_states dfaT order finals).1 (Lab5.MSt.st n) = none)
    ∧ (∀ n, ¬ n ∈ finals →
        lookupA (Lab5.merge_final_states dfaT order finals).1 (Lab5.MSt.st n)
          = (lookupA dfaT n).map (fun inner =>
              inner.map (fun p => (p.1, if p.2 ∈ finals then Lab5.MSt.H else Lab5.MSt.st p.2))))
    ∧ (∀ (s0 : Lab5.MSt) (w : List Char) (a : Char),
        Lab5.runMerged (Lab5.merge_final_states dfaT order finals).1 s0 w = some Lab5.MSt.H →
        Lab5.runMerged (Lab5.merge_final_states dfaT order finals).1 s0 (w ++ [a]) = none) := by
  have hbody :
      (Lab5.merge_final_states dfaT order finals).1
        = (dfaT.filter (fun e => decide (¬ e.1 ∈ finals))).map
            (fun e => (Lab5.MSt.st e.1,
              e.2.map (fun p => (p.1, if p.2 ∈ finals then Lab5.MSt.H else Lab5.MSt.st p.2))))
          ++ [(Lab5.MSt.H, [])] := by
    simp [Lab5.merge_final_states, hf]
  have hH : lookupA (Lab5.merge_final_states dfaT order finals).1 Lab5.MSt.H = some [] := by
    rw [hbody, lookupA_append_right _ _ _ (Lab5.lookupA_mergeBody_H dfaT finals)]
    rfl
  refine ⟨by simp [Lab5.merge_final_states, hf], hH, ?_, ?_, ?_⟩
  · intro n hn
    rw [hbody, lookupA_append_right _ _ _ (Lab5.lookupA_mergeBody_final dfaT finals n hn)]
    rfl
  · intro n hn
    rw [hbody]
    cases hd : lookupA dfaT n with
    | none =>
      have h0 := Lab5.lookupA_mergeBody_nonfinal dfaT finals n hn
      rw [hd] at h0
      rw [lookupA_append_right _ _ _ h0]
      rfl
    | some inner =>
      have h0 := Lab5.lookupA_mergeBody_nonfinal dfaT finals n hn
      rw [hd] at h0
      rw [lookupA_append_left _ _ _ _ h0]
      rfl
  · intro s0 w a hw
    rw [Lab5.runMerged_append, hw]
    show Lab5.runMerged (Lab5.merge_final_states dfaT order finals).1 Lab5.MSt.H [a] = none
    simp [Lab5.runMerged, hH, lookupA]

/-- C10 witness: a concrete one-final-state DFA discharging the
hypothesis of `c10_merge_final_states`. -/
theorem c10_merge_final_states_witness :
    ([1] ≠ ([] : List Nat)) ∧
    ((Lab5.merge_final_states [(0, [('a', 1)]), (1, [])] [0, 1] [1]).2
        = ([0, 1].filter (fun s => decide (¬ s ∈ [1]))).map Lab5.MSt.st ++ [Lab5.MSt.H]
    ∧ lookupA (Lab5.merge_final_states [(0, [('a', 1)]), (1, [])] [0, 1] [1]).1 Lab5.MSt.H
        = some []
    ∧ (∀ n, n ∈ [1] →
        lookupA (Lab5.merge_final_states [(0, [('a', 1)]), (1, [])] [0, 1] [1]).1
          (Lab5.MSt.st n) = none)
    ∧ (∀ n, ¬ n ∈ [1] →
        lookupA (Lab5.merge_final_states [(0, [('a', 1)]), (1, [])] [0, 1] [1]).1
            (Lab5.MSt.st n)
          = (lookupA [(0, [('a', 1)]), (1, [])] n).map (fun inner =>
              inner.map (fun p =>
                (p.1, if p.2 ∈ [1] then Lab5.MSt.H else Lab5.MSt.st p.2))))
    ∧ (∀ (s0 : Lab5.MSt) (w : List Char) (a : Char),
        Lab5.runMerged (Lab5.merge_final_states [(0, [('a', 1)]), (1, [])] [0, 1] [1]).1 s0 w
            = some Lab5.MSt.H →
        Lab5.runMerged (Lab5.merge_final_states [(0, [('a', 1)]), (1, [])] [0, 1] [1]).1 s0
            (w ++ [a]) = none)) :=
  ⟨by decide, c10_merge_final_states [(0, [('a', 1)]), (1, [])] [0, 1] [1] (by decide)⟩

/-- C5: for every NFA input on which the worklist completes, the DFA
produced by subset construction (`subset_construction` of src/lab5.py
and `nfa_to_dfa` of src/lab4pc.py) is deterministic — emitted rows have
pairwise-distinct state labels and duplicate-free per-row symbols — and
records no transition for a (state, symbol) pair whose ε-closed union of
moves is empty: there is no explicit reject/sink state. -/
theorem c5_subset_determinism_no_sink :
    (∀ (tr : Lab5.Trans) (cfuel lfuel s a c : Nat) (st : Lab5.SCSt),
      Lab5.subset_construction tr cfuel lfuel s a c = some st →
      (st.trans.map Prod.fst).Nodup ∧
      ∀ e ∈ st.trans,
        (e.2.map Prod.fst).Nodup ∧
        (∀ p ∈ e.2, p.1 ∈ Lab5.sortSyms (Lab5.collectAlph tr)) ∧
        ∃ S, (S, e.1) ∈ st.map ∧
          ∀ sym ∈ Lab5.sortSyms (Lab5.collectAlph tr),
            (lookupA e.2 sym = none ↔ Lab5.nxtFor tr cfuel S sym = some [])) ∧
    (∀ (tr : String → String → List String) (cfuel lfuel : Nat)
      (terminals : List String) (start_state : String) (st : Lab4.DSt),
      terminals.Nodup →
      Lab4.nfa_to_dfa tr cfuel lfuel terminals start_state = some st →
      (st.trans.map Prod.fst).Nodup ∧
      ∀ e ∈ st.trans,
        (e.2.map Prod.fst).Nodup ∧
        (∀ p ∈ e.2, p.1 ∈ terminals.filter (fun t => decide (t ≠ Lab4.EPSILON))) ∧
        ∃ S, (S, e.1) ∈ st.map ∧
          ∀ sym ∈ terminals.filter (fun t => decide (t ≠ Lab4.EPSILON)),
            (lookupA e.2 sym = none ↔ Lab4.nxtFor4 tr cfuel S sym = some [])) :=
  ⟨fun tr cfuel lfuel s a c st h =>
    Lab5.subset_construction_props tr cfuel lfuel s a c st h,
   fun tr cfuel lfuel terminals start_state st hn h =>
    Lab4.nfa_to_dfa_props tr cfuel lfuel terminals start_state st hn h⟩

/-- C5 witness: both subset constructions run to completion on a
one-transition NFA and the resulting tables satisfy the determinism and
no-sink properties. -/
theorem c5_subset_determinism_witness :
    (Lab5.subset_construction [(0, [('a', 1)])] 10 10 0 1 2
      = some ⟨[([0], 2), ([1], 3)], [3], [(2, [('a', 3)]), (3, [])], [2, 3], [], 4⟩) ∧
    (["a"] : List String).Nodup ∧
    (Lab4.nfa_to_dfa (fun s a => if s = "q0" ∧ a = "a" then ["q1"] else []) 10 10 ["a"] "q0"
      = some ⟨[(["q0"], 0), (["q1"], 1)], [(0, [("a", 1)]), (1, [])], [], 2⟩) ∧
    (((Lab5.SCSt.mk [([0], 2), ([1], 3)] [3] [(2, [('a', 3)]), (3, [])] [2, 3] [] 4).trans.map
        Prod.fst).Nodup ∧
      ∀ e ∈ (Lab5.SCSt.mk [([0], 2), ([1], 3)] [3] [(2, [('a', 3)]), (3, [])] [2, 3] [] 4).trans,
        (e.2.map Prod.fst).Nodup ∧
        (∀ p ∈ e.2, p.1 ∈ Lab5.sortSyms (Lab5.collectAlph [(0, [('a', 1)])])) ∧
        ∃ S, (S, e.1) ∈ (Lab5.SCSt.mk [([0], 2), ([1], 3)] [3] [(2, [('a', 3)]), (3, [])]
            [2, 3] [] 4).map ∧
          ∀ sym ∈ Lab5.sortSyms (Lab5.collectAlph [(0, [('a', 1)])]),
            (lookupA e.2 sym = none ↔ Lab5.nxtFor [(0, [('a', 1)])] 10 S sym = some [])) ∧
    (((Lab4.DSt.mk [(["q0"], 0), (["q1"], 1)] [(0, [("a", 1)]), (1, [])] [] 2).trans.map
        Prod.fst).Nodup ∧
      ∀ e ∈ (Lab4.DSt.mk [(["q0"], 0), (["q1"], 1)] [(0, [("a", 1)]), (1, [])] [] 2).trans,
        (e.2.map Prod.fst).Nodup ∧
        (∀ p ∈ e.2, p.1 ∈ (["a"] : List String).filter (fun t => decide (t ≠ Lab4.EPSILON))) ∧
        ∃ S, (S, e.1) ∈ (Lab4.DSt.mk [(["q0"], 0), (["q1"], 1)]
            [(0, [("a", 1)]), (1, [])] [] 2).map ∧
          ∀ sym ∈ (["a"] : List String).filter (fun t => decide (t ≠ Lab4.EPSILON)),
            (lookupA e.2 sym = none ↔
              Lab4.nxtFor4 (fun s a => if s = "q0" ∧ a = "a" then ["q1"] else []) 10 S sym
                = some [])) :=
  ⟨by decide, by decide, by decide,
   c5_subset_determinism_no_sink.1 [(0, [('a', 1)])] 10 10 0 1 2
     ⟨[([0], 2), ([1], 3)], [3], [(2, [('a', 3)]), (3, [])], [2, 3], [], 4⟩ (by decide),
   c5_subset_determinism_no_sink.2 (fun s a => if s = "q0" ∧ a = "a" then ["q1"] else [])
     10 10 ["a"] "q0" ⟨[(["q0"], 0), (["q1"], 1)], [(0, [("a", 1)]), (1, [])], [] , 2⟩
     (by decide) (by decide)⟩

/-- C3 counterexample: `minimize_moore` of src/lab2.py performs no
unreachable-state pruning.  On a two-state automaton whose second state
is unreachable from the first (the start state), the minimized
automaton keeps both blocks: state 1 lies outside the set {0}, which
contains the start block 0 and is closed under the quotient
transitions, so state 1 is unreachable from the start state yet
survives minimization. -/
theorem c3_counterexample :
    (Lab2.minimize_moore ["q0", "q1"] (fun s => if s = "q0" then "y0" else "y1")
        (fun s => if s = "q0" then ["q0"] else ["q1"]) ["a"]
      = some ⟨[0, 1], [(0, "y0"), (1, "y1")], [(0, [0]), (1, [1])], [["q0"], ["q1"]]⟩) ∧
    Lab2.reachClosed [(0, [0]), (1, [1])] [0] ∧
    (0 : Nat) ∈ ([0] : List Nat) ∧
    (1 : Nat) ∈ ([0, 1] : List Nat) ∧
    ¬ (1 : Nat) ∈ ([0] : List Nat) := by
  refine ⟨by decide, by decide, by decide, by decide, by decide⟩

/-- C3 (amended): after the refinement loop, `minimize_moore` and
`minimize_mealy` of src/lab2.py perform NO unreachable-pruning pass:
they always return (the built-in pass budget suffices) a quotient with
exactly one state per block of the final stable partition, and the
blocks together carry every input state — including states unreachable
from the start state, which are retained (see the counterexample). -/
theorem c3_minimize_no_pruning :
    (∀ (Q : List String) (state_output : String → String) (delta : String → List String)
       (inputs : List String),
      ∃ res, Lab2.minimize_moore Q state_output delta inputs = some res ∧
        res.states = List.range res.parts.length ∧
        res.parts.flatten.Perm Q ∧
        (∀ g ∈ res.parts, g ≠ []) ∧
        Lab2.refineStep (Lab2.sigMoore state_output delta inputs) res.parts = res.parts) ∧
    (∀ (inputs states : List String) (transitions : String → List (String × String)),
      ∃ res, Lab2.minimize_mealy inputs states transitions = some res ∧
        res.states = List.range res.parts.length ∧
        res.parts.flatten.Perm states ∧
        (∀ g ∈ res.parts, g ≠ []) ∧
        Lab2.refineStep (Lab2.sigMealy transitions inputs) res.parts = res.parts) :=
  ⟨fun Q so delta inputs => Lab2.minimize_moore_total Q so delta inputs,
   fun inputs states transitions => Lab2.minimize_mealy_total inputs states transitions⟩

/-- C4: the refinement loop of `minimize_moore` and `minimize_mealy` is
monotone — in every pass each block is replaced by non-empty sub-blocks
whose members all come from that block, the pass preserves the covered
states, and the number of blocks never decreases — and therefore the
loop reaches a stable partition (a pass that splits nothing, i.e. a
fixed point of `refineStep`) within at most |states| passes from the
initial output-based partition of a non-empty state list. -/
theorem c4_refinement_terminates :
    (∀ (state_output : String → String) (delta : String → List String)
       (inputs Q : List String), Q ≠ [] →
      (∀ P : List (List String), (∀ g ∈ P, g ≠ []) →
        (∀ b ∈ Lab2.refineStep (Lab2.sigMoore state_output delta inputs) P,
          b ≠ [] ∧ ∃ g ∈ P, ∀ x ∈ b, x ∈ g) ∧
        (Lab2.refineStep (Lab2.sigMoore state_output delta inputs) P).flatten.Perm P.flatten ∧
        P.length ≤ (Lab2.refineStep (Lab2.sigMoore state_output delta inputs) P).length) ∧
      ∃ P', Lab2.refineLoop (Lab2.sigMoore state_output delta inputs) Q.length
          ((buckets (fun s => state_output s) Q).map Prod.snd) = some P' ∧
        Lab2.refineStep (Lab2.sigMoore state_output delta inputs) P' = P' ∧
        P'.flatten.Perm Q) ∧
    (∀ (transitions : String → List (String × String)) (inputs states : List String),
      states ≠ [] →
      (∀ P : List (List String), (∀ g ∈ P, g ≠ []) →
        (∀ b ∈ Lab2.refineStep (Lab2.sigMealy transitions inputs) P,
          b ≠ [] ∧ ∃ g ∈ P, ∀ x ∈ b, x ∈ g) ∧
        (Lab2.refineStep (Lab2.sigMealy transitions inputs) P).flatten.Perm P.flatten ∧
        P.length ≤ (Lab2.refineStep (Lab2.sigMealy transitions inputs) P).length) ∧
      ∃ P', Lab2.refineLoop (Lab2.sigMealy transitions inputs) states.length
          ((buckets (fun s => (List.range inputs.length).map
            (fun i => ((transitions s).getD i ("", "")).2)) states).map Prod.snd) = some P' ∧
        Lab2.refineStep (Lab2.sigMealy transitions inputs) P' = P' ∧
        P'.flatten.Perm states) :=
  ⟨fun state_output delta inputs Q hQ =>
    Lab2.refine_pass_and_term (Lab2.sigMoore state_output delta inputs)
      (fun s => state_output s) Q hQ,
   fun transitions inputs states hs =>
    Lab2.refine_pass_and_term (Lab2.sigMealy transitions inputs)
      (fun s => (List.range inputs.length).map
        (fun i => ((transitions s).getD i ("", "")).2)) states hs⟩

/-- C4 witness: both halves of `c4_refinement_terminates` applied to a
concrete two-state automaton, discharging the non-emptiness
hypotheses. -/
theorem c4_refinement_terminates_witness :
    (["q0", "q1"] ≠ ([] : List String)) ∧
    ((∀ P : List (List String), (∀ g ∈ P, g ≠ []) →
        (∀ b ∈ Lab2.refineStep (Lab2.sigMoore (fun s => if s = "q0" then "y0" else "y1")
            (fun s => if s = "q0" then ["q1"] else ["q0"]) ["a"]) P,
          b ≠ [] ∧ ∃ g ∈ P, ∀ x ∈ b, x ∈ g) ∧
        (Lab2.refineStep (Lab2.sigMoore (fun s => if s = "q0" then "y0" else "y1")
          (fun s => if s = "q0" then ["q1"] else ["q0"]) ["a"]) P).flatten.Perm P.flatten ∧
        P.length ≤ (Lab2.refineStep (Lab2.sigMoore (fun s => if s = "q0" then "y0" else "y1")
          (fun s => if s = "q0" then ["q1"] else ["q0"]) ["a"]) P).length) ∧
      ∃ P', Lab2.refineLoop (Lab2.sigMoore (fun s => if s = "q0" then "y0" else "y1")
          (fun s => if s = "q0" then ["q1"] else ["q0"]) ["a"])
          (["q0", "q1"] : List String).length
          ((buckets (fun s => (fun s => if s = "q0" then "y0" else "y1") s)
            ["q0", "q1"]).map Prod.snd) = some P' ∧
        Lab2.refineStep (Lab2.sigMoore (fun s => if s = "q0" then "y0" else "y1")
          (fun s => if s = "q0" then ["q1"] else ["q0"]) ["a"]) P' = P' ∧
        P'.flatten.Perm ["q0", "q1"]) ∧
    ((∀ P : List (List String), (∀ g ∈ P, g ≠ []) →
        (∀ b ∈ Lab2.refineStep (Lab2.sigMealy (fun _ => [("q0", "0")]) ["a"]) P,
          b ≠ [] ∧ ∃ g ∈ P, ∀ x ∈ b, x ∈ g) ∧
        (Lab2.refineStep (Lab2.sigMealy (fun _ => [("q0", "0")]) ["a"]) P).flatten.Perm
          P.flatten ∧
        P.length ≤ (Lab2.refineStep (Lab2.sigMealy (fun _ => [("q0", "0")]) ["a"]) P).length) ∧
      ∃ P', Lab2.refineLoop (Lab2.sigMealy (fun _ => [("q0", "0")]) ["a"])
          (["q0", "q1"] : List String).length
          ((buckets (fun s => (List.range (["a"] : List String).length).map
            (fun i => (((fun _ => [("q0", "0")]) s).getD i ("", "")).2))
            ["q0", "q1"]).map Prod.snd) = some P' ∧
        Lab2.refineStep (Lab2.sigMealy (fun _ => [("q0", "0")]) ["a"]) P' = P' ∧
        P'.flatten.Perm ["q0", "q1"]) :=
  ⟨by decide,
   c4_refinement_terminates.1 (fun s => if s = "q0" then "y0" else "y1")
     (fun s => if s = "q0" then ["q1"] else ["q0"]) ["a"] ["q0", "q1"] (by decide),
   c4_refinement_terminates.2 (fun _ => [("q0", "0")]) ["a"] ["q0", "q1"] (by decide)⟩

/-- C9: the equivalence check of src/checkmoore.py applied to a
well-formed Moore automaton (non-empty state list, transition targets
among its states) and itself returns `True`. -/
theorem c9_equiv_reflexive (A : CheckMoore.MooreA) (hne : A.states ≠ [])
    (hclosed : ∀ s ∈ A.states, ∀ a ∈ CheckMoore.allInputs A A,
      ∀ t ∈ A.transitions s a, t ∈ A.states) :
    CheckMoore.are_moore_automata_equivalent A.states.length A A = some true :=
  CheckMoore.equiv_true_of_sim A A id hne rfl (fun _ _ => rfl)
    (fun _ _ _ _ => ⟨rfl, fun p hp => CheckMoore.zip_same_diag _ p hp⟩) hclosed

/-- C9 witness: reflexivity on a concrete two-state Moore automaton. -/
theorem c9_equiv_reflexive_witness :
    ((CheckMoore.MooreA.mk ["s0", "s1"] (fun s => if s = "s1" then "y1" else "y0")
        (fun s a => if a = "a" then (if s = "s0" then ["s1"] else ["s0"]) else [])
        ["a"]).states ≠ []) ∧
    (∀ s ∈ (CheckMoore.MooreA.mk ["s0", "s1"] (fun s => if s = "s1" then "y1" else "y0")
        (fun s a => if a = "a" then (if s = "s0" then ["s1"] else ["s0"]) else [])
        ["a"]).states,
      ∀ a ∈ CheckMoore.allInputs
        (CheckMoore.MooreA.mk ["s0", "s1"] (fun s => if s = "s1" then "y1" else "y0")
          (fun s a => if a = "a" then (if s = "s0" then ["s1"] else ["s0"]) else [])
          ["a"])
        (CheckMoore.MooreA.mk ["s0", "s1"] (fun s => if s = "s1" then "y1" else "y0")
          (fun s a => if a = "a" then (if s = "s0" then ["s1"] else ["s0"]) else [])
          ["a"]),
      ∀ t ∈ (CheckMoore.MooreA.mk ["s0", "s1"] (fun s => if s = "s1" then "y1" else "y0")
        (fun s a => if a = "a" then (if s = "s0" then ["s1"] else ["s0"]) else [])
        ["a"]).transitions s a,
        t ∈ (CheckMoore.MooreA.mk ["s0", "s1"] (fun s => if s = "s1" then "y1" else "y0")
          (fun s a => if a = "a" then (if s = "s0" then ["s1"] else ["s0"]) else [])
          ["a"]).states) ∧
    CheckMoore.are_moore_automata_equivalent
      (CheckMoore.MooreA.mk ["s0", "s1"] (fun s => if s = "s1" then "y1" else "y0")
        (fun s a => if a = "a" then (if s = "s0" then ["s1"] else ["s0"]) else [])
        ["a"]).states.length
      (CheckMoore.MooreA.mk ["s0", "s1"] (fun s => if s = "s1" then "y1" else "y0")
        (fun s a => if a = "a" then (if s = "s0" then ["s1"] else ["s0"]) else [])
        ["a"])
      (CheckMoore.MooreA.mk ["s0", "s1"] (fun s => if s = "s1" then "y1" else "y0")
        (fun s a => if a = "a" then (if s = "s0" then ["s1"] else ["s0"]) else [])
        ["a"]) = some true :=
  ⟨by decide, by decide,
   c9_equiv_reflexive
     (CheckMoore.MooreA.mk ["s0", "s1"] (fun s => if s = "s1" then "y1" else "y0")
       (fun s a => if a = "a" then (if s = "s0" then ["s1"] else ["s0"]) else [])
       ["a"]) (by decide) (by decide)⟩

/-- C2 counterexample: the claimed "only if" direction fails.  On a
two-state automaton whose second state is unreachable and a one-state
automaton, `are_moore_automata_equivalent` of src/checkmoore.py returns
`True` (the traversal only visits reachable states and never checks
totality), yet no bijection between the two state sets exists — they
have different cardinalities. -/
theorem c2_counterexample :
    CheckMoore.are_moore_automata_equivalent 2
        (CheckMoore.MooreA.mk ["s0", "s1"] (fun s => if s = "s1" then "y1" else "y0")
          (fun _ _ => []) [])
        (CheckMoore.MooreA.mk ["t0"] (fun _ => "y0") (fun _ _ => []) [])
      = some true ∧
    ¬ ∃ p : List (String × String),
        (p.map Prod.fst).Perm ["s0", "s1"] ∧ (p.map Prod.snd).Perm ["t0"] := by
  constructor
  · decide
  · rintro ⟨p, h1, h2⟩
    have l1 : p.length = 2 := by simpa using h1.length_eq
    have l2 : p.length = 1 := by simpa using h2.length_eq
    omega

/-- C2 (amended): for deterministic Moore automata the check is
complete: IF a state-renaming bijection `f` exists — start states
correspond, corresponding states have identical outputs, and
corresponding states' transitions on every symbol lead to corresponding
states — THEN `are_moore_automata_equivalent` returns `True`.  The
converse fails (see the counterexample): the traversal maintains only a
mapping on states reachable from the start pair and never checks that
it is injective or total, so `True` does not imply that a bijection
exists. -/
theorem c2_equiv_bijection_complete (a1 a2 : CheckMoore.MooreA) (f : String → String)
    (hne : a1.states ≠ [])
    (hbij : (a1.states.map f).Perm a2.states)
    (hstart : f (a1.states.headD "") = a2.states.headD "")
    (hout : ∀ s ∈ a1.states, a1.outputs s = a2.outputs (f s))
    (hdet : ∀ s ∈ a1.states, ∀ a ∈ CheckMoore.allInputs a1 a2,
      (a1.transitions s a).length ≤ 1)
    (htrans : ∀ s ∈ a1.states, ∀ a ∈ CheckMoore.allInputs a1 a2,
      ((a1.transitions s a).map f).Perm (a2.transitions (f s) a))
    (hclosed : ∀ s ∈ a1.states, ∀ a ∈ CheckMoore.allInputs a1 a2,
      ∀ t ∈ a1.transitions s a, t ∈ a1.states) :
    CheckMoore.are_moore_automata_equivalent a1.states.length a1 a2 = some true := by
  refine CheckMoore.equiv_true_of_sim a1 a2 f hne hstart hout ?_ hclosed
  intro s hs a ha
  have hperm := htrans s hs a ha
  have hlen : (a1.transitions s a).length = (a2.transitions (f s) a).length := by
    have := hperm.length_eq
    simpa using this
  refine ⟨hlen, ?_⟩
  have hd := hdet s hs a ha
  cases hl1 : a1.transitions s a with
  | nil =>
    rw [hl1] at hperm
    have h2nil : a2.transitions (f s) a = [] := by
      simpa using hperm.symm.eq_nil
    rw [h2nil]
    intro p hp
    simp [CheckMoore.sortStr] at hp
  | cons d rest =>
    have hrest : rest = [] := by
      rw [hl1] at hd
      simp only [List.length_cons] at hd
      exact List.eq_nil_of_length_eq_zero (by omega)
    subst hrest
    rw [hl1] at hperm
    have h2 : a2.transitions (f s) a = [f d] := by
      simpa using List.perm_singleton.mp hperm.symm
    rw [h2]
    intro p hp
    have h1 : CheckMoore.sortStr [d] = [d] := rfl
    have h2s : CheckMoore.sortStr [f d] = [f d] := rfl
    rw [h1, h2s] at hp
    rcases List.mem_singleton.mp hp with rfl
    rfl

/-- C2 witness: two renamed copies of a two-state automaton with the
renaming bijection, discharging all hypotheses of the completeness
direction. -/
theorem c2_equiv_bijection_witness :
    ((CheckMoore.MooreA.mk ["s0", "s1"] (fun s => if s = "s1" then "y1" else "y0")
        (fun s a => if a = "a" then (if s = "s0" then ["s1"] else ["s0"]) else [])
        ["a"]).states ≠ []) ∧
    CheckMoore.are_moore_automata_equivalent
      (CheckMoore.MooreA.mk ["s0", "s1"] (fun s => if s = "s1" then "y1" else "y0")
        (fun s a => if a = "a" then (if s = "s0" then ["s1"] else ["s0"]) else [])
        ["a"]).states.length
      (CheckMoore.MooreA.mk ["s0", "s1"] (fun s => if s = "s1" then "y1" else "y0")
        (fun s a => if a = "a" then (if s = "s0" then ["s1"] else ["s0"]) else [])
        ["a"])
      (CheckMoore.MooreA.mk ["t0", "t1"] (fun s => if s = "t1" then "y1" else "y0")
        (fun s a => if a = "a" then (if s = "t0" then ["t1"] else ["t0"]) else [])
        ["a"]) = some true :=
  ⟨by decide,
   c2_equiv_bijection_complete
     (CheckMoore.MooreA.mk ["s0", "s1"] (fun s => if s = "s1" then "y1" else "y0")
       (fun s a => if a = "a" then (if s = "s0" then ["s1"] else ["s0"]) else [])
       ["a"])
     (CheckMoore.MooreA.mk ["t0", "t1"] (fun s => if s = "t1" then "y1" else "y0")
       (fun s a => if a = "a" then (if s = "t0" then ["t1"] else ["t0"]) else [])
       ["a"])
     (fun s => if s = "s0" then "t0" else if s = "s1" then "t1" else s)
     (by decide) (by decide) (by decide) (by decide) (by decide) (by decide) (by decide)⟩

/-- C6: For a Mealy machine with nonempty state and input lists whose
transition targets stay inside the state list, converting to a Moore
machine and back (`convert_mealy_to_moore` then
`convert_moore_to_mealy`, each with its unreachable-state pruning pass)
yields a machine that produces, on every input word over the machine's
input alphabet, the same output sequence as the original machine run
from its start state. -/
theorem c6_round_trip (M : Lab1.Mealy)
    (hne : M.states ≠ []) (hin : M.inputs ≠ [])
    (hcl : ∀ q ∈ M.states, ∀ a ∈ M.inputs, (M.delta q a).1 ∈ M.states)
    (w : List String) (hw : ∀ a ∈ w, a ∈ M.inputs) :
    ∃ RT, Lab1.roundTrip M = some RT ∧
      Lab1.runMealyR RT.trans RT.start w
        = some (Lab1.runMealyF M (M.states.headD "") w) := by
  obtain ⟨R1, hMo, hstartR1, hsubR1, hclR1⟩ := Lab1.convert_m2m_spec M hne hcl
  have hstart_lookup := Lab1.start_moore_lookup M hne
  have hstart_ent := lookupA_mem_of_some _ _ _ hstart_lookup
  have hstart_names : (Lab1.prunedMoore M R1).start
      ∈ (Lab1.prunedMoore M R1).states.map Prod.fst :=
    Lab1.prunedMoore_names_mem M R1 _ _ _ hstart_ent hstartR1
  obtain ⟨R2, hRT, hstartR2, hsub2, hcl2⟩ :=
    Lab1.convert_m2mealy_spec M R1 hcl hclR1 hstart_names
  have hround : Lab1.roundTrip M = some
      { states := ((Lab1.prunedMoore M R1).states.map Prod.fst).filter
          (fun st => decide (st ∈ R2))
        inputs := (Lab1.prunedMoore M R1).inputs
        trans := (((Lab1.prunedMoore M R1).states.map Prod.fst).filter
          (fun st => decide (st ∈ R2))).map
          (fun st => (st, Lab1.mealyRow (Lab1.prunedMoore M R1) st))
        start := (Lab1.prunedMoore M R1).start } := by
    unfold Lab1.roundTrip
    simp only [hMo, hRT]
  exact ⟨_, hround, Lab1.roundTrip_sim M R1 R2 hcl hclR1 hsub2 hcl2 w hw
    (M.states.headD "") ((Lab1.incoming M (M.states.headD "")).headD "")
    (Lab1.start_moore M) hstart_ent hstartR2⟩

/-- C6 witness: a concrete two-state Mealy machine and a four-symbol
input word, discharging all hypotheses of the round-trip theorem. -/
theorem c6_round_trip_witness :
    ((Lab1.Mealy.mk ["s0", "s1"] ["x", "y"]
      (fun q a => if q = "s0" then (if a = "x" then ("s1", "o1") else ("s0", "o2"))
        else (if a = "x" then ("s0", "o2") else ("s1", "o1")))).states ≠ []) ∧
    ((Lab1.Mealy.mk ["s0", "s1"] ["x", "y"]
      (fun q a => if q = "s0" then (if a = "x" then ("s1", "o1") else ("s0", "o2"))
        else (if a = "x" then ("s0", "o2") else ("s1", "o1")))).inputs ≠ []) ∧
    (∀ q ∈ (Lab1.Mealy.mk ["s0", "s1"] ["x", "y"]
      (fun q a => if q = "s0" then (if a = "x" then ("s1", "o1") else ("s0", "o2"))
        else (if a = "x" then ("s0", "o2") else ("s1", "o1")))).states,
      ∀ a ∈ (Lab1.Mealy.mk ["s0", "s1"] ["x", "y"]
        (fun q a => if q = "s0" then (if a = "x" then ("s1", "o1") else ("s0", "o2"))
          else (if a = "x" then ("s0", "o2") else ("s1", "o1")))).inputs,
      ((Lab1.Mealy.mk ["s0", "s1"] ["x", "y"]
        (fun q a => if q = "s0" then (if a = "x" then ("s1", "o1") else ("s0", "o2"))
          else (if a = "x" then ("s0", "o2") else ("s1", "o1")))).delta q a).1
        ∈ (Lab1.Mealy.mk ["s0", "s1"] ["x", "y"]
          (fun q a => if q = "s0" then (if a = "x" then ("s1", "o1") else ("s0", "o2"))
            else (if a = "x" then ("s0", "o2") else ("s1", "o1")))).states) ∧
    (∀ a ∈ ["x", "y", "x", "x"], a ∈ (Lab1.Mealy.mk ["s0", "s1"] ["x", "y"]
      (fun q a => if q = "s0" then (if a = "x" then ("s1", "o1") else ("s0", "o2"))
        else (if a = "x" then ("s0", "o2") else ("s1", "o1")))).inputs) ∧
    ∃ RT, Lab1.roundTrip (Lab1.Mealy.mk ["s0", "s1"] ["x", "y"]
      (fun q a => if q = "s0" then (if a = "x" then ("s1", "o1") else ("s0", "o2"))
        else (if a = "x" then ("s0", "o2") else ("s1", "o1")))) = some RT ∧
      Lab1.runMealyR RT.trans RT.start ["x", "y", "x", "x"]
        = some (Lab1.runMealyF (Lab1.Mealy.mk ["s0", "s1"] ["x", "y"]
          (fun q a => if q = "s0" then (if a = "x" then ("s1", "o1") else ("s0", "o2"))
            else (if a = "x" then ("s0", "o2") else ("s1", "o1"))))
          ((Lab1.Mealy.mk ["s0", "s1"] ["x", "y"]
            (fun q a => if q = "s0" then (if a = "x" then ("s1", "o1") else ("s0", "o2"))
              else (if a = "x" then ("s0", "o2") else ("s1", "o1")))).states.headD "")
          ["x", "y", "x", "x"]) :=
  ⟨by decide, by decide, by decide, by decide,
   c6_round_trip (Lab1.Mealy.mk ["s0", "s1"] ["x", "y"]
     (fun q a => if q = "s0" then (if a = "x" then ("s1", "o1") else ("s0", "o2"))
       else (if a = "x" then ("s0", "o2") else ("s1", "o1"))))
     (by decide) (by decide) (by decide) ["x", "y", "x", "x"] (by decide)⟩

/-- C8: If after scanning all transitions the start state's
incoming-output set is empty, `convert_mealy_to_moore` seeds it with
the output of the start state's transition on the first input symbol,
so the incoming set becomes exactly that one output and the resulting
Moore automaton's start state exists and carries that output. -/
theorem c8_start_seeding (M : Lab1.Mealy)
    (hne : M.states ≠ []) (hin : M.inputs ≠ [])
    (hcl : ∀ q ∈ M.states, ∀ a ∈ M.inputs, (M.delta q a).1 ∈ M.states)
    (hempty : Lab1.incoming0 M (M.states.headD "") = []) :
    Lab1.incoming M (M.states.headD "")
      = [(M.delta (M.states.headD "") (M.inputs.headD "")).2] ∧
    ∃ Mo, Lab1.convert_mealy_to_moore M = some Mo ∧
      lookupA Mo.states Mo.start
        = some (M.delta (M.states.headD "") (M.inputs.headD "")).2 := by
  have hseed : Lab1.incoming M (M.states.headD "")
      = [(M.delta (M.states.headD "") (M.inputs.headD "")).2] := by
    unfold Lab1.incoming
    rw [if_pos hempty]
    unfold Lab1.updIncoming
    rw [if_pos rfl, hempty]
    simp
  refine ⟨hseed, ?_⟩
  obtain ⟨R1, hMo, hstartR1, _, _⟩ := Lab1.convert_m2m_spec M hne hcl
  have hstart_lookup := Lab1.start_moore_lookup M hne
  rw [hseed] at hstart_lookup
  simp only [List.headD_cons] at hstart_lookup
  have hstart_ent := lookupA_mem_of_some _ _ _ hstart_lookup
  refine ⟨Lab1.prunedMoore M R1, hMo, ?_⟩
  exact Lab1.prunedMoore_states_lookup M R1 _ _ _ hstart_ent hstartR1

/-- C8 witness: a concrete Mealy machine whose start state has no
incoming transitions, discharging all hypotheses of the seeding
theorem. -/
theorem c8_start_seeding_witness :
    ((Lab1.Mealy.mk ["p0", "p1"] ["x", "y"]
      (fun _ a => if a = "x" then ("p1", "a") else ("p1", "b"))).states ≠ []) ∧
    ((Lab1.Mealy.mk ["p0", "p1"] ["x", "y"]
      (fun _ a => if a = "x" then ("p1", "a") else ("p1", "b"))).inputs ≠ []) ∧
    (∀ q ∈ (Lab1.Mealy.mk ["p0", "p1"] ["x", "y"]
      (fun _ a => if a = "x" then ("p1", "a") else ("p1", "b"))).states,
      ∀ a ∈ (Lab1.Mealy.mk ["p0", "p1"] ["x", "y"]
        (fun _ a => if a = "x" then ("p1", "a") else ("p1", "b"))).inputs,
      ((Lab1.Mealy.mk ["p0", "p1"] ["x", "y"]
        (fun _ a => if a = "x" then ("p1", "a") else ("p1", "b"))).delta q a).1
        ∈ (Lab1.Mealy.mk ["p0", "p1"] ["x", "y"]
          (fun _ a => if a = "x" then ("p1", "a") else ("p1", "b"))).states) ∧
    (Lab1.incoming0 (Lab1.Mealy.mk ["p0", "p1"] ["x", "y"]
      (fun _ a => if a = "x" then ("p1", "a") else ("p1", "b")))
      ((Lab1.Mealy.mk ["p0", "p1"] ["x", "y"]
        (fun _ a => if a = "x" then ("p1", "a") else ("p1", "b"))).states.headD "")
      = []) ∧
    (Lab1.incoming (Lab1.Mealy.mk ["p0", "p1"] ["x", "y"]
      (fun _ a => if a = "x" then ("p1", "a") else ("p1", "b")))
      ((Lab1.Mealy.mk ["p0", "p1"] ["x", "y"]
        (fun _ a => if a = "x" then ("p1", "a") else ("p1", "b"))).states.headD "")
      = [((Lab1.Mealy.mk ["p0", "p1"] ["x", "y"]
        (fun _ a => if a = "x" then ("p1", "a") else ("p1", "b"))).delta
        ((Lab1.Mealy.mk ["p0", "p1"] ["x", "y"]
          (fun _ a => if a = "x" then ("p1", "a") else ("p1", "b"))).states.headD "")
        ((Lab1.Mealy.mk ["p0", "p1"] ["x", "y"]
          (fun _ a => if a = "x" then ("p1", "a") else ("p1", "b"))).inputs.headD "")).2]) ∧
    ∃ Mo, Lab1.convert_mealy_to_moore (Lab1.Mealy.mk ["p0", "p1"] ["x", "y"]
        (fun _ a => if a = "x" then ("p1", "a") else ("p1", "b"))) = some Mo ∧
      lookupA Mo.states Mo.start
        = some ((Lab1.Mealy.mk ["p0", "p1"] ["x", "y"]
          (fun _ a => if a = "x" then ("p1", "a") else ("p1", "b"))).delta
          ((Lab1.Mealy.mk ["p0", "p1"] ["x", "y"]
            (fun _ a => if a = "x" then ("p1", "a") else ("p1", "b"))).states.headD "")
          ((Lab1.Mealy.mk ["p0", "p1"] ["x", "y"]
            (fun _ a => if a = "x" then ("p1", "a") else ("p1", "b"))).inputs.headD "")).2 :=
  ⟨by decide, by decide, by decide, by decide,
   (c8_start_seeding (Lab1.Mealy.mk ["p0", "p1"] ["x", "y"]
     (fun _ a => if a = "x" then ("p1", "a") else ("p1", "b")))
     (by decide) (by decide) (by decide) (by decide)).1,
   (c8_start_seeding (Lab1.Mealy.mk ["p0", "p1"] ["x", "y"]
     (fun _ a => if a = "x" then ("p1", "a") else ("p1", "b")))
     (by decide) (by decide) (by decide) (by decide)).2⟩
